import Mathlib

/-! getbepis.c : growable strings and the meta-object list

A shallow embedding of `src/getbepis.c`.

Conventions of the embedding.

* A C pointer that may be `NULL` is an `Option`; a pointee that a function
  mutates is returned (explicit state passing).
* The data model is LP64: `size_t` is a `Nat` below `2^64`, with wrap-around
  written `% SIZE_MOD`; `int` is an `Int` in the 32 bit two's complement
  range, and the overflow of a signed counter is undefined behaviour.
* A `char` array is a `List Nat` holding the bytes of the whole array, the
  terminating zero byte included.  Reading or writing outside the array is
  undefined behaviour.
* `float` is single precision: finite values are `m * 2^e` with a mantissa
  of at most 24 bits, arithmetic rounds to nearest, ties to even.
* The process globals (`g_CurrentErrors`) and the outcomes of the coming
  `calloc` calls are carried in a `World`.  Text written to `stdout` is not
  modelled.
* The records of a list live in a `Heap`, a map from addresses to records;
  the list functions take the memory and return it.  Loops and recursions that
  follow `next` pointers without a bound of their own take a `fuel` and return
  `none` when it runs out.
-/

namespace GetBepis

/-! ## Outcomes -/

/-- How a call ends: it returns, the process leaves through `exit`, or the
call runs into undefined behaviour. -/
inductive Outcome (α : Type) where
  | ok (a : α)
  | exited (status : Int)
  | undefined
deriving DecidableEq

/-- Sequencing of two calls. -/
def Outcome.bind {α β : Type} (x : Outcome α) (f : α → Outcome β) : Outcome β :=
  match x with
  | .ok a => f a
  | .exited s => .exited s
  | .undefined => .undefined

/-! ## Machine integers -/

/-- Number of values of a `size_t` (64 bit). -/
def SIZE_MOD : Nat := 18446744073709551616

/-- Largest value of an `int` (32 bit). -/
def INT_MAX : Nat := 2147483647

/-- Bit pattern of an `int`, as an unsigned 32 bit number. -/
def toU32 (x : Int) : Nat := (x % 4294967296).toNat

/-- The `int` with a given 32 bit pattern (two's complement). -/
def ofU32 (n : Nat) : Int :=
  if n % 4294967296 < 2147483648 then ((n % 4294967296 : Nat) : Int)
  else ((n % 4294967296 : Nat) : Int) - 4294967296

/-- Bitwise and of two `int`s, the C operator `&`. -/
def int_and (a b : Int) : Int := ofU32 (Nat.land (toU32 a) (toU32 b))

/-- Bitwise or of two `int`s, the C operator `|`. -/
def int_or (a b : Int) : Int := ofU32 (Nat.lor (toU32 a) (toU32 b))

/-- Left shift of an `int`, the C operator `<<`, on the bit pattern. -/
def int_shl (a : Int) (n : Nat) : Int := ofU32 (toU32 a * 2 ^ n)

/-- Arithmetic right shift of an `int`, the C operator `>>`. -/
def int_shr (a : Int) (n : Nat) : Int := a >>> n

/-! ## Error codes (`enum ERR_CODE`) and the global error mask -/

def ERR_CODE_NONE : Int := int_shl 0 0
def ERR_CODE_FATAL : Int := int_shl 1 31
def ERR_CODE_USER_ERROR : Int := int_shl 1 30
def ERR_CODE_BAD_MALLOC : Int := int_or (int_shl 1 0) ERR_CODE_FATAL
def ERR_CODE_BAD_CLI : Int := int_or (int_or (int_shl 1 1) ERR_CODE_FATAL) ERR_CODE_USER_ERROR
def ERR_CODE_BAD_FILE : Int := int_or (int_shl 1 2) ERR_CODE_FATAL
def ERR_CODE_BAD_TEST_NUM : Int := int_or (int_shl 1 3) ERR_CODE_USER_ERROR

/-- Process state seen by the string and list code: the global error mask
`g_CurrentErrors`, and the results of the `calloc` calls still to come
(`true`: the call returns memory, `false`: it returns `NULL`; once the list
is used up every call returns memory). -/
structure World where
  g_CurrentErrors : Int
  allocs : List Bool
deriving DecidableEq

/-- Every coming `calloc` call returns memory. -/
def World.AllocOk (w : World) : Prop := ∀ b ∈ w.allocs, b = true

instance (w : World) : Decidable w.AllocOk := by
  unfold World.AllocOk; exact inferInstance

/-- The function `FindFirstSet` (lines 462-482). -/
def FindFirstSet (dword : Int) : Int :=
  let i16 := int_shl (if int_and dword 0xFFFF = 0 then 1 else 0) 4
  let dword := int_shr dword i16.toNat
  let i8 := int_shl (if int_and dword 0xFF = 0 then 1 else 0) 3
  let dword := int_shr dword i8.toNat
  let i4 := int_shl (if int_and dword 0x0F = 0 then 1 else 0) 2
  let dword := int_shr dword i4.toNat
  let i2 := int_shl (if int_and dword 0x03 = 0 then 1 else 0) 1
  let dword := int_shr dword i2.toNat
  let i1 : Int := if int_and dword 0x01 = 0 then 1 else 0
  let i0 : Int := if int_and (int_shr dword i1.toNat) 0x01 ≠ 0 then 0 else -32
  i16 + i8 + i4 + i2 + i1 + i0

/-- The function `CurrentErrors_Contains` (lines 484-487). -/
def CurrentErrors_Contains (w : World) (code : Int) : Bool :=
  int_and w.g_CurrentErrors code = code

/-- Number of entries of the table `s_CodeToStringLookup` of `Throw`. -/
def s_CodeToStringLookup_length : Nat := 34

/-- The function `Terminate` (lines 597-601): the process leaves with the
error mask as its status. -/
def Terminate {α : Type} (w : World) : Outcome α :=
  .exited w.g_CurrentErrors

/-- The function `Throw` (lines 610-676).  The message is looked up in the
34 entry table at `FindFirstSet code + 1`; an index outside the table is
undefined behaviour. -/
def Throw (w : World) (code : Int) : Outcome World :=
  let step : Outcome World :=
    if code > ERR_CODE_NONE then
      let idx := FindFirstSet code + 1
      let w1 := { w with g_CurrentErrors := int_or w.g_CurrentErrors code }
      if 0 ≤ idx ∧ idx < s_CodeToStringLookup_length then .ok w1 else .undefined
    else .ok w
  step.bind fun w1 =>
    if CurrentErrors_Contains w1 ERR_CODE_FATAL then Terminate w1 else .ok w1

/-! ## Single precision numbers -/

/-- A `float`.  A finite value is `(-1)^neg * m * 2^e`. -/
inductive CFloat where
  | nan
  | inf (neg : Bool)
  | fin (neg : Bool) (m : Nat) (e : Int)
deriving DecidableEq

/-- Number of binary digits of `n`, by halving at most `fuel` times. -/
def bitLengthAux : Nat → Nat → Nat
  | 0, _ => 0
  | fuel + 1, n => if n = 0 then 0 else bitLengthAux fuel (n / 2) + 1

/-- Number of binary digits of `n`. -/
def bitLength (n : Nat) : Nat := bitLengthAux n n

/-- The quotient `m / 2^k` rounded to the nearest integer, ties to even. -/
def roundShift (m k : Nat) : Nat :=
  let q := m / 2 ^ k
  let r := m % 2 ^ k
  if 2 ^ k < 2 * r ∨ (2 * r = 2 ^ k ∧ q % 2 = 1) then q + 1 else q

/-- Rounding of the exact value `m * 2^e` to single precision: the mantissa
is cut to 24 bits and the exponent is kept at or above `-149`. -/
def roundF32 (m : Nat) (e : Int) : Nat × Int :=
  let k := max (bitLength m - 24) (-149 - e).toNat
  (roundShift m k, e + (k : Int))

/-- A rounded value is too large for a finite `float` (`2^128` or more). -/
def overflowsF32 (m : Nat) (e : Int) : Bool :=
  decide (0 ≤ e) && decide (2 ^ 128 ≤ m * 2 ^ e.toNat)

/-- The conversion `(float)n` of a `size_t`. -/
def CFloat.ofSizeT (n : Nat) : CFloat :=
  .fin false (roundF32 n 0).1 (roundF32 n 0).2

/-- The product of two `float`s. -/
def CFloat.mul : CFloat → CFloat → CFloat
  | .nan, _ => .nan
  | _, .nan => .nan
  | .inf s, .inf t => .inf (xor s t)
  | .inf s, .fin t m _ => if m = 0 then .nan else .inf (xor s t)
  | .fin s m _, .inf t => if m = 0 then .nan else .inf (xor s t)
  | .fin s m e, .fin t n f =>
      let r := roundF32 (m * n) (e + f)
      if overflowsF32 r.1 r.2 then .inf (xor s t) else .fin (xor s t) r.1 r.2

/-- The comparison `x > 1.0f`. -/
def CFloat.gtOne : CFloat → Bool
  | .nan => false
  | .inf neg => !neg
  | .fin neg m e =>
      !neg && (if 0 ≤ e then decide (1 < m * 2 ^ e.toNat) else decide (2 ^ (-e).toNat < m))

/-- The conversion `(size_t)x`: the value is cut towards zero; a value whose
integral part is no `size_t` makes the conversion undefined (`none`). -/
def CFloat.toSizeT : CFloat → Option Nat
  | .nan => none
  | .inf _ => none
  | .fin neg m e =>
      let t := if 0 ≤ e then m * 2 ^ e.toNat else m / 2 ^ (-e).toNat
      if neg then (if t = 0 then some 0 else none)
      else if t < SIZE_MOD then some t else none

/-- The constant `BSTRING_DEFAULT_CAPACITY`. -/
def BSTRING_DEFAULT_CAPACITY : Nat := 8

/-- The constant `BSTRING_DEFAULT_GROWTHFACTOR`, `2.0f`. -/
def BSTRING_DEFAULT_GROWTHFACTOR : CFloat := .fin false 1 1

/-! ## Memory: `calloc`, `strlen`, `strcpy` -/

/-- The call `calloc(n, sizeof(char))`: `n` zero bytes, or `NULL`. -/
def calloc (w : World) (n : Nat) : Option (List Nat) × World :=
  match w.allocs with
  | [] => (some (List.replicate n 0), w)
  | b :: rest =>
      (if b then some (List.replicate n 0) else none, { w with allocs := rest })

/-- The call `strlen(s)` on the array `s`: the index of its first zero byte;
an array without one is read past its end (`none`). -/
def strlen : List Nat → Option Nat
  | [] => none
  | c :: cs => if c = 0 then some 0 else (strlen cs).map (· + 1)

/-- The call `strcpy(dst, src)`: the bytes of `src` up to and including its
first zero byte replace the start of `dst`; `none` when `src` has no zero
byte or `dst` is too short. -/
def strcpy (dst src : List Nat) : Option (List Nat) :=
  match strlen src with
  | none => none
  | some n =>
      if n + 1 ≤ dst.length then some (src.take (n + 1) ++ dst.drop (n + 1)) else none

/-! ## Records (`MetaData`) -/

/-- The enumeration `METAOBJECT_TYPE`. -/
inductive METAOBJECT_TYPE where
  | BSTRING
  | OPTION_INPUT
deriving DecidableEq

/-- The functions a `Destructor` pointer of the program can point to. -/
inductive Destructor where
  | BString_Dispose
deriving DecidableEq

/-- The record header `struct MetaData`.  The pointers `next` and
`metalist` are addresses, `none` for `NULL`. -/
structure MetaData where
  next : Option Nat
  nextcount : Nat
  type : METAOBJECT_TYPE
  metalist : Option Nat
  dtor : Option Destructor
deriving DecidableEq

/-- The function `MetaData_Construct` (lines 166-178). -/
def MetaData_Construct (metadata : Option MetaData) (type : METAOBJECT_TYPE)
    (dtor : Option Destructor) : Option MetaData :=
  match metadata with
  | some _ =>
      some { next := none, nextcount := 0, type := type, metalist := none, dtor := dtor }
  | none => none

/-! ## Strings (`BString`) -/

/-- The record `struct BasicString`; `data` is the byte array the pointer
`data` points to, `none` for `NULL`. -/
structure BString where
  metadata : MetaData
  data : Option (List Nat)
  size : Nat
  capacity : Nat
deriving DecidableEq

/-- The call `calloc(1, sizeof(BString))`: a record of zero bytes, or `NULL`. -/
def callocBString (w : World) : Option BString × World :=
  let zero : BString :=
    { metadata := { next := none, nextcount := 0, type := .BSTRING, metalist := none,
                    dtor := none },
      data := none, size := 0, capacity := 0 }
  match w.allocs with
  | [] => (some zero, w)
  | b :: rest => (if b then some zero else none, { w with allocs := rest })

/-- The function `BString_Construct` (lines 263-302).  Returns the `bool`
result and the record `ptr` points to afterwards. -/
def BString_Construct (w : World) (ptr : Option BString) (str : List Nat) (len : Nat) :
    Outcome (Bool × Option BString × World) :=
  match ptr with
  | none => .ok (false, none, w)
  | some p =>
      match MetaData_Construct (some p.metadata) .BSTRING (some .BString_Dispose) with
      | none => .undefined
      | some md =>
          let p := { p with metadata := md }
          if len = 0 then
            let p := { p with size := 0, capacity := BSTRING_DEFAULT_CAPACITY }
            let r := calloc w BSTRING_DEFAULT_CAPACITY
            let p := { p with data := r.1 }
            match r.1 with
            | none => (Throw r.2 ERR_CODE_BAD_MALLOC).bind fun w1 => .ok (false, some p, w1)
            | some _ => .ok (true, some p, r.2)
          else
            let p := { p with size := (len + 1) % SIZE_MOD, capacity := (len + 1) % SIZE_MOD }
            let r := calloc w p.capacity
            let p := { p with data := r.1 }
            match r.1 with
            | none => (Throw r.2 ERR_CODE_BAD_MALLOC).bind fun w1 => .ok (false, some p, w1)
            | some buf =>
                match strcpy buf str with
                | none => .undefined
                | some buf1 => .ok (true, some { p with data := some buf1 }, r.2)

/-- The function `BString_Create` (lines 304-322). -/
def BString_Create (w : World) (str : List Nat) (len : Nat) :
    Outcome (Option BString × World) :=
  let r := callocBString w
  match r.1 with
  | none => (Throw r.2 ERR_CODE_BAD_MALLOC).bind fun w1 => .ok (none, w1)
  | some result =>
      (BString_Construct r.2 (some result) str len).bind fun c =>
        if c.1 = false then
          (Throw c.2.2 ERR_CODE_FATAL).bind fun w1 => .ok (none, w1)
        else .ok (c.2.1, c.2.2)

/-- The function `BString_GrowCapacity` (lines 340-362).  Returns the
`bool` result and the record afterwards. -/
def BString_GrowCapacity (w : World) (bstring : Option BString) (growth_factor : CFloat) :
    Outcome (Bool × Option BString × World) :=
  match bstring with
  | none => .ok (false, none, w)
  | some b =>
      if growth_factor.gtOne then
        let old_array := b.data
        match ((CFloat.ofSizeT b.capacity).mul growth_factor).toSizeT with
        | none => .undefined
        | some new_cap =>
            let r := calloc w new_cap
            let b := { b with data := r.1 }
            match r.1 with
            | none => (Throw r.2 ERR_CODE_BAD_MALLOC).bind fun w1 => .ok (false, some b, w1)
            | some buf =>
                let b := { b with capacity := new_cap }
                match old_array with
                | none => .undefined
                | some old =>
                    match strcpy buf old with
                    | none => .undefined
                    | some buf1 => .ok (true, some { b with data := some buf1 }, r.2)
      else .ok (false, some b, w)

/-- The function `BString_PushBackChar` (lines 364-375). -/
def BString_PushBackChar (w : World) (bstring : Option BString) (c : Nat) :
    Outcome (Option BString × World) :=
  match bstring with
  | none => .ok (none, w)
  | some b =>
      let grown : Outcome (Option BString × World) :=
        if b.size = (b.capacity + SIZE_MOD - 1) % SIZE_MOD then
          (BString_GrowCapacity w (some b) BSTRING_DEFAULT_GROWTHFACTOR).bind fun g =>
            .ok (g.2.1, g.2.2)
        else .ok (some b, w)
      grown.bind fun g =>
        match g.1 with
        | none => .undefined
        | some b1 =>
            match b1.data with
            | none => .undefined
            | some buf =>
                if b1.size < buf.length then
                  .ok (some { b1 with data := some (buf.set b1.size c),
                                      size := (b1.size + 1) % SIZE_MOD }, g.2)
                else .undefined

/-- The loop of `BString_PushBackCString`: `remaining` is `len - i`.  The
counter `i` is an `int`; incrementing it at `INT_MAX` is undefined. -/
def BString_PushBackCString_loop (cstring : List Nat) :
    Nat → Nat → World → Option BString → Outcome (Option BString × World)
  | 0, _, w, bstring => .ok (bstring, w)
  | remaining + 1, i, w, bstring =>
      if i < INT_MAX then
        match cstring[i]? with
        | none => .undefined
        | some c =>
            (BString_PushBackChar w bstring c).bind fun r =>
              BString_PushBackCString_loop cstring remaining (i + 1) r.2 r.1
      else .undefined

/-- The function `BString_PushBackCString` (lines 377-386). -/
def BString_PushBackCString (w : World) (bstring : Option BString) (cstring : List Nat) :
    Outcome (Option BString × World) :=
  match strlen cstring with
  | none => .undefined
  | some len => BString_PushBackCString_loop cstring len 0 w bstring

/-! ## Auxiliary notions used in the statements -/

/-- The value `(float)cap`, as a natural number. -/
def floatValue (cap : Nat) : Nat :=
  roundShift cap (bitLength cap - 24) * 2 ^ (bitLength cap - 24)

/-- The header `MetaData_Construct` writes for a string. -/
def bstringHeader : MetaData :=
  { next := none, nextcount := 0, type := .BSTRING, metalist := none,
    dtor := some .BString_Dispose }

/-- A live string of the data model: the buffer is allocated with `capacity`
bytes, `size < capacity < 2^64`, and the last byte of the buffer, the slot
kept for the terminator, is zero. -/
def BString.Live (s : BString) : Prop :=
  ∃ buf, s.data = some buf ∧ buf.length = s.capacity ∧ s.size < s.capacity ∧
    s.capacity < SIZE_MOD ∧ buf[s.capacity - 1]? = some 0

instance (s : BString) : Decidable s.Live :=
  match h : s.data with
  | none => isFalse (fun ⟨_, hd, _⟩ => by rw [h] at hd; cases hd)
  | some buf =>
      decidable_of_iff
        (buf.length = s.capacity ∧ s.size < s.capacity ∧ s.capacity < SIZE_MOD ∧
          buf[s.capacity - 1]? = some 0)
        ⟨fun hp => ⟨buf, h, hp⟩, fun ⟨b, hb, hp⟩ => by rw [h] at hb; cases hb; exact hp⟩

/-- A sequence of `BString_PushBackChar` calls, one for each byte of `cs`. -/
def pushChars (w : World) (bstring : Option BString) :
    List Nat → Outcome (Option BString × World)
  | [] => .ok (bstring, w)
  | c :: cs => (BString_PushBackChar w bstring c).bind fun r => pushChars r.2 r.1 cs

/-- The string `BString_Create("", 0)` returns: 8 zero bytes, size 0. -/
def emptyBString : BString :=
  { metadata := bstringHeader, data := some (List.replicate 8 0), size := 0, capacity := 8 }

/-- The `size_t` value `n` is a `float` exactly: it has at most 24
significant binary digits. -/
def fitsFloat (n : Nat) : Prop := 2 ^ (bitLength n - 24) ∣ n

instance (n : Nat) : Decidable (fitsFloat n) := by
  unfold fitsFloat; exact inferInstance

/-- A string of 16777216 bytes `A` in a buffer of 16777217 bytes. -/
def bigBString : BString :=
  { metadata := bstringHeader, data := some (List.replicate 16777216 65 ++ [0]),
    size := 16777216, capacity := 16777217 }

/-- The exact value `floor(cap * m * 2^e)`, the product of a capacity and the
positive `float` `m * 2^e` without any rounding. -/
def floorMul (cap m : Nat) (e : Int) : Nat :=
  if 0 ≤ e then cap * m * 2 ^ e.toNat else cap * m / 2 ^ (-e).toNat

/-- The comparison `x <= 1.0f`. -/
def CFloat.leOne : CFloat → Bool
  | .nan => false
  | .inf neg => neg
  | .fin neg m e =>
      neg || (if 0 ≤ e then decide (m * 2 ^ e.toNat ≤ 1) else decide (m ≤ 2 ^ (-e).toNat))

/-! ## Records in memory -/

/-- The record `struct OptionInput`; `optarg` is the address of a string. -/
structure OptionInput where
  metadata : MetaData
  input : Int
  optarg : Option Nat
deriving DecidableEq

/-- A record in memory: one of the variants that start with a `MetaData`
header. -/
inductive MetaObject where
  | bstring (s : BString)
  | optionInput (o : OptionInput)
deriving DecidableEq

/-- The header of a record, its first field. -/
def MetaObject.metadata : MetaObject → MetaData
  | .bstring s => s.metadata
  | .optionInput o => o.metadata

/-- A write to the header of a record. -/
def MetaObject.setMetadata : MetaObject → MetaData → MetaObject
  | .bstring s, md => .bstring { s with metadata := md }
  | .optionInput o, md => .optionInput { o with metadata := md }

/-- The memory holding the records: the record at each address, `none`
where no record lives (never allocated, or freed). -/
abbrev Heap := Nat → Option MetaObject

/-- A store of the record `o` at the address `a`. -/
def Heap.set (h : Heap) (a : Nat) (o : MetaObject) : Heap :=
  fun b => if b = a then some o else h b

/-- The call `free` on the record at the address `a`. -/
def Heap.free (h : Heap) (a : Nat) : Heap :=
  fun b => if b = a then none else h b

/-- The record `struct MetaList`. -/
structure MetaList where
  head : Option Nat
  size : Nat
deriving DecidableEq

/-- Number of values of an `unsigned` (32 bit). -/
def UINT_MOD : Nat := 4294967296

/-! ## Checked downcasts (`METAOBJECT_DEFINE_METHODS`) -/

/-- The function `typename_FromMetaData` the macro `METAOBJECT_DEFINE_METHODS`
defines for the discriminator `metaobject_type`: the pointer itself, with the
type of the variant, when it is not null and the header it points to has the
discriminator; null otherwise.  Reading the header through a pointer to no
record is undefined.  The body of the macro is read through line 125
(`return NULL;` and the closing brace), as its layout shows it is meant; line
123 of the source is blank and lacks the continuation backslash. -/
def FromMetaData (metaobject_type : METAOBJECT_TYPE) (h : Heap) (metadata : Option Nat) :
    Outcome (Option Nat) :=
  match metadata with
  | none => .ok none
  | some a =>
      match h a with
      | none => .undefined
      | some o => if o.metadata.type = metaobject_type then .ok (some a) else .ok none

/-- The function `BString_FromMetaData` (line 151). -/
def BString_FromMetaData (h : Heap) (metadata : Option Nat) : Outcome (Option Nat) :=
  FromMetaData .BSTRING h metadata

/-- The function `OptionInput_FromMetaData` (line 153). -/
def OptionInput_FromMetaData (h : Heap) (metadata : Option Nat) : Outcome (Option Nat) :=
  FromMetaData .OPTION_INPUT h metadata

/-! ## Disposal -/

/-- One disposal `MetaObject_Dispose` performs: the address of the record,
and the destructor called on it (`none`: plain `free`). -/
structure Disposal where
  obj : Nat
  dtor : Option Destructor
deriving DecidableEq

/-- The function `BString_Dispose` (lines 324-338) on a pointer to a pointer
variable: the buffer and the record are freed, the variable is set to null.
Returns the memory and the variable. -/
def BString_Dispose (h : Heap) (vptr : Option (Option Nat)) :
    Outcome (Heap × Option (Option Nat)) :=
  match vptr with
  | none => .ok (h, none)
  | some none => .ok (h, some none)
  | some (some a) =>
      match h a with
      | some (.bstring _) => .ok (h.free a, some none)
      | _ => .undefined

/-- A call through the function pointer `dtor` with the address of the
variable `obj`. -/
def Destructor.call (d : Destructor) (h : Heap) (vptr : Option (Option Nat)) :
    Outcome (Heap × Option (Option Nat)) :=
  match d with
  | .BString_Dispose => GetBepis.BString_Dispose h vptr

/-- The function `MetaObject_Dispose` (lines 180-195), with the list of the
disposals performed so far.  The recursion follows the `next` pointers; `fuel`
bounds its depth, `none` means the bound was reached. -/
def MetaObject_Dispose : Nat → Heap → List Disposal → Option Nat →
    Option (Outcome (Heap × List Disposal))
  | _, h, log, none => some (.ok (h, log))
  | 0, _, _, some _ => none
  | fuel + 1, h, log, some a =>
      match h a with
      | none => some .undefined
      | some o =>
          match MetaObject_Dispose fuel h log o.metadata.next with
          | none => none
          | some (.exited st) => some (.exited st)
          | some .undefined => some .undefined
          | some (.ok (h1, log1)) =>
              match h1 a with
              | none => some .undefined
              | some o1 =>
                  match o1.metadata.dtor with
                  | some d =>
                      some ((d.call h1 (some (some a))).bind fun r =>
                        .ok (r.1, log1 ++ [⟨a, some d⟩]))
                  | none => some (.ok (h1.free a, log1 ++ [⟨a, none⟩]))

/-! ## Lists (`MetaList`) -/

/-- The function `MetaList_Construct` (lines 197-204). -/
def MetaList_Construct (list : Option MetaList) : Option MetaList :=
  match list with
  | some _ => some { head := none, size := 0 }
  | none => none

/-- The function `MetaList_Clear` (lines 206-214). -/
def MetaList_Clear (fuel : Nat) (h : Heap) (log : List Disposal) (list : Option MetaList) :
    Option (Outcome (Heap × List Disposal × Option MetaList)) :=
  match list with
  | none => some (.ok (h, log, none))
  | some l =>
      match MetaObject_Dispose fuel h log l.head with
      | none => none
      | some r => some (r.bind fun d => .ok (d.1, d.2, some { head := none, size := 0 }))

/-- The `while` loop of `MetaList_PushBack`: every record of the chain from
`curr_node` gets `1 + addition->nextcount` added to its `nextcount`.  Returns
the memory and the last record visited, `prev_node`.  `fuel` bounds the number
of iterations, `none` means the bound was reached. -/
def MetaList_PushBack_loop : Nat → Heap → Nat → Option Nat → Option Nat →
    Option (Outcome (Heap × Option Nat))
  | _, h, _, none, prev_node => some (.ok (h, prev_node))
  | 0, _, _, some _, _ => none
  | fuel + 1, h, addition, some c, _ =>
      match h c, h addition with
      | some oc, some oa =>
          let md := oc.metadata
          let h1 := h.set c (oc.setMetadata
            { md with nextcount := (md.nextcount + (1 + oa.metadata.nextcount)) % SIZE_MOD })
          MetaList_PushBack_loop fuel h1 addition md.next (some c)
      | _, _ => some .undefined

/-- The function `MetaList_PushBack` (lines 216-242); `list_addr` is the
address of the list, stored in `addition->metalist`.  Returns the memory and
the list. -/
def MetaList_PushBack (fuel : Nat) (h : Heap) (list_addr : Nat) (list : Option MetaList)
    (addition : Option Nat) : Option (Outcome (Heap × Option MetaList)) :=
  match list, addition with
  | some l, some x =>
      match h x with
      | none => some .undefined
      | some ox =>
          let h1 := h.set x (ox.setMetadata { ox.metadata with metalist := some list_addr })
          if l.size = 0 then
            some (.ok (h1, some { head := some x,
                                  size := (1 + ox.metadata.nextcount) % SIZE_MOD }))
          else
            match MetaList_PushBack_loop fuel h1 x l.head none with
            | none => none
            | some (.exited st) => some (.exited st)
            | some .undefined => some .undefined
            | some (.ok (h2, prev_node)) =>
                match prev_node with
                | none => some .undefined
                | some p =>
                    match h2 p with
                    | none => some .undefined
                    | some op =>
                        let h3 := h2.set p (op.setMetadata { op.metadata with next := some x })
                        match h3 x with
                        | none => some .undefined
                        | some ox3 =>
                            some (.ok (h3, some { l with
                              size := (l.size + (1 + ox3.metadata.nextcount)) % SIZE_MOD }))
  | _, _ => some (.ok (h, list))

/-- The loop of `MetaList_VisitEach`: `sanity_check` visits at most, while
`curr_node` is not null.  The visitor acts on a state of its own, `st`; it
leaves the records as they are. -/
def MetaList_VisitEach_loop {υ σ : Type} (h : Heap) (visitor : Nat → υ → σ → σ)
    (user_data : υ) : Nat → Option Nat → σ → Outcome σ
  | _, none, st => .ok st
  | 0, some _, st => .ok st
  | sanity_check + 1, some c, st =>
      match h c with
      | none => .undefined
      | some o =>
          MetaList_VisitEach_loop h visitor user_data sanity_check o.metadata.next
            (visitor c user_data st)

/-- The function `MetaList_VisitEach` (lines 244-259); the counter
`sanity_check` is an `unsigned`, it takes the size modulo `2^32`. -/
def MetaList_VisitEach {υ σ : Type} (h : Heap) (list : Option MetaList)
    (visitor : Nat → υ → σ → σ) (user_data : υ) (st : σ) : Outcome σ :=
  match list with
  | none => .ok st
  | some l =>
      if l.size = 0 then .ok st
      else MetaList_VisitEach_loop h visitor user_data (l.size % UINT_MOD) l.head st

/-- The visitor that writes down each call: the record and the user data. -/
def recordVisit {υ : Type} (c : Nat) (user_data : υ) (calls : List (Nat × υ)) :
    List (Nat × υ) :=
  calls ++ [(c, user_data)]

/-! ## Chains of records -/

/-- The chain that starts at the pointer `p` and follows `next` to null
consists of the records at the addresses `as`, in this order. -/
def IsChain (h : Heap) : Option Nat → List Nat → Prop
  | p, [] => p = none
  | p, a :: as => p = some a ∧ ∃ o, h a = some o ∧ IsChain h o.metadata.next as

/-- The `nextcount` of the records at the addresses `as`: the last one has 0,
each other one has one more than its successor, the number of the records
after it. -/
def WellCounted (h : Heap) : List Nat → Prop
  | [] => True
  | a :: as => (∃ o, h a = some o ∧ o.metadata.nextcount = as.length) ∧ WellCounted h as

/-- A sequence of `MetaList_PushBack` calls on the same list, one for each
of the records at the addresses `additions`. -/
def pushBackAll (fuel : Nat) (list_addr : Nat) :
    Heap → Option MetaList → List Nat → Option (Outcome (Heap × Option MetaList))
  | h, list, [] => some (.ok (h, list))
  | h, list, x :: xs =>
      match MetaList_PushBack fuel h list_addr list (some x) with
      | none => none
      | some (.exited st) => some (.exited st)
      | some .undefined => some .undefined
      | some (.ok r) => pushBackAll fuel list_addr r.1 r.2 xs

/-- The record with `k` added to its `nextcount`, as the loop of
`MetaList_PushBack` does. -/
def MetaObject.bump (k : Nat) (o : MetaObject) : MetaObject :=
  o.setMetadata { o.metadata with nextcount := (o.metadata.nextcount + k) % SIZE_MOD }

/-- The memory after the loop of `MetaList_PushBack` went through the
records at the addresses `cs`. -/
def Heap.bumpAll (h : Heap) (cs : List Nat) (k : Nat) : Heap :=
  fun b => if b ∈ cs then (h b).map (MetaObject.bump k) else h b

/-- The memory with the records at the addresses `as` freed. -/
def Heap.freeAll (h : Heap) (as : List Nat) : Heap :=
  fun b => if b ∈ as then none else h b

/-- The destructor of a record fits the record: `BString_Dispose` is
installed on strings only. -/
def MetaObject.dtorFits : MetaObject → Bool
  | .bstring _ => true
  | .optionInput o => o.metadata.dtor ≠ some .BString_Dispose

/-- The disposal of the record at the address `a`: through its destructor
when it has one, by `free` otherwise. -/
def disposalOf (h : Heap) (a : Nat) : Disposal :=
  ⟨a, (h a).bind fun o => o.metadata.dtor⟩

/-- The list is well formed: the chain from its head consists of the records
at the addresses `as`, their `nextcount` fields are right, and the size is
their number. -/
def ListOk (h : Heap) (l : MetaList) (as : List Nat) : Prop :=
  IsChain h l.head as ∧ WellCounted h as ∧ l.size = as.length

/-- Every `next` pointer of a record in memory points to a record in
memory. -/
def Heap.Closed (h : Heap) : Prop :=
  ∀ a o, h a = some o → ∀ b, o.metadata.next = some b → ∃ o1, h b = some o1

/-- A standalone record: a string record with `next` null and `nextcount` 0. -/
def standaloneNode : MetaObject :=
  .bstring emptyBString

/-- The addresses of the records of the chains `chains`, one chain after the
other; a chain is given by its head and the records after it. -/
def flattenChains : List (Nat × List Nat) → List Nat
  | [] => []
  | c :: cs => (c.1 :: c.2) ++ flattenChains cs

/-- The destructors of the records at the addresses `as` fit them. -/
def chainDtorsFit (h : Heap) (as : List Nat) : Bool :=
  as.all fun a =>
    match h a with
    | some o => o.dtorFits
    | none => true

/-- An option record as the program declares them: no destructor. -/
def optionNode : MetaObject :=
  .optionInput ⟨⟨none, 0, .OPTION_INPUT, none, none⟩, 0, none⟩

/-- A string record that heads a chain: `next` is the address 50, one record
follows. -/
def headNode : MetaObject :=
  .bstring { emptyBString with metadata := { bstringHeader with next := some 50, nextcount := 1 } }

/-- A memory with a standalone string at 10, a standalone option record at
20, and the chain of two strings 40, 50. -/
def sampleHeap : Heap := fun a =>
  if a = 10 then some standaloneNode
  else if a = 20 then some optionNode
  else if a = 40 then some headNode
  else if a = 50 then some standaloneNode
  else none

/-- A memory with two records whose `next` pointers form a cycle:
1, 2, 1, 2, ... -/
def cycleHeap : Heap := fun a =>
  if a = 1 then
    some (.bstring { emptyBString with metadata := { bstringHeader with next := some 2 } })
  else if a = 2 then
    some (.bstring { emptyBString with metadata := { bstringHeader with next := some 1 } })
  else none

/-- A memory with standalone strings at the addresses below `n`. -/
def manyNodes (n : Nat) : Heap := fun a => if a < n then some standaloneNode else none

/-! ## Lemmas: single precision arithmetic -/

theorem bitLengthAux_le_iff (fuel : Nat) :
    ∀ n k : Nat, n ≤ fuel → (bitLengthAux fuel n ≤ k ↔ n < 2 ^ k) := by
  induction fuel with
  | zero =>
      intro n k h
      have hn : n = 0 := by omega
      subst hn
      simp [bitLengthAux]
  | succ fuel ih =>
      intro n k h
      unfold bitLengthAux
      by_cases hn : n = 0
      · subst hn; simp
      · rw [if_neg hn]
        cases k with
        | zero => simp; omega
        | succ j =>
            have h2 : n / 2 ≤ fuel := by omega
            have := ih (n / 2) j h2
            rw [Nat.add_le_add_iff_right, this, pow_succ]
            omega

theorem bitLength_le_iff (n k : Nat) : bitLength n ≤ k ↔ n < 2 ^ k :=
  bitLengthAux_le_iff n n k (Nat.le_refl n)

theorem lt_two_pow_bitLength (n : Nat) : n < 2 ^ bitLength n :=
  (bitLength_le_iff n (bitLength n)).1 (Nat.le_refl _)

theorem two_pow_le_of_bitLength (n k : Nat) (h : k < bitLength n) : 2 ^ k ≤ n := by
  by_contra hc
  have := (bitLength_le_iff n k).2 (by omega)
  omega

/-- Bounds on a rounded quotient, with the power of two as an atom. -/
theorem roundShift_bounds (m k : Nat) :
    m / 2 ^ k * 2 ^ k ≤ m ∧ m < m / 2 ^ k * 2 ^ k + 2 ^ k ∧
      (roundShift m k = m / 2 ^ k ∨ roundShift m k = m / 2 ^ k + 1) := by
  have hp : 0 < 2 ^ k := Nat.two_pow_pos k
  refine ⟨Nat.div_mul_le_self m (2 ^ k), ?_, ?_⟩
  · have := Nat.div_add_mod m (2 ^ k)
    have h2 := Nat.mod_lt m hp
    rw [Nat.mul_comm] at this
    omega
  · unfold roundShift
    simp only
    split
    · right; rfl
    · left; rfl

theorem roundShift_zero (m : Nat) : roundShift m 0 = m := by
  simp [roundShift, Nat.mod_one]

theorem roundShift_le (cap : Nat) : roundShift cap (bitLength cap - 24) ≤ 2 ^ 24 := by
  obtain ⟨h1, h2, h3⟩ := roundShift_bounds cap (bitLength cap - 24)
  have hlt : cap < 2 ^ (bitLength cap - 24 + 24) :=
    (bitLength_le_iff cap _).1 (by omega)
  have hq : cap / 2 ^ (bitLength cap - 24) < 2 ^ 24 := by
    rw [Nat.div_lt_iff_lt_mul (Nat.two_pow_pos _), ← pow_add, Nat.add_comm]
    exact hlt
  rcases h3 with h | h <;> omega

/-- The new capacity computed by `BString_GrowCapacity` for the factor `2.0f`. -/
theorem newCap_two (cap : Nat) :
    ((CFloat.ofSizeT cap).mul BSTRING_DEFAULT_GROWTHFACTOR).toSizeT =
      if 2 * floatValue cap < SIZE_MOD then some (2 * floatValue cap) else none := by
  have hm := roundShift_le cap
  generalize hk : bitLength cap - 24 = k at hm
  generalize hmv : roundShift cap k = m at hm
  have hfv : floatValue cap = m * 2 ^ k := by simp [floatValue, hk, hmv]
  have hof : CFloat.ofSizeT cap = .fin false m (k : Int) := by
    simp [CFloat.ofSizeT, roundF32, hk, hmv]
  rw [hof, hfv]
  have e1 : (-149 - ((k : Int) + 1)).toNat = 0 := by omega
  have e2 : ((k : Int) + 1).toNat = k + 1 := by omega
  have e3 : ((k : Int) + 1 + 1).toNat = k + 2 := by omega
  by_cases hlt : m < 2 ^ 24
  · have hb : bitLength m - 24 = 0 := by
      have := (bitLength_le_iff m 24).2 hlt
      omega
    have hr : roundF32 (m * 1) ((k : Int) + 1) = (m, (k : Int) + 1) := by
      simp [roundF32, e1, hb, roundShift_zero]
    simp only [BSTRING_DEFAULT_GROWTHFACTOR, CFloat.mul, hr]
    have hv : m * 2 ^ (k + 1) = 2 * (m * 2 ^ k) := by rw [pow_succ]; ring
    by_cases ho : overflowsF32 m ((k : Int) + 1) = true
    · rw [if_pos ho]
      simp only [overflowsF32, e2, hv, Bool.and_eq_true, decide_eq_true_eq] at ho
      have : ¬ 2 * (m * 2 ^ k) < SIZE_MOD := by
        have := ho.2
        simp only [SIZE_MOD]
        norm_num at this ⊢
        omega
      simp [CFloat.toSizeT, this]
    · rw [if_neg ho]
      have hnn : (0 : Int) ≤ (k : Int) + 1 := by omega
      simp [CFloat.toSizeT, hnn, e2, hv]
  · have hmeq : m = 16777216 := by omega
    subst hmeq
    have hb : bitLength 16777216 - 24 = 1 := by decide
    have hrs : roundShift 16777216 1 = 8388608 := by decide
    have hr : roundF32 (16777216 * 1) ((k : Int) + 1) = (8388608, (k : Int) + 1 + 1) := by
      simp [roundF32, e1, hb, hrs]
    simp only [BSTRING_DEFAULT_GROWTHFACTOR, CFloat.mul, hr]
    have hv : 8388608 * 2 ^ (k + 2) = 2 * (16777216 * 2 ^ k) := by
      rw [pow_add]; ring
    by_cases ho : overflowsF32 8388608 ((k : Int) + 1 + 1) = true
    · rw [if_pos ho]
      simp only [overflowsF32, e3, hv, Bool.and_eq_true, decide_eq_true_eq] at ho
      have : ¬ 2 * (16777216 * 2 ^ k) < SIZE_MOD := by
        have := ho.2
        simp only [SIZE_MOD]
        norm_num at this ⊢
        omega
      simp only [CFloat.toSizeT, if_neg this]
    · rw [if_neg ho]
      have hnn : (0 : Int) ≤ (k : Int) + 1 + 1 := by omega
      simp only [CFloat.toSizeT, hnn, e3, hv, if_true]
      simp

theorem floatValue_bounds (cap : Nat) (h : 0 < cap) :
    cap < 2 * floatValue cap ∧ floatValue cap ≤ 2 * cap := by
  obtain ⟨h1, h2, h3⟩ := roundShift_bounds cap (bitLength cap - 24)
  unfold floatValue
  by_cases hk : bitLength cap - 24 = 0
  · rw [hk] at h1 h2 h3 ⊢
    simp at h1 h2 h3 ⊢
    rw [roundShift_zero]
    omega
  · have hle : 2 ^ (bitLength cap - 24 + 23) ≤ cap :=
      two_pow_le_of_bitLength cap _ (by omega)
    rw [pow_add] at hle
    generalize 2 ^ (bitLength cap - 24) = p at *
    generalize cap / p = q at *
    have hqp : roundShift cap (bitLength cap - 24) * p = q * p ∨
        roundShift cap (bitLength cap - 24) * p = q * p + p := by
      rcases h3 with h | h
      · left; rw [h]
      · right; rw [h]; ring
    generalize roundShift cap (bitLength cap - 24) * p = v at *
    generalize q * p = a at *
    norm_num at hle
    omega

theorem floatValue_of_le (cap : Nat) (h : cap ≤ 2 ^ 24) : floatValue cap = cap := by
  unfold floatValue
  by_cases hc : cap = 2 ^ 24
  · subst hc; decide
  · have : bitLength cap - 24 = 0 := by
      have := (bitLength_le_iff cap 24).2 (by omega)
      omega
    rw [this, roundShift_zero]; simp

/-! ## Lemmas: outcomes, `strlen`, `strcpy` -/

theorem Outcome.bind_eq_ok {α β : Type} (x : Outcome α) (f : α → Outcome β) (b : β) :
    x.bind f = .ok b ↔ ∃ a, x = .ok a ∧ f a = .ok b := by
  cases x <;> simp [Outcome.bind]

theorem calloc_fst (w : World) (n : Nat) :
    (calloc w n).1 = none ∨ (calloc w n).1 = some (List.replicate n 0) := by
  unfold calloc
  split
  · right; rfl
  · rename_i b rest _
    cases b <;> simp

theorem calloc_allocOk (w : World) (n : Nat) (h : w.AllocOk) :
    (calloc w n).1 = some (List.replicate n 0) ∧ (calloc w n).2.AllocOk := by
  unfold calloc
  split
  · exact ⟨rfl, h⟩
  · rename_i b rest hw
    unfold World.AllocOk at h ⊢
    rw [hw] at h
    have hb : b = true := h b (List.mem_cons_self _ _)
    subst hb
    exact ⟨rfl, fun c hc => h c (List.mem_cons_of_mem _ hc)⟩

theorem callocBString_allocOk (w : World) (h : w.AllocOk) :
    (callocBString w).1 ≠ none ∧ (callocBString w).2.AllocOk := by
  unfold callocBString
  split
  · exact ⟨by simp, h⟩
  · rename_i b rest hw
    unfold World.AllocOk at h ⊢
    rw [hw] at h
    have hb : b = true := h b (List.mem_cons_self _ _)
    subst hb
    exact ⟨by simp, fun c hc => h c (List.mem_cons_of_mem _ hc)⟩

theorem strlen_lt (l : List Nat) : ∀ n, strlen l = some n → n < l.length := by
  induction l with
  | nil => intro n h; simp [strlen] at h
  | cons c cs ih =>
      intro n h
      unfold strlen at h
      split at h
      · simp at h; subst h; simp
      · cases hs : strlen cs with
        | none => simp [hs] at h
        | some k =>
            simp [hs] at h
            subst h
            have := ih k hs
            simp; omega

theorem strlen_append_zero (b rest : List Nat) (h : ∀ x ∈ b, x ≠ 0) :
    strlen (b ++ 0 :: rest) = some b.length := by
  induction b with
  | nil => simp [strlen]
  | cons c cs ih =>
      have hc : c ≠ 0 := h c (List.mem_cons_self _ _)
      have := ih (fun x hx => h x (List.mem_cons_of_mem _ hx))
      simp [strlen, hc, this]

theorem strcpy_length (dst src r : List Nat) (h : strcpy dst src = some r) :
    r.length = dst.length := by
  unfold strcpy at h
  cases hs : strlen src with
  | none => simp [hs] at h
  | some n =>
      simp only [hs] at h
      split at h
      · rename_i hle
        simp at h
        subst h
        have := strlen_lt src n hs
        simp
        omega
      · simp at h

/-! ## Lemmas: `BString_Create` -/

theorem BString_Construct_ok (w w1 : World) (p s : BString) (str : List Nat) (len : Nat)
    (h : BString_Construct w (some p) str len = .ok (true, some s, w1)) :
    s.metadata = bstringHeader ∧
    (len = 0 → s.size = 0 ∧ s.capacity = 8 ∧ s.data = some (List.replicate 8 0)) ∧
    (len ≠ 0 → s.size = (len + 1) % SIZE_MOD ∧ s.capacity = (len + 1) % SIZE_MOD ∧
      ∃ buf, strcpy (List.replicate ((len + 1) % SIZE_MOD) 0) str = some buf ∧
        s.data = some buf) := by
  unfold BString_Construct at h
  simp only [MetaData_Construct] at h
  by_cases hl : len = 0
  · simp only [hl, if_true] at h
    rcases calloc_fst w BSTRING_DEFAULT_CAPACITY with hc | hc
    · simp only [hc, Outcome.bind_eq_ok] at h
      obtain ⟨a, _, ha⟩ := h
      simp at ha
    · simp only [hc] at h
      simp at h
      obtain ⟨hs, _⟩ := h
      subst hs
      simp [hl, bstringHeader, BSTRING_DEFAULT_CAPACITY]
  · simp only [hl, if_false] at h
    rcases calloc_fst w ((len + 1) % SIZE_MOD) with hc | hc
    · simp only [hc, Outcome.bind_eq_ok] at h
      obtain ⟨a, _, ha⟩ := h
      simp at ha
    · simp only [hc] at h
      cases hcp : strcpy (List.replicate ((len + 1) % SIZE_MOD) 0) str with
      | none => simp [hcp] at h
      | some buf =>
          simp [hcp] at h
          obtain ⟨hs, _⟩ := h
          subst hs
          simp [hl, bstringHeader]

theorem BString_Create_ok (w w1 : World) (s : BString) (str : List Nat) (len : Nat)
    (h : BString_Create w str len = .ok (some s, w1)) :
    ∃ p w0, BString_Construct w0 (some p) str len = .ok (true, some s, w1) := by
  unfold BString_Create at h
  cases hc : (callocBString w).1 with
  | none =>
      simp only [hc, Outcome.bind_eq_ok] at h
      obtain ⟨a, _, ha⟩ := h
      simp at ha
  | some result =>
      simp only [hc, Outcome.bind_eq_ok] at h
      obtain ⟨c, hc1, hc2⟩ := h
      obtain ⟨c1, c2, c3⟩ := c
      cases c1 with
      | false =>
          simp only [if_true, Outcome.bind_eq_ok] at hc2
          obtain ⟨a, _, ha⟩ := hc2
          simp at ha
      | true =>
          simp at hc2
          obtain ⟨h1, h2⟩ := hc2
          subst h1 h2
          exact ⟨result, _, hc1⟩

theorem BString_Create_total (w : World) (str : List Nat) (len : Nat) (hw : w.AllocOk)
    (hs : len = 0 ∨ ∃ buf, strcpy (List.replicate ((len + 1) % SIZE_MOD) 0) str = some buf) :
    ∃ s w1, BString_Create w str len = .ok (some s, w1) ∧ w1.AllocOk := by
  obtain ⟨h1, h2⟩ := callocBString_allocOk w hw
  unfold BString_Create
  cases hc : (callocBString w).1 with
  | none => exact absurd hc h1
  | some result =>
      simp only [hc]
      unfold BString_Construct
      simp only [MetaData_Construct]
      by_cases hl : len = 0
      · obtain ⟨h3, h4⟩ := calloc_allocOk _ BSTRING_DEFAULT_CAPACITY h2
        simp only [hl, if_true, h3]
        exact ⟨_, _, rfl, h4⟩
      · obtain ⟨h3, h4⟩ := calloc_allocOk _ ((len + 1) % SIZE_MOD) h2
        rcases hs with hs | ⟨buf, hs⟩
        · exact absurd hs hl
        · simp only [hl, if_false, h3, hs]
          exact ⟨_, _, rfl, h4⟩

theorem strcpy_cstring (dst b rest : List Nat) (h : ∀ x ∈ b, x ≠ 0)
    (hd : b.length + 1 ≤ dst.length) :
    strcpy dst (b ++ 0 :: rest) = some (b ++ 0 :: dst.drop (b.length + 1)) := by
  unfold strcpy
  rw [strlen_append_zero b rest h]
  simp only [hd, if_true]
  congr 1
  rw [List.take_append_eq_append_take]
  simp


/-! ## Lemmas: `BString_GrowCapacity` and `BString_PushBackChar` -/

theorem Throw_bind_ne_ok_true (w w1 : World) (code : Int) (b : Option BString)
    (so : Option BString) :
    (Throw w code).bind (fun w2 => Outcome.ok (false, b, w2)) ≠ .ok (true, so, w1) := by
  intro h
  rw [Outcome.bind_eq_ok] at h
  obtain ⟨a, _, ha⟩ := h
  simp at ha

/-- What a successful `BString_GrowCapacity` (result `TRUE`) has done. -/
theorem BString_GrowCapacity_ok (w w1 : World) (s : BString) (f : CFloat)
    (so : Option BString)
    (h : BString_GrowCapacity w (some s) f = .ok (true, so, w1)) :
    f.gtOne = true ∧ ∃ nc old new, ((CFloat.ofSizeT s.capacity).mul f).toSizeT = some nc ∧
      s.data = some old ∧ strcpy (List.replicate nc 0) old = some new ∧
      so = some { s with data := some new, capacity := nc } := by
  unfold BString_GrowCapacity at h
  by_cases hf : f.gtOne = true
  · refine ⟨hf, ?_⟩
    simp only [hf, if_true] at h
    cases hnc : ((CFloat.ofSizeT s.capacity).mul f).toSizeT with
    | none => simp [hnc] at h
    | some nc =>
        simp only [hnc] at h
        rcases calloc_fst w nc with hc | hc
        · simp only [hc] at h
          exact absurd h (Throw_bind_ne_ok_true _ _ _ _ _)
        · simp only [hc] at h
          cases hd : s.data with
          | none => simp [hd] at h
          | some old =>
              simp only [hd] at h
              cases hcp : strcpy (List.replicate nc 0) old with
              | none => simp [hcp] at h
              | some new =>
                  simp only [hcp] at h
                  simp at h
                  exact ⟨nc, old, new, rfl, rfl, hcp, h.1.symm⟩
  · simp [hf] at h

/-- A failed `BString_GrowCapacity` (result `FALSE`) with a factor above one
has lost the buffer: `data` is `NULL`, nothing else has changed. -/
theorem BString_GrowCapacity_false (w w1 : World) (s : BString) (f : CFloat)
    (so : Option BString) (hf : f.gtOne = true)
    (h : BString_GrowCapacity w (some s) f = .ok (false, so, w1)) :
    so = some { s with data := none } := by
  unfold BString_GrowCapacity at h
  simp only [hf, if_true] at h
  cases hnc : ((CFloat.ofSizeT s.capacity).mul f).toSizeT with
  | none => simp [hnc] at h
  | some nc =>
      simp only [hnc] at h
      rcases calloc_fst w nc with hc | hc
      · simp only [hc, Outcome.bind_eq_ok] at h
        obtain ⟨a, _, ha⟩ := h
        simp at ha
        exact ha.1.symm
      · simp only [hc] at h
        cases hd : s.data with
        | none => simp [hd] at h
        | some old =>
            simp only [hd] at h
            cases hcp : strcpy (List.replicate nc 0) old with
            | none => simp [hcp] at h
            | some new => simp [hcp] at h

/-- With memory available, a defined new capacity and a copy that fits,
`BString_GrowCapacity` succeeds. -/
theorem BString_GrowCapacity_total (w : World) (s : BString) (f : CFloat) (nc : Nat)
    (old new : List Nat) (hf : f.gtOne = true)
    (hnc : ((CFloat.ofSizeT s.capacity).mul f).toSizeT = some nc) (hw : w.AllocOk)
    (hd : s.data = some old) (hcp : strcpy (List.replicate nc 0) old = some new) :
    ∃ w1, BString_GrowCapacity w (some s) f
        = .ok (true, some { s with data := some new, capacity := nc }, w1) ∧ w1.AllocOk := by
  obtain ⟨h3, h4⟩ := calloc_allocOk w nc hw
  unfold BString_GrowCapacity
  simp only [hf, if_true, hnc, h3, hd, hcp]
  exact ⟨_, rfl, h4⟩

theorem gtOne_default : BSTRING_DEFAULT_GROWTHFACTOR.gtOne = true := by decide

theorem BString_PushBackChar_nogrow (w : World) (s : BString) (c : Nat)
    (h : s.size ≠ (s.capacity + SIZE_MOD - 1) % SIZE_MOD) :
    BString_PushBackChar w (some s) c =
      match s.data with
      | none => .undefined
      | some buf =>
          if s.size < buf.length then
            .ok (some { s with data := some (buf.set s.size c),
                               size := (s.size + 1) % SIZE_MOD }, w)
          else .undefined := by
  unfold BString_PushBackChar
  simp only [h, if_false, Outcome.bind]

theorem BString_PushBackChar_grow (w : World) (s : BString) (c : Nat)
    (h : s.size = (s.capacity + SIZE_MOD - 1) % SIZE_MOD) :
    BString_PushBackChar w (some s) c =
      (BString_GrowCapacity w (some s) BSTRING_DEFAULT_GROWTHFACTOR).bind fun g =>
        match g.2.1 with
        | none => .undefined
        | some b1 =>
            match b1.data with
            | none => .undefined
            | some buf =>
                if b1.size < buf.length then
                  .ok (some { b1 with data := some (buf.set b1.size c),
                                      size := (b1.size + 1) % SIZE_MOD }, g.2.2)
                else .undefined := by
  unfold BString_PushBackChar
  simp only [h, if_true]
  cases BString_GrowCapacity w (some s) BSTRING_DEFAULT_GROWTHFACTOR <;> simp [Outcome.bind]

theorem pred_mod (cap : Nat) (h0 : 0 < cap) (h1 : cap < SIZE_MOD) :
    (cap + SIZE_MOD - 1) % SIZE_MOD = cap - 1 := by
  unfold SIZE_MOD at *
  omega

theorem newCap_two_some (cap nc : Nat)
    (h : ((CFloat.ofSizeT cap).mul BSTRING_DEFAULT_GROWTHFACTOR).toSizeT = some nc) :
    nc = 2 * floatValue cap ∧ 2 * floatValue cap < SIZE_MOD := by
  rw [newCap_two] at h
  split at h
  · simp at h; exact ⟨h.symm, by assumption⟩
  · simp at h

/-- What a returning `BString_PushBackChar` has done to a string with
`size < capacity`. -/
theorem BString_PushBackChar_ok (w w1 : World) (s : BString) (c : Nat)
    (so : Option BString) (hlt : s.size < s.capacity) (hcap : s.capacity < SIZE_MOD)
    (h : BString_PushBackChar w (some s) c = .ok (so, w1)) :
    (s.size + 1 ≠ s.capacity ∧ ∃ buf, s.data = some buf ∧ s.size < buf.length ∧
        so = some { s with data := some (buf.set s.size c), size := s.size + 1 }) ∨
    (s.size + 1 = s.capacity ∧ 2 * floatValue s.capacity < SIZE_MOD ∧
      ∃ old new, s.data = some old ∧
        strcpy (List.replicate (2 * floatValue s.capacity) 0) old = some new ∧
        s.size < 2 * floatValue s.capacity ∧
        so = some { s with data := some (new.set s.size c),
                           capacity := 2 * floatValue s.capacity, size := s.size + 1 }) := by
  have hpm := pred_mod s.capacity (by omega) hcap
  have hsz : (s.size + 1) % SIZE_MOD = s.size + 1 := Nat.mod_eq_of_lt (by omega)
  by_cases hg : s.size = (s.capacity + SIZE_MOD - 1) % SIZE_MOD
  · right
    rw [BString_PushBackChar_grow w s c hg, Outcome.bind_eq_ok] at h
    obtain ⟨⟨r, g1, g2⟩, hgrow, hrest⟩ := h
    rw [hpm] at hg
    refine ⟨by omega, ?_⟩
    cases r with
    | false =>
        have := BString_GrowCapacity_false w g2 s _ g1 gtOne_default hgrow
        subst this
        simp at hrest
    | true =>
        obtain ⟨_, nc, old, new, hnc, hd, hcp, hso⟩ :=
          BString_GrowCapacity_ok w g2 s _ g1 hgrow
        obtain ⟨hnc1, hnc2⟩ := newCap_two_some _ _ hnc
        subst hnc1
        subst hso
        have hlen := strcpy_length _ _ _ hcp
        simp only [List.length_replicate] at hlen
        simp only [hlen] at hrest
        refine ⟨hnc2, old, new, hd, hcp, ?_⟩
        by_cases hb : s.size < 2 * floatValue s.capacity
        · simp only [hb, if_true, hsz] at hrest
          simp at hrest
          exact ⟨hb, hrest.1.symm⟩
        · simp [hb] at hrest
  · left
    rw [BString_PushBackChar_nogrow w s c hg] at h
    rw [hpm] at hg
    refine ⟨by omega, ?_⟩
    cases hd : s.data with
    | none => simp [hd] at h
    | some buf =>
        simp only [hd] at h
        by_cases hb : s.size < buf.length
        · simp only [hb, if_true, hsz] at h
          simp at h
          exact ⟨buf, rfl, hb, h.1.symm⟩
        · simp [hb] at h

/-- `BString_PushBackChar` without growth returns. -/
theorem BString_PushBackChar_total_nogrow (w : World) (s : BString) (c : Nat)
    (buf : List Nat) (hne : s.size + 1 < s.capacity) (hcap : s.capacity < SIZE_MOD)
    (hd : s.data = some buf) (hlen : buf.length = s.capacity) :
    BString_PushBackChar w (some s) c
      = .ok (some { s with data := some (buf.set s.size c), size := s.size + 1 }, w) := by
  have hpm := pred_mod s.capacity (by omega) hcap
  have hsz : (s.size + 1) % SIZE_MOD = s.size + 1 := Nat.mod_eq_of_lt (by omega)
  have hg : s.size ≠ (s.capacity + SIZE_MOD - 1) % SIZE_MOD := by rw [hpm]; omega
  rw [BString_PushBackChar_nogrow w s c hg, hd]
  have hb : s.size < buf.length := by omega
  simp only [hb, if_true, hsz]

/-- `BString_PushBackChar` with growth returns when memory is available, the
old buffer holds a zero byte and the doubled capacity is a `size_t`. -/
theorem BString_PushBackChar_total_grow (w : World) (s : BString) (c : Nat)
    (old : List Nat) (n : Nat) (he : s.size + 1 = s.capacity) (hcap : s.capacity < SIZE_MOD)
    (hd : s.data = some old) (hlen : old.length = s.capacity) (hn : strlen old = some n)
    (hfv : 2 * floatValue s.capacity < SIZE_MOD) (hw : w.AllocOk) :
    ∃ w1, BString_PushBackChar w (some s) c
      = .ok (some { s with
          data := some ((old.take (n + 1)
            ++ List.replicate (2 * floatValue s.capacity - (n + 1)) 0).set s.size c),
          capacity := 2 * floatValue s.capacity, size := s.size + 1 }, w1) ∧ w1.AllocOk := by
  have hpm := pred_mod s.capacity (by omega) hcap
  have hsz : (s.size + 1) % SIZE_MOD = s.size + 1 := Nat.mod_eq_of_lt (by omega)
  have hg : s.size = (s.capacity + SIZE_MOD - 1) % SIZE_MOD := by rw [hpm]; omega
  have hnl := strlen_lt old n hn
  obtain ⟨hb1, hb2⟩ := floatValue_bounds s.capacity (by omega)
  have hnc : ((CFloat.ofSizeT s.capacity).mul BSTRING_DEFAULT_GROWTHFACTOR).toSizeT
      = some (2 * floatValue s.capacity) := by
    rw [newCap_two, if_pos hfv]
  have hcp : strcpy (List.replicate (2 * floatValue s.capacity) 0) old
      = some (old.take (n + 1) ++ List.replicate (2 * floatValue s.capacity - (n + 1)) 0) := by
    unfold strcpy
    rw [hn]
    have : n + 1 ≤ (List.replicate (2 * floatValue s.capacity) 0).length := by
      simp; omega
    simp only [this, if_true, List.drop_replicate]
  obtain ⟨w1, hgr, hw1⟩ := BString_GrowCapacity_total w s _ _ old _ gtOne_default hnc hw hd hcp
  refine ⟨w1, ?_, hw1⟩
  rw [BString_PushBackChar_grow w s c hg, hgr]
  have hb : s.size < (old.take (n + 1)
      ++ List.replicate (2 * floatValue s.capacity - (n + 1)) 0).length := by
    simp
    omega
  simp only [Outcome.bind, hb, if_true, hsz]

theorem strlen_of_zero (buf : List Nat) : ∀ i, buf[i]? = some 0 →
    ∃ n, strlen buf = some n ∧ n ≤ i := by
  induction buf with
  | nil => intro i h; simp at h
  | cons c cs ih =>
      intro i h
      unfold strlen
      by_cases hc : c = 0
      · exact ⟨0, by simp [hc], Nat.zero_le _⟩
      · cases i with
        | zero => simp at h; exact absurd h hc
        | succ j =>
            simp at h
            obtain ⟨n, hn, hnj⟩ := ih j h
            exact ⟨n + 1, by simp [hc, hn], by omega⟩

/-- A returning `BString_PushBackChar` keeps `size < capacity < 2^64` and adds
one to the size. -/
theorem BString_PushBackChar_inv (w w1 : World) (s : BString) (c : Nat)
    (so : Option BString) (hlt : s.size < s.capacity) (hcap : s.capacity < SIZE_MOD)
    (h : BString_PushBackChar w (some s) c = .ok (so, w1)) :
    ∃ s1, so = some s1 ∧ s1.size < s1.capacity ∧ s1.capacity < SIZE_MOD ∧
      s1.size = s.size + 1 := by
  obtain ⟨hb1, _⟩ := floatValue_bounds s.capacity (by omega)
  rcases BString_PushBackChar_ok w w1 s c so hlt hcap h with
    ⟨hne, buf, _, _, hso⟩ | ⟨he, hfv, old, new, _, _, _, hso⟩
  · subst hso
    exact ⟨_, rfl, by simp; omega, by simp; omega, rfl⟩
  · subst hso
    exact ⟨_, rfl, by simp; omega, by simp; omega, rfl⟩

/-- On a live string `BString_PushBackChar` returns a live string when memory
is available and, where the buffer has to grow, the doubled capacity is a
`size_t`. -/
theorem BString_PushBackChar_live_of (w : World) (s : BString) (c : Nat) (hl : s.Live)
    (hw : w.AllocOk)
    (hfv : s.size + 1 = s.capacity → 2 * floatValue s.capacity < SIZE_MOD) :
    ∃ s1 w1, BString_PushBackChar w (some s) c = .ok (some s1, w1) ∧ s1.Live ∧
      w1.AllocOk ∧ s1.size = s.size + 1 ∧
      (s.size + 1 = s.capacity → s1.capacity = 2 * floatValue s.capacity) ∧
      (s.size + 1 ≠ s.capacity → s1.capacity = s.capacity) := by
  obtain ⟨buf, hd, hlen, hlt, hcap, hz⟩ := hl
  by_cases he : s.size + 1 = s.capacity
  · obtain ⟨n, hn, hnle⟩ := strlen_of_zero buf _ hz
    obtain ⟨hb1, hb2⟩ := floatValue_bounds s.capacity (by omega)
    have hfv := hfv he
    obtain ⟨w1, h, hw1⟩ :=
      BString_PushBackChar_total_grow w s c buf n he hcap hd hlen hn hfv hw
    refine ⟨_, w1, h, ?_, hw1, rfl, fun _ => rfl, fun hne => absurd he hne⟩
    have hnl := strlen_lt buf n hn
    refine ⟨_, rfl, ?_, ?_, ?_, ?_⟩
    · simp; omega
    · simp; omega
    · simpa using hfv
    · simp only
      rw [List.getElem?_set_ne (by omega), List.getElem?_append_right (by simp; omega)]
      rw [List.getElem?_replicate, if_pos]
      simp only [List.length_take]
      omega
  · have hne : s.size + 1 < s.capacity := by omega
    refine ⟨_, w, BString_PushBackChar_total_nogrow w s c buf hne hcap hd hlen, ?_, hw, rfl,
      fun h => absurd h he, fun _ => rfl⟩
    refine ⟨_, rfl, ?_, ?_, ?_, ?_⟩
    · simpa using hlen
    · simpa using hne
    · simpa using hcap
    · simp only
      rw [List.getElem?_set_ne (by omega)]
      exact hz

/-- On a live string `BString_PushBackChar` returns a live string when memory
is available and the capacity is below `2^62`. -/
theorem BString_PushBackChar_live (w : World) (s : BString) (c : Nat) (hl : s.Live)
    (hw : w.AllocOk) (hb : s.size + 1 < 2 ^ 62) :
    ∃ s1 w1, BString_PushBackChar w (some s) c = .ok (some s1, w1) ∧ s1.Live ∧
      w1.AllocOk ∧ s1.size = s.size + 1 := by
  have hfv : s.size + 1 = s.capacity → 2 * floatValue s.capacity < SIZE_MOD := by
    intro he
    obtain ⟨_, hb2⟩ := floatValue_bounds s.capacity (by omega)
    unfold SIZE_MOD; norm_num at hb; omega
  obtain ⟨s1, w1, h, hl1, hw1, hsz, _⟩ := BString_PushBackChar_live_of w s c hl hw hfv
  exact ⟨s1, w1, h, hl1, hw1, hsz⟩

/-! ## Lemmas: the loop of `BString_PushBackCString` -/

theorem BString_PushBackCString_loop_inv (cstring : List Nat) :
    ∀ (remaining i : Nat) (w w1 : World) (s : BString) (so : Option BString),
      s.size < s.capacity → s.capacity < SIZE_MOD →
      BString_PushBackCString_loop cstring remaining i w (some s) = .ok (so, w1) →
      ∃ s1, so = some s1 ∧ s1.size < s1.capacity ∧ s1.capacity < SIZE_MOD ∧
        s1.size = s.size + remaining := by
  intro remaining
  induction remaining with
  | zero =>
      intro i w w1 s so hlt hcap h
      simp [BString_PushBackCString_loop] at h
      exact ⟨s, h.1.symm, hlt, hcap, rfl⟩
  | succ r ih =>
      intro i w w1 s so hlt hcap h
      unfold BString_PushBackCString_loop at h
      by_cases hi : i < INT_MAX
      · simp only [hi, if_true] at h
        cases hc : cstring[i]? with
        | none => simp [hc] at h
        | some c =>
            simp only [hc, Outcome.bind_eq_ok] at h
            obtain ⟨⟨so1, w2⟩, hp, hrest⟩ := h
            obtain ⟨s1, hs1, h1, h2, h3⟩ := BString_PushBackChar_inv w w2 s c so1 hlt hcap hp
            subst hs1
            obtain ⟨s2, hs2, h4, h5, h6⟩ := ih (i + 1) w2 w1 s1 so h1 h2 hrest
            exact ⟨s2, hs2, h4, h5, by omega⟩
      · simp [hi] at h

theorem BString_PushBackCString_loop_live (cstring : List Nat) :
    ∀ (remaining i : Nat) (w : World) (s : BString),
      s.Live → w.AllocOk → s.size + remaining < 2 ^ 62 → i + remaining ≤ INT_MAX →
      i + remaining ≤ cstring.length →
      ∃ s1 w1, BString_PushBackCString_loop cstring remaining i w (some s) = .ok (some s1, w1) ∧
        s1.Live ∧ w1.AllocOk ∧ s1.size = s.size + remaining := by
  intro remaining
  induction remaining with
  | zero =>
      intro i w s hl hw _ _ _
      exact ⟨s, w, rfl, hl, hw, rfl⟩
  | succ r ih =>
      intro i w s hl hw hb hi hlen
      unfold BString_PushBackCString_loop
      have hi1 : i < INT_MAX := by omega
      have hget : cstring[i]? = some (cstring.getD i 0) := by
        rw [List.getD_eq_getElem?_getD, List.getElem?_eq_getElem (by omega)]
        simp
      obtain ⟨s1, w1, hp, hl1, hw1, hsz⟩ :=
        BString_PushBackChar_live w s (cstring.getD i 0) hl hw (by omega)
      obtain ⟨s2, w2, hloop, hl2, hw2, hsz2⟩ :=
        ih (i + 1) w1 s1 hl1 hw1 (by omega) (by omega) (by omega)
      refine ⟨s2, w2, ?_, hl2, hw2, by omega⟩
      simp only [hi1, if_true, hget, hp, Outcome.bind]
      exact hloop

theorem BString_GrowCapacity_two_live (w : World) (s : BString) (hl : s.Live)
    (hw : w.AllocOk) (hb : s.capacity < 2 ^ 62) :
    ∃ s1 w1, BString_GrowCapacity w (some s) BSTRING_DEFAULT_GROWTHFACTOR
        = .ok (true, some s1, w1) ∧ s1.capacity = 2 * floatValue s.capacity ∧
        s1.size = s.size := by
  obtain ⟨buf, hd, hlen, hlt, hcap, hz⟩ := hl
  obtain ⟨n, hn, hnle⟩ := strlen_of_zero buf _ hz
  obtain ⟨hb1, hb2⟩ := floatValue_bounds s.capacity (by omega)
  have hfv : 2 * floatValue s.capacity < SIZE_MOD := by
    unfold SIZE_MOD; norm_num at hb; omega
  have hnc : ((CFloat.ofSizeT s.capacity).mul BSTRING_DEFAULT_GROWTHFACTOR).toSizeT
      = some (2 * floatValue s.capacity) := by
    rw [newCap_two, if_pos hfv]
  have hcp : ∃ new, strcpy (List.replicate (2 * floatValue s.capacity) 0) buf = some new := by
    unfold strcpy
    rw [hn]
    have : n + 1 ≤ (List.replicate (2 * floatValue s.capacity) 0).length := by
      simp; omega
    simp only [this, if_true]
    exact ⟨_, rfl⟩
  obtain ⟨new, hcp⟩ := hcp
  obtain ⟨w1, h, _⟩ := BString_GrowCapacity_total w s _ _ buf new gtOne_default hnc hw hd hcp
  exact ⟨_, w1, h, rfl, rfl⟩

theorem emptyBString_live : emptyBString.Live :=
  ⟨List.replicate 8 0, rfl, by decide, by decide, by decide, by decide⟩


theorem floatValue_of_fits (n : Nat) (h : fitsFloat n) : floatValue n = n := by
  unfold fitsFloat at h
  unfold floatValue roundShift
  have hp : 0 < 2 ^ (bitLength n - 24) := Nat.two_pow_pos _
  have hm : n % 2 ^ (bitLength n - 24) = 0 := Nat.mod_eq_zero_of_dvd h
  simp only [hm]
  have : ¬ (2 ^ (bitLength n - 24) < 2 * 0 ∨
      (2 * 0 = 2 ^ (bitLength n - 24) ∧ n / 2 ^ (bitLength n - 24) % 2 = 1)) := by
    omega
  rw [if_neg this]
  exact Nat.div_mul_cancel h

theorem fitsFloat_of_le (n : Nat) (h : n ≤ 2 ^ 24) : fitsFloat n := by
  unfold fitsFloat
  by_cases hc : n = 2 ^ 24
  · subst hc; decide
  · have : bitLength n - 24 = 0 := by
      have := (bitLength_le_iff n 24).2 (by omega)
      omega
    rw [this]; simp

theorem filled_live (n c : Nat) (h : n + 1 < SIZE_MOD) :
    BString.Live ⟨bstringHeader, some (List.replicate n c ++ [0]), n, n + 1⟩ := by
  refine ⟨List.replicate n c ++ [0], rfl, ?_, ?_, h, ?_⟩
  · simp
  · simp
  · simp only
    rw [List.getElem?_append_right (by simp)]
    simp

theorem bigBString_live : bigBString.Live :=
  filled_live 16777216 65 (by decide)


/-! ## Lemmas: sequences of `BString_PushBackChar` -/

theorem fitsFloat_two_pow (m : Nat) : fitsFloat (2 ^ m) := by
  unfold fitsFloat
  apply pow_dvd_pow
  have : bitLength (2 ^ m) ≤ m + 1 :=
    (bitLength_le_iff _ _).2 (Nat.pow_lt_pow_right (by decide) (Nat.lt_succ_self m))
  omega

theorem fitsFloat_eight_mul (j : Nat) : fitsFloat (8 * 2 ^ j) := by
  have : 8 * 2 ^ j = 2 ^ (j + 3) := by rw [pow_add]; ring
  rw [this]
  exact fitsFloat_two_pow _

theorem BString_Create_zero (w w0 : World) (str : List Nat) (s0 : BString)
    (h : BString_Create w str 0 = .ok (some s0, w0)) : s0 = emptyBString := by
  obtain ⟨p, w2, hc⟩ := BString_Create_ok w w0 s0 str 0 h
  obtain ⟨h1, h2, _⟩ := BString_Construct_ok w2 w0 p s0 str 0 hc
  obtain ⟨h3, h4, h5⟩ := h2 rfl
  cases s0
  simp only at h1 h3 h4 h5
  subst h1 h3 h4 h5
  rfl

theorem pushChars_schedule : ∀ (cs : List Nat) (w w1 : World) (s : BString)
    (so : Option BString) (j : Nat),
    s.capacity = 8 * 2 ^ j → s.size < 8 * 2 ^ j → (j = 0 ∨ 8 * 2 ^ (j - 1) ≤ s.size) →
    s.capacity < SIZE_MOD → pushChars w (some s) cs = .ok (so, w1) →
    ∃ s1 j1, so = some s1 ∧ s1.size = s.size + cs.length ∧ s1.capacity = 8 * 2 ^ j1 ∧
      s1.size < 8 * 2 ^ j1 ∧ (j1 = 0 ∨ 8 * 2 ^ (j1 - 1) ≤ s1.size) := by
  intro cs
  induction cs with
  | nil =>
      intro w w1 s so j hc hlt hleast _ h
      simp [pushChars] at h
      exact ⟨s, j, h.1.symm, rfl, hc, hlt, hleast⟩
  | cons c cs ih =>
      intro w w1 s so j hc hlt hleast hcap h
      unfold pushChars at h
      rw [Outcome.bind_eq_ok] at h
      obtain ⟨⟨so1, w2⟩, hp, hrest⟩ := h
      rcases BString_PushBackChar_ok w w2 s c so1 (by omega) hcap hp with
        ⟨hne, buf, _, _, hso⟩ | ⟨he, hfv, old, new, _, _, _, hso⟩
      · subst hso
        dsimp only at hrest
        have key := fun a b c d => ih _ _ _ _ j a b c d hrest
        obtain ⟨s1, j1, h1, h2, h3⟩ := key hc (by dsimp only; omega)
          (by rcases hleast with h0 | h0
              · left; exact h0
              · right; dsimp only; omega) hcap
        exact ⟨s1, j1, h1, by dsimp only at h2; rw [h2, List.length_cons]; omega, h3⟩
      · subst hso
        dsimp only at hrest
        have hfl : floatValue s.capacity = s.capacity := by
          rw [hc]; exact floatValue_of_fits _ (fitsFloat_eight_mul j)
        rw [hfl] at hfv hrest
        have hnew : 2 * s.capacity = 8 * 2 ^ (j + 1) := by rw [hc, pow_succ]; ring
        have key := fun a b c d => ih _ _ _ _ (j + 1) a b c d hrest
        obtain ⟨s1, j1, h1, h2, h3⟩ := key hnew (by dsimp only; omega)
          (by right; simp only [Nat.add_sub_cancel]; omega) hfv
        exact ⟨s1, j1, h1, by dsimp only at h2; rw [h2, List.length_cons]; omega, h3⟩

/-- From a live string of capacity `8 * 2^j` the appends return as long as
the sizes stay below `2^63`. -/
theorem pushChars_live : ∀ (cs : List Nat) (w : World) (s : BString) (j : Nat),
    s.Live → s.capacity = 8 * 2 ^ j → w.AllocOk → s.size + cs.length < 2 ^ 63 →
    ∃ s1 w1, pushChars w (some s) cs = .ok (some s1, w1) ∧ s1.Live ∧ w1.AllocOk ∧
      s1.size = s.size + cs.length := by
  intro cs
  induction cs with
  | nil =>
      intro w s j hl _ hw _
      exact ⟨s, w, rfl, hl, hw, rfl⟩
  | cons c cs ih =>
      intro w s j hl hc hw hb
      rw [List.length_cons] at hb
      have hfl : floatValue s.capacity = s.capacity := by
        rw [hc]; exact floatValue_of_fits _ (fitsFloat_eight_mul j)
      have hfv : s.size + 1 = s.capacity → 2 * floatValue s.capacity < SIZE_MOD := by
        intro he
        rw [hfl]
        unfold SIZE_MOD; norm_num at hb; omega
      obtain ⟨s1, w1, hp, hl1, hw1, hsz, hg, hng⟩ :=
        BString_PushBackChar_live_of w s c hl hw hfv
      have hc1 : ∃ j1, s1.capacity = 8 * 2 ^ j1 := by
        by_cases he : s.size + 1 = s.capacity
        · exact ⟨j + 1, by rw [hg he, hfl, hc, pow_succ]; ring⟩
        · exact ⟨j, by rw [hng he, hc]⟩
      obtain ⟨j1, hc1⟩ := hc1
      obtain ⟨s2, w2, hrest, hl2, hw2, hsz2⟩ := ih w1 s1 j1 hl1 hc1 hw1 (by omega)
      refine ⟨s2, w2, ?_, hl2, hw2, by rw [List.length_cons]; omega⟩
      unfold pushChars
      simp only [hp, Outcome.bind]
      exact hrest

/-! ## Lemmas: `BString_GrowCapacity` with any factor -/

theorem ofSizeT_small (cap : Nat) (h : cap < 2 ^ 24) :
    CFloat.ofSizeT cap = .fin false cap 0 := by
  have hb : bitLength cap - 24 = 0 := by
    have := (bitLength_le_iff cap 24).2 h
    omega
  simp [CFloat.ofSizeT, roundF32, hb, roundShift_zero]

/-- Without rounding the new capacity is the exact floor of the product. -/
theorem newCap_exact (cap m : Nat) (e : Int) (hm : 0 < m) (h : cap * m < 2 ^ 24)
    (he : -149 ≤ e) :
    ((CFloat.ofSizeT cap).mul (.fin false m e)).toSizeT =
      if floorMul cap m e < SIZE_MOD then some (floorMul cap m e) else none := by
  have hcap : cap < 2 ^ 24 := by
    have : cap ≤ cap * m := Nat.le_mul_of_pos_right cap hm
    omega
  rw [ofSizeT_small cap hcap]
  have hb : bitLength (cap * m) - 24 = 0 := by
    have := (bitLength_le_iff (cap * m) 24).2 h
    omega
  have e1 : (-149 - e).toNat = 0 := by omega
  have hr : roundF32 (cap * m) (0 + e) = (cap * m, e) := by
    simp [roundF32, hb, e1, roundShift_zero]
  simp only [CFloat.mul, hr]
  by_cases ho : overflowsF32 (cap * m) e = true
  · rw [if_pos ho]
    simp only [overflowsF32, Bool.and_eq_true, decide_eq_true_eq] at ho
    have : ¬ floorMul cap m e < SIZE_MOD := by
      unfold floorMul SIZE_MOD
      rw [if_pos ho.1]
      have := ho.2
      norm_num at this ⊢
      omega
    simp only [CFloat.toSizeT, if_neg this]
  · rw [if_neg ho]
    simp [CFloat.toSizeT, floorMul]

theorem strlen_zero_at (l : List Nat) : ∀ n, strlen l = some n → l[n]? = some 0 := by
  induction l with
  | nil => intro n h; simp [strlen] at h
  | cons c cs ih =>
      intro n h
      unfold strlen at h
      split at h
      · rename_i hc
        simp at h; subst h; simp [hc]
      · cases hs : strlen cs with
        | none => simp [hs] at h
        | some k =>
            simp [hs] at h
            subst h
            simpa using ih k hs

/-- The bytes `strcpy` leaves in a zeroed buffer: the source up to its first
zero byte. -/
theorem strcpy_getElem (nc : Nat) (old new : List Nat) (n : Nat)
    (hn : strlen old = some n) (h : strcpy (List.replicate nc 0) old = some new) :
    new.length = nc ∧ ∀ i, i ≤ n → new[i]? = old[i]? := by
  have hlen := strcpy_length _ _ _ h
  simp only [List.length_replicate] at hlen
  refine ⟨hlen, ?_⟩
  intro i hi
  have hnl := strlen_lt old n hn
  unfold strcpy at h
  simp only [hn] at h
  by_cases hfit : n + 1 ≤ (List.replicate nc 0).length
  · simp only [hfit, if_true, Option.some.injEq] at h
    subst h
    rw [List.getElem?_append_left (by simp; omega), List.getElem?_take_of_lt (by omega)]
  · simp only [List.length_replicate] at hfit
    simp at h
    exact absurd h.1 hfit

/-! ## Lemmas: the bytes appended by `BString_PushBackCString` -/

theorem take_succ_of_agree (l buf : List Nat) (k c : Nat) (hk : k ≤ buf.length)
    (hagree : ∀ i, i < k → l[i]? = buf[i]?) (hc : l[k]? = some c) :
    l.take (k + 1) = buf.take k ++ [c] := by
  apply List.ext_getElem?
  intro i
  rw [List.getElem?_take]
  by_cases h1 : i < k
  · rw [if_pos (by omega), List.getElem?_append_left (by simp; omega),
      List.getElem?_take_of_lt h1]
    exact hagree i h1
  · by_cases h2 : i = k
    · subst h2
      rw [if_pos (by omega), List.getElem?_append_right (by simp)]
      simp [hc, Nat.min_eq_left hk]
    · rw [if_neg (by omega), List.getElem?_append_right (by simp; omega)]
      simp [Nat.min_eq_left hk]
      omega

/-- One `BString_PushBackChar` on a live string whose stored bytes are the
zero-free `content` appends the byte. -/
theorem BString_PushBackChar_content (w : World) (s : BString) (c : Nat)
    (buf content : List Nat) (hl : s.Live) (hd : s.data = some buf)
    (hcont : buf.take s.size = content) (hz : ∀ x ∈ content, x ≠ 0)
    (hw : w.AllocOk) (hb : s.size + 1 < 2 ^ 62) :
    ∃ s1 w1 buf1, BString_PushBackChar w (some s) c = .ok (some s1, w1) ∧ s1.Live ∧
      w1.AllocOk ∧ s1.size = s.size + 1 ∧ s1.data = some buf1 ∧
      buf1.take s1.size = content ++ [c] := by
  obtain ⟨s1, w1, h, hl1, hw1, hsz⟩ := BString_PushBackChar_live w s c hl hw hb
  obtain ⟨buf0, hd0, hlen, hlt, hcap, hlast⟩ := hl
  rw [hd] at hd0
  simp only [Option.some.injEq] at hd0
  subst hd0
  rcases BString_PushBackChar_ok w w1 s c _ hlt hcap h with
    ⟨hne, b, hdb, hbl, hso⟩ | ⟨he, hfv, old, new, hdo, hcp, hbl, hso⟩
  · rw [hd] at hdb
    simp only [Option.some.injEq] at hdb hso
    subst hdb
    subst hso
    refine ⟨_, w1, _, h, hl1, hw1, rfl, rfl, ?_⟩
    rw [← hcont]
    apply take_succ_of_agree _ _ _ _ (by omega)
    · intro i hi
      rw [List.getElem?_set_ne (by omega)]
    · simp [hbl]
  · rw [hd] at hdo
    simp only [Option.some.injEq] at hdo hso
    subst hdo
    subst hso
    obtain ⟨n, hn, hnle⟩ := strlen_of_zero buf _ hlast
    obtain ⟨hnewlen, hget⟩ := strcpy_getElem _ buf new n hn hcp
    have hzn := strlen_zero_at buf n hn
    have hge : s.size ≤ n := by
      by_contra hcon
      have hmem : (0 : Nat) ∈ buf.take s.size := by
        rw [List.mem_iff_getElem?]
        exact ⟨n, by rw [List.getElem?_take_of_lt (by omega)]; exact hzn⟩
      rw [hcont] at hmem
      exact hz 0 hmem rfl
    refine ⟨_, w1, _, h, hl1, hw1, rfl, rfl, ?_⟩
    rw [← hcont]
    apply take_succ_of_agree _ _ _ _ (by omega)
    · intro i hi
      rw [List.getElem?_set_ne (by omega)]
      exact hget i (by omega)
    · simp [hnewlen, hbl]

theorem BString_PushBackCString_loop_content (t rest : List Nat) (ht : ∀ x ∈ t, x ≠ 0) :
    ∀ (remaining i : Nat) (w : World) (s : BString) (buf content : List Nat),
      s.Live → s.data = some buf → buf.take s.size = content → (∀ x ∈ content, x ≠ 0) →
      w.AllocOk → s.size + remaining < 2 ^ 62 → i + remaining ≤ INT_MAX →
      i + remaining ≤ t.length →
      ∃ s1 w1 buf1,
        BString_PushBackCString_loop (t ++ 0 :: rest) remaining i w (some s)
          = .ok (some s1, w1) ∧
        s1.Live ∧ w1.AllocOk ∧ s1.size = s.size + remaining ∧ s1.data = some buf1 ∧
        buf1.take s1.size = content ++ (t.drop i).take remaining := by
  intro remaining
  induction remaining with
  | zero =>
      intro i w s buf content hl hd hcont _ hw _ _ _
      exact ⟨s, w, buf, rfl, hl, hw, rfl, hd, by simpa using hcont⟩
  | succ r ih =>
      intro i w s buf content hl hd hcont hz hw hb hi hlen
      have hit : i < t.length := by omega
      have hget : (t ++ 0 :: rest)[i]? = some t[i] := by
        rw [List.getElem?_append_left hit, List.getElem?_eq_getElem hit]
      have hne : t[i] ≠ 0 := ht _ (List.getElem_mem _)
      obtain ⟨s1, w1, buf1, hp, hl1, hw1, hsz1, hd1, hc1⟩ :=
        BString_PushBackChar_content w s t[i] buf content hl hd hcont hz hw (by omega)
      have hz1 : ∀ x ∈ content ++ [t[i]], x ≠ 0 := by
        intro x hx
        rcases List.mem_append.1 hx with hx | hx
        · exact hz x hx
        · simp at hx; rw [hx]; exact hne
      obtain ⟨s2, w2, buf2, hloop, hl2, hw2, hsz2, hd2, hc2⟩ :=
        ih (i + 1) w1 s1 buf1 _ hl1 hd1 hc1 hz1 hw1 (by omega) (by omega) (by omega)
      refine ⟨s2, w2, buf2, ?_, hl2, hw2, by omega, hd2, ?_⟩
      · unfold BString_PushBackCString_loop
        have hi1 : i < INT_MAX := by omega
        simp only [hi1, if_true, hget, hp, Outcome.bind]
        exact hloop
      · rw [hc2, List.drop_eq_getElem_cons hit, List.take_succ_cons, List.append_assoc]
        rfl

/-- For a C string of at most `INT_MAX` bytes `BString_PushBackCString`
appends the bytes in their order. -/
theorem BString_PushBackCString_appends (w : World) (s : BString) (buf t rest : List Nat)
    (hl : s.Live) (hd : s.data = some buf) (hz : ∀ x ∈ buf.take s.size, x ≠ 0)
    (ht : ∀ x ∈ t, x ≠ 0) (hw : w.AllocOk) (hn : t.length ≤ INT_MAX)
    (hb : s.size + t.length < 2 ^ 62) :
    ∃ s1 w1 buf1, BString_PushBackCString w (some s) (t ++ 0 :: rest) = .ok (some s1, w1) ∧
      s1.size = s.size + t.length ∧ s1.data = some buf1 ∧
      buf1.take (s.size + t.length) = buf.take s.size ++ t := by
  obtain ⟨s1, w1, buf1, h, _, _, hsz, hd1, hc⟩ :=
    BString_PushBackCString_loop_content t rest ht t.length 0 w s buf _ hl hd rfl hz hw hb
      (by omega) (by omega)
  refine ⟨s1, w1, buf1, ?_, hsz, hd1, ?_⟩
  · unfold BString_PushBackCString
    rw [strlen_append_zero t rest ht]
    exact h
  · rw [← hsz, hc]
    simp

/-- The counter of the loop cannot pass `INT_MAX`: a loop that has to run
past it does not return. -/
theorem BString_PushBackCString_loop_overflow (cstring : List Nat) :
    ∀ (remaining i : Nat) (w : World) (bstring : Option BString)
      (r : Option BString × World),
      i ≤ INT_MAX → INT_MAX < i + remaining →
      BString_PushBackCString_loop cstring remaining i w bstring ≠ .ok r := by
  intro remaining
  induction remaining with
  | zero => intro i w bstring r h1 h2; omega
  | succ k ih =>
      intro i w bstring r h1 h2 h
      unfold BString_PushBackCString_loop at h
      by_cases hi : i < INT_MAX
      · simp only [hi, if_true] at h
        cases hc : cstring[i]? with
        | none => simp [hc] at h
        | some c =>
            simp only [hc, Outcome.bind_eq_ok] at h
            obtain ⟨a, _, ha⟩ := h
            exact ih (i + 1) a.2 a.1 r (by omega) (by omega) ha
      · simp [hi] at h

/-! ## Lemmas: memory and chains -/

@[simp] theorem MetaObject.metadata_setMetadata (o : MetaObject) (md : MetaData) :
    (o.setMetadata md).metadata = md := by
  cases o <;> rfl

@[simp] theorem Heap.set_same (h : Heap) (a : Nat) (o : MetaObject) : h.set a o a = some o := by
  simp [Heap.set]

theorem Heap.set_other (h : Heap) (a b : Nat) (o : MetaObject) (hne : b ≠ a) :
    h.set a o b = h b := by
  simp [Heap.set, hne]

/-- A chain only depends on the `next` fields of its records. -/
theorem IsChain_of_agree (h h1 : Heap) : ∀ (as : List Nat) (p : Option Nat),
    (∀ a ∈ as, ∀ o, h a = some o → ∃ o1, h1 a = some o1 ∧ o1.metadata.next = o.metadata.next) →
    IsChain h p as → IsChain h1 p as := by
  intro as
  induction as with
  | nil => intro p _ hc; exact hc
  | cons a as ih =>
      intro p hag hc
      obtain ⟨hp, o, ho, hrest⟩ := hc
      obtain ⟨o1, ho1, hn⟩ := hag a (List.mem_cons_self _ _) o ho
      refine ⟨hp, o1, ho1, ?_⟩
      rw [hn]
      exact ih _ (fun b hb => hag b (List.mem_cons_of_mem _ hb)) hrest

/-- The counts only depend on the `nextcount` fields of the records. -/
theorem WellCounted_of_agree (h h1 : Heap) : ∀ (as : List Nat),
    (∀ a ∈ as, ∀ o, h a = some o →
      ∃ o1, h1 a = some o1 ∧ o1.metadata.nextcount = o.metadata.nextcount) →
    WellCounted h as → WellCounted h1 as := by
  intro as
  induction as with
  | nil => intro _ _; trivial
  | cons a as ih =>
      intro hag hc
      obtain ⟨⟨o, ho, hcnt⟩, hrest⟩ := hc
      obtain ⟨o1, ho1, hn⟩ := hag a (List.mem_cons_self _ _) o ho
      exact ⟨⟨o1, ho1, by rw [hn, hcnt]⟩,
        ih (fun b hb => hag b (List.mem_cons_of_mem _ hb)) hrest⟩

theorem IsChain_unique (h : Heap) : ∀ (as bs : List Nat) (p : Option Nat),
    IsChain h p as → IsChain h p bs → as = bs := by
  intro as
  induction as with
  | nil =>
      intro bs p ha hb
      cases bs with
      | nil => rfl
      | cons b bs =>
          obtain ⟨hp, _⟩ := hb
          simp only [IsChain] at ha
          rw [ha] at hp
          cases hp
  | cons a as ih =>
      intro bs p ha hb
      obtain ⟨hp, o, ho, hrest⟩ := ha
      cases bs with
      | nil =>
          simp only [IsChain] at hb
          rw [hb] at hp
          cases hp
      | cons b bs =>
          obtain ⟨hp1, o1, ho1, hrest1⟩ := hb
          rw [hp] at hp1
          simp only [Option.some.injEq] at hp1
          subst hp1
          rw [ho] at ho1
          simp only [Option.some.injEq] at ho1
          subst ho1
          rw [ih bs _ hrest hrest1]

theorem IsChain_suffix (h : Heap) : ∀ (as : List Nat) (p : Option Nat) (a : Nat),
    IsChain h p as → a ∈ as → ∃ suf, suf.length < as.length ∧ IsChain h (some a) (a :: suf) := by
  intro as
  induction as with
  | nil => intro p a _ hm; simp at hm
  | cons b as ih =>
      intro p a hc hm
      obtain ⟨hp, o, ho, hrest⟩ := hc
      rcases List.mem_cons.1 hm with hab | hm
      · subst hab
        exact ⟨as, by simp, rfl, o, ho, hrest⟩
      · obtain ⟨suf, hl, hs⟩ := ih _ a hrest hm
        exact ⟨suf, by simp; omega, hs⟩

/-- A chain that ends in null has no record twice: it is acyclic. -/
theorem IsChain_nodup (h : Heap) : ∀ (as : List Nat) (p : Option Nat),
    IsChain h p as → as.Nodup := by
  intro as
  induction as with
  | nil => intro _ _; exact List.nodup_nil
  | cons a as ih =>
      intro p hc
      obtain ⟨hp, o, ho, hrest⟩ := hc
      refine List.nodup_cons.2 ⟨?_, ih _ hrest⟩
      intro hm
      obtain ⟨suf, hl, hs⟩ := IsChain_suffix h as _ a hrest hm
      have heq := IsChain_unique h (a :: suf) (a :: as) (some a) hs ⟨rfl, o, ho, hrest⟩
      simp only [List.cons.injEq, true_and] at heq
      rw [heq] at hl
      omega

/-! ## Lemmas: `MetaList_PushBack` -/

theorem Heap.bumpAll_cons (h : Heap) (c : Nat) (cs : List Nat) (k : Nat) (oc : MetaObject)
    (hc : h c = some oc) (hn : c ∉ cs) :
    (h.set c (oc.bump k)).bumpAll cs k = h.bumpAll (c :: cs) k := by
  funext b
  unfold Heap.bumpAll
  by_cases hb : b = c
  · subst hb
    simp [hn, hc]
  · by_cases hm : b ∈ cs
    · simp [hm, Heap.set_other _ _ _ _ hb]
    · simp [hm, hb, Heap.set_other _ _ _ _ hb]

/-- The loop of `MetaList_PushBack` along a chain that does not hold the
addition: every record of the chain gets the count added, the last record of
the chain is returned. -/
theorem MetaList_PushBack_loop_chain (x : Nat) (ox : MetaObject) :
    ∀ (cs : List Nat) (fuel : Nat) (h : Heap) (p prev : Option Nat),
      IsChain h p cs → x ∉ cs → h x = some ox → cs.length ≤ fuel →
      MetaList_PushBack_loop fuel h x p prev
        = some (.ok (h.bumpAll cs (1 + ox.metadata.nextcount), (cs.map some).getLastD prev)) := by
  intro cs
  induction cs with
  | nil =>
      intro fuel h p prev hc _ _ _
      simp only [IsChain] at hc
      subst hc
      have : h.bumpAll [] (1 + ox.metadata.nextcount) = h := by
        funext b; simp [Heap.bumpAll]
      rw [this]
      cases fuel <;> rfl
  | cons c cs ih =>
      intro fuel h p prev hc hx hox hfuel
      obtain ⟨hp, oc, hoc, hrest⟩ := hc
      subst hp
      have hnd := IsChain_nodup h (c :: cs) (some c) ⟨rfl, oc, hoc, hrest⟩
      have hcn : c ∉ cs := (List.nodup_cons.1 hnd).1
      have hxc : x ≠ c := fun e => hx (e ▸ List.mem_cons_self _ _)
      have hxcs : x ∉ cs := fun e => hx (List.mem_cons_of_mem _ e)
      cases fuel with
      | zero => simp at hfuel
      | succ fuel =>
          unfold MetaList_PushBack_loop
          simp only [hoc, hox]
          have hrest1 : IsChain (h.set c (oc.bump (1 + ox.metadata.nextcount)))
              oc.metadata.next cs := by
            apply IsChain_of_agree h _ cs _ _ hrest
            intro a ha o ho
            have hac : a ≠ c := fun e => hcn (e ▸ ha)
            exact ⟨o, by rw [Heap.set_other _ _ _ _ hac]; exact ho, rfl⟩
          have hox1 : (h.set c (oc.bump (1 + ox.metadata.nextcount))) x = some ox := by
            rw [Heap.set_other _ _ _ _ hxc]; exact hox
          have := ih fuel _ oc.metadata.next (some c) hrest1 hxcs hox1
            (by simp at hfuel; omega)
          rw [Heap.bumpAll_cons h c cs _ oc hoc hcn] at this
          rw [List.map_cons, List.getLastD_cons]
          exact this

theorem getLastD_map_some (cs : List Nat) (last : Nat) (prev : Option Nat)
    (h : cs.getLast? = some last) : (cs.map some).getLastD prev = some last := by
  rw [List.getLastD_eq_getLast?, List.getLast?_map, h]
  rfl

theorem getLast?_mem (cs : List Nat) (last : Nat) (h : cs.getLast? = some last) :
    last ∈ cs := List.mem_of_getLast?_eq_some h

/-- Linking a chain to another one: the `next` of its last record is set to
the head of the other chain, the other `next` fields are kept. -/
theorem IsChain_link (h h3 : Heap) (x last : Nat) (bs : List Nat) :
    ∀ (as : List Nat) (p : Option Nat), IsChain h p as → as.getLast? = some last → as.Nodup →
      (∀ a ∈ as, ∀ o, h a = some o → ∃ o3, h3 a = some o3 ∧
        o3.metadata.next = if a = last then some x else o.metadata.next) →
      IsChain h3 (some x) bs → IsChain h3 p (as ++ bs) := by
  intro as
  induction as with
  | nil => intro p _ hl; simp at hl
  | cons a as ih =>
      intro p hc hl hnd hag hbs
      obtain ⟨hp, o, ho, hrest⟩ := hc
      obtain ⟨o3, ho3, hn3⟩ := hag a (List.mem_cons_self _ _) o ho
      refine ⟨hp, o3, ho3, ?_⟩
      cases as with
      | nil =>
          simp only [List.getLast?_singleton, Option.some.injEq] at hl
          simp only [IsChain] at hrest
          rw [hn3, if_pos hl]
          exact hbs
      | cons b as =>
          rw [List.getLast?_cons_cons] at hl
          have hal : a ≠ last := by
            intro e
            have := getLast?_mem _ _ hl
            rw [← e] at this
            exact (List.nodup_cons.1 hnd).1 this
          rw [hn3, if_neg hal]
          exact ih _ hrest hl (List.nodup_cons.1 hnd).2
            (fun c hc => hag c (List.mem_cons_of_mem _ hc)) hbs

theorem WellCounted_lt (h : Heap) : ∀ (as : List Nat), WellCounted h as →
    ∀ a ∈ as, ∀ o, h a = some o → o.metadata.nextcount < as.length := by
  intro as
  induction as with
  | nil => intro _ a ha; simp at ha
  | cons b as ih =>
      intro hw a ha o ho
      obtain ⟨⟨ob, hob, hcnt⟩, hrest⟩ := hw
      rcases List.mem_cons.1 ha with e | hm
      · subst e
        rw [hob] at ho
        simp only [Option.some.injEq] at ho
        subst ho
        simp [hcnt]
      · have := ih hrest a hm o ho
        simp; omega

/-- The counts of a chain linked to another one of `k` records: each count
of the first chain grows by `k`. -/
theorem WellCounted_link (h h3 : Heap) (k : Nat) (bs : List Nat) (hk : bs.length = k) :
    ∀ (as : List Nat), WellCounted h as →
      (∀ a ∈ as, ∀ o, h a = some o → ∃ o3, h3 a = some o3 ∧
        o3.metadata.nextcount = o.metadata.nextcount + k) →
      WellCounted h3 bs → WellCounted h3 (as ++ bs) := by
  intro as
  induction as with
  | nil => intro _ _ hbs; exact hbs
  | cons a as ih =>
      intro hw hag hbs
      obtain ⟨⟨o, ho, hcnt⟩, hrest⟩ := hw
      obtain ⟨o3, ho3, hn3⟩ := hag a (List.mem_cons_self _ _) o ho
      refine ⟨⟨o3, ho3, ?_⟩, ih hrest (fun c hc => hag c (List.mem_cons_of_mem _ hc)) hbs⟩
      rw [hn3, hcnt]
      show as.length + k = (as ++ bs).length
      rw [List.length_append, hk]

theorem IsChain_mem (h : Heap) : ∀ (as : List Nat) (p : Option Nat), IsChain h p as →
    ∀ a ∈ as, ∃ o, h a = some o := by
  intro as
  induction as with
  | nil => intro _ _ a ha; simp at ha
  | cons b as ih =>
      intro p hc a ha
      obtain ⟨_, o, ho, hrest⟩ := hc
      rcases List.mem_cons.1 ha with e | hm
      · subst e; exact ⟨o, ho⟩
      · exact ih _ hrest a hm

theorem IsChain_head (h : Heap) (as : List Nat) (p : Option Nat) (hc : IsChain h p as) :
    p = as.head? := by
  cases as with
  | nil => exact hc
  | cons a as => exact hc.1

/-- One `MetaList_PushBack` of the head `x` of a well formed chain onto a
well formed list that is disjoint from the chain: the call returns, the list
is well formed again, its chain is the old one followed by the pushed one, and
no other record is touched. -/
theorem MetaList_PushBack_spec (fuel : Nat) (h : Heap) (list_addr : Nat) (l : MetaList)
    (as : List Nat) (x : Nat) (bs : List Nat) (hok : ListOk h l as)
    (hcx : IsChain h (some x) (x :: bs)) (hwx : WellCounted h (x :: bs))
    (hdis : ∀ a ∈ as, a ∉ x :: bs) (hsz : as.length + (x :: bs).length < SIZE_MOD)
    (hfuel : as.length ≤ fuel) :
    ∃ h1 l1, MetaList_PushBack fuel h list_addr (some l) (some x) = some (.ok (h1, some l1)) ∧
      ListOk h1 l1 (as ++ x :: bs) ∧ (∀ a, a ∉ as → a ∉ x :: bs → h1 a = h a) ∧
      ∃ ox1, h1 x = some ox1 ∧ ox1.metadata.metalist = some list_addr := by
  obtain ⟨hch, hwc, hsize⟩ := hok
  have hcx0 := hcx
  obtain ⟨_, ox, hox, hxrest⟩ := hcx
  have hxcnt : ox.metadata.nextcount = bs.length := by
    obtain ⟨⟨o, ho, hcnt⟩, _⟩ := hwx
    rw [hox] at ho
    simp only [Option.some.injEq] at ho
    subst ho
    exact hcnt
  have hxas : x ∉ as := fun hm => hdis x hm (List.mem_cons_self _ _)
  simp only [List.length_cons] at hsz
  -- the memory after `addition->metalist = list`
  have hag1 : ∀ b o, h b = some o → ∃ o1,
      (h.set x (ox.setMetadata { ox.metadata with metalist := some list_addr })) b = some o1 ∧
      o1.metadata.next = o.metadata.next ∧ o1.metadata.nextcount = o.metadata.nextcount := by
    intro b o ho
    by_cases hb : b = x
    · subst hb
      rw [hox] at ho
      simp only [Option.some.injEq] at ho
      subst ho
      exact ⟨_, Heap.set_same _ _ _, by simp, by simp⟩
    · exact ⟨o, by rw [Heap.set_other _ _ _ _ hb]; exact ho, rfl, rfl⟩
  unfold MetaList_PushBack
  simp only [hox]
  by_cases h0 : l.size = 0
  · have has : as = [] := List.length_eq_zero.1 (by rw [← hsize]; exact h0)
    subst has
    simp only [h0, if_true, List.nil_append]
    refine ⟨_, _, rfl, ⟨?_, ?_, ?_⟩, ?_, ⟨_, Heap.set_same _ _ _, by simp⟩⟩
    · exact IsChain_of_agree h _ _ _
        (fun b _ o ho => by obtain ⟨o1, h1, h2, _⟩ := hag1 b o ho; exact ⟨o1, h1, h2⟩) hcx0
    · exact WellCounted_of_agree h _ _
        (fun b _ o ho => by obtain ⟨o1, h1, _, h3⟩ := hag1 b o ho; exact ⟨o1, h1, h3⟩) hwx
    · simp only [List.length_cons, hxcnt]
      rw [Nat.mod_eq_of_lt (by simp at hsz; omega)]
      omega
    · intro a _ ha
      have hax : a ≠ x := fun e => ha (e ▸ List.mem_cons_self _ _)
      exact Heap.set_other _ _ _ _ hax
  · simp only [h0, if_false]
    have hne : as ≠ [] := by
      intro e; subst e; exact h0 (by simpa using hsize)
    obtain ⟨last, hlast⟩ : ∃ last, as.getLast? = some last := by
      cases hl : as.getLast? with
      | none => exact absurd (List.getLast?_eq_none_iff.1 hl) hne
      | some last => exact ⟨last, rfl⟩
    have hlm : last ∈ as := getLast?_mem _ _ hlast
    have hxl : x ≠ last := fun e => hxas (e ▸ hlm)
    obtain ⟨olast, holast⟩ := IsChain_mem h as _ hch last hlm
    have hnd := IsChain_nodup h as _ hch
    have hch1 : IsChain (h.set x (ox.setMetadata { ox.metadata with metalist := some list_addr }))
        l.head as :=
      IsChain_of_agree h _ _ _
        (fun b _ o ho => by obtain ⟨o1, h1, h2, _⟩ := hag1 b o ho; exact ⟨o1, h1, h2⟩) hch
    have hloop := MetaList_PushBack_loop_chain x
      (ox.setMetadata { ox.metadata with metalist := some list_addr }) as fuel _ l.head none
      hch1 hxas (Heap.set_same _ _ _) hfuel
    rw [getLastD_map_some as last none hlast] at hloop
    simp only [MetaObject.metadata_setMetadata] at hloop
    simp only [hloop]
    -- the record `prev_node` points to
    have h2last : ((h.set x (ox.setMetadata { ox.metadata with metalist := some list_addr })).bumpAll
        as (1 + ox.metadata.nextcount)) last = some (olast.bump (1 + ox.metadata.nextcount)) := by
      simp only [Heap.bumpAll, hlm, if_true, Heap.set_other _ _ _ _ (Ne.symm hxl), holast,
        Option.map_some']
    simp only [h2last]
    have h3x : (((h.set x (ox.setMetadata { ox.metadata with metalist := some list_addr })).bumpAll
        as (1 + ox.metadata.nextcount)).set last ((olast.bump (1 + ox.metadata.nextcount)).setMetadata
          { (olast.bump (1 + ox.metadata.nextcount)).metadata with next := some x })) x
        = some (ox.setMetadata { ox.metadata with metalist := some list_addr }) := by
      rw [Heap.set_other _ _ _ _ hxl]
      simp only [Heap.bumpAll, hxas, if_false, Heap.set_same]
    simp only [h3x, MetaObject.metadata_setMetadata]
    -- the records of the list afterwards
    have hasrec : ∀ a ∈ as, ∀ o, h a = some o → ∃ o3,
        (((h.set x (ox.setMetadata { ox.metadata with metalist := some list_addr })).bumpAll
          as (1 + ox.metadata.nextcount)).set last ((olast.bump (1 + ox.metadata.nextcount)).setMetadata
            { (olast.bump (1 + ox.metadata.nextcount)).metadata with next := some x })) a = some o3 ∧
        o3.metadata.next = (if a = last then some x else o.metadata.next) ∧
        o3.metadata.nextcount = o.metadata.nextcount + (x :: bs).length := by
      intro a ha o ho
      have hax : a ≠ x := fun e => hxas (e ▸ ha)
      have hlt := WellCounted_lt h as hwc a ha o ho
      have hmod : (o.metadata.nextcount + (1 + ox.metadata.nextcount)) % SIZE_MOD
          = o.metadata.nextcount + (x :: bs).length := by
        rw [Nat.mod_eq_of_lt (by omega), List.length_cons]; omega
      by_cases hal : a = last
      · subst hal
        rw [holast] at ho
        simp only [Option.some.injEq] at ho
        subst ho
        refine ⟨_, Heap.set_same _ _ _, by simp, ?_⟩
        simp only [MetaObject.metadata_setMetadata, MetaObject.bump]
        exact hmod
      · refine ⟨o.bump (1 + ox.metadata.nextcount), ?_, ?_, ?_⟩
        · rw [Heap.set_other _ _ _ _ hal]
          simp only [Heap.bumpAll, ha, if_true, Heap.set_other _ _ _ _ hax, ho, Option.map_some']
        · simp [MetaObject.bump, hal]
        · simp only [MetaObject.metadata_setMetadata, MetaObject.bump]
          exact hmod
    have hother : ∀ b, b ∉ as → ∀ o, h b = some o → ∃ o3,
        (((h.set x (ox.setMetadata { ox.metadata with metalist := some list_addr })).bumpAll
          as (1 + ox.metadata.nextcount)).set last ((olast.bump (1 + ox.metadata.nextcount)).setMetadata
            { (olast.bump (1 + ox.metadata.nextcount)).metadata with next := some x })) b = some o3 ∧
        o3.metadata.next = o.metadata.next ∧ o3.metadata.nextcount = o.metadata.nextcount := by
      intro b hb o ho
      have hbl : b ≠ last := fun e => hb (e ▸ hlm)
      obtain ⟨o1, h1, h2, h3⟩ := hag1 b o ho
      refine ⟨o1, ?_, h2, h3⟩
      rw [Heap.set_other _ _ _ _ hbl]
      simp only [Heap.bumpAll, hb, if_false]
      exact h1
    have hbsnot : ∀ b ∈ x :: bs, b ∉ as := fun b hb hm => hdis b hm hb
    refine ⟨_, _, rfl, ⟨?_, ?_, ?_⟩, ?_, ⟨_, h3x, by simp⟩⟩
    · apply IsChain_link h _ x last (x :: bs) as l.head hch hlast hnd
      · intro a ha o ho
        obtain ⟨o3, h1, h2, _⟩ := hasrec a ha o ho
        exact ⟨o3, h1, h2⟩
      · exact IsChain_of_agree h _ _ _
          (fun b hb o ho => by
            obtain ⟨o3, h1, h2, _⟩ := hother b (hbsnot b hb) o ho
            exact ⟨o3, h1, h2⟩) hcx0
    · apply WellCounted_link h _ (x :: bs).length (x :: bs) rfl as hwc
      · intro a ha o ho
        obtain ⟨o3, h1, _, h3⟩ := hasrec a ha o ho
        exact ⟨o3, h1, h3⟩
      · exact WellCounted_of_agree h _ _
          (fun b hb o ho => by
            obtain ⟨o3, h1, _, h3⟩ := hother b (hbsnot b hb) o ho
            exact ⟨o3, h1, h3⟩) hwx
    · simp only [List.length_append, List.length_cons, hsize, hxcnt]
      rw [Nat.mod_eq_of_lt (by omega)]
      omega
    · intro a ha hax
      have hal : a ≠ last := fun e => ha (e ▸ hlm)
      have hax1 : a ≠ x := fun e => hax (e ▸ List.mem_cons_self _ _)
      rw [Heap.set_other _ _ _ _ hal]
      simp only [Heap.bumpAll, ha, if_false, Heap.set_other _ _ _ _ hax1]

theorem mem_flattenChains : ∀ (cs : List (Nat × List Nat)) (c : Nat × List Nat) (b : Nat),
    c ∈ cs → b ∈ c.1 :: c.2 → b ∈ flattenChains cs := by
  intro cs
  induction cs with
  | nil => intro c b hc _; simp at hc
  | cons d ds ih =>
      intro c b hc hb
      simp only [flattenChains]
      rcases List.mem_cons.1 hc with e | hm
      · subst e
        exact List.mem_append_left _ hb
      · exact List.mem_append_right _ (ih c b hm hb)

/-- A sequence of `MetaList_PushBack` calls with the heads of well formed
chains, disjoint from the list and from each other: the calls return, the list
is well formed, its chain is the old one followed by the pushed chains. -/
theorem pushBackAll_spec (fuel list_addr : Nat) :
    ∀ (chains : List (Nat × List Nat)) (h : Heap) (l : MetaList) (as : List Nat),
      ListOk h l as →
      (∀ c ∈ chains, IsChain h (some c.1) (c.1 :: c.2) ∧ WellCounted h (c.1 :: c.2)) →
      (as ++ flattenChains chains).Nodup →
      (as ++ flattenChains chains).length < SIZE_MOD →
      (as ++ flattenChains chains).length ≤ fuel →
      ∃ h1 l1, pushBackAll fuel list_addr h (some l) (chains.map Prod.fst)
          = some (.ok (h1, some l1)) ∧
        ListOk h1 l1 (as ++ flattenChains chains) ∧
        ∀ a, a ∉ as ++ flattenChains chains → h1 a = h a := by
  intro chains
  induction chains with
  | nil =>
      intro h l as hok _ _ _ _
      refine ⟨h, l, rfl, ?_, fun _ _ => rfl⟩
      simpa [flattenChains] using hok
  | cons c cs ih =>
      intro h l as hok hch hnd hsz hfuel
      obtain ⟨x, bs⟩ := c
      simp only [flattenChains, List.length_append, List.length_cons] at hsz hfuel
      simp only [flattenChains] at hnd
      have hnd1 : (as ++ x :: bs ++ flattenChains cs).Nodup := by
        simpa [List.append_assoc] using hnd
      obtain ⟨hc1, hw1⟩ := hch (x, bs) (List.mem_cons_self _ _)
      have hnd2 := (List.nodup_append.1 hnd1).1
      have hdis2 := (List.nodup_append.1 hnd1).2.2
      have hdis : ∀ a ∈ as, a ∉ x :: bs := by
        intro a ha hm
        exact (List.nodup_append.1 hnd2).2.2 ha hm
      obtain ⟨h1, l1, hpush, hok1, hframe, _⟩ :=
        MetaList_PushBack_spec fuel h list_addr l as x bs hok hc1 hw1 hdis
          (by simp only [List.length_cons]; omega) (by omega)
      have hch1 : ∀ c ∈ cs, IsChain h1 (some c.1) (c.1 :: c.2) ∧ WellCounted h1 (c.1 :: c.2) := by
        intro c hc
        obtain ⟨hcc, hwc⟩ := hch c (List.mem_cons_of_mem _ hc)
        have hsame : ∀ b ∈ c.1 :: c.2, h1 b = h b := by
          intro b hb
          have hbf : b ∈ flattenChains cs := mem_flattenChains cs c b hc hb
          have hnot : b ∉ as ++ x :: bs := fun hm => hdis2 hm hbf
          apply hframe b
          · exact fun hm => hnot (List.mem_append_left _ hm)
          · exact fun hm => hnot (List.mem_append_right _ hm)
        exact ⟨IsChain_of_agree h h1 _ _
            (fun b hb o ho => ⟨o, by rw [hsame b hb]; exact ho, rfl⟩) hcc,
          WellCounted_of_agree h h1 _
            (fun b hb o ho => ⟨o, by rw [hsame b hb]; exact ho, rfl⟩) hwc⟩
      obtain ⟨h2, l2, hall, hok2, hframe2⟩ :=
        ih h1 l1 (as ++ x :: bs) hok1 hch1 hnd1
          (by simp only [List.length_append, List.length_cons]; omega)
          (by simp only [List.length_append, List.length_cons]; omega)
      refine ⟨h2, l2, ?_, ?_, ?_⟩
      · simp only [List.map_cons, pushBackAll, hpush]
        exact hall
      · simpa [flattenChains, List.append_assoc] using hok2
      · intro a ha
        have ha1 : a ∉ as ++ x :: bs ++ flattenChains cs := by
          simpa [flattenChains, List.append_assoc] using ha
        rw [hframe2 a ha1]
        apply hframe a
        · exact fun hm => ha1 (List.mem_append_left _ (List.mem_append_left _ hm))
        · exact fun hm => ha1 (List.mem_append_left _ (List.mem_append_right _ hm))

theorem ListOk_construct (h : Heap) (l0 : MetaList) :
    ∃ l, MetaList_Construct (some l0) = some l ∧ l.head = none ∧ l.size = 0 ∧ ListOk h l [] :=
  ⟨⟨none, 0⟩, rfl, rfl, rfl, rfl, trivial, rfl⟩

theorem WellCounted_get (h : Heap) : ∀ (as : List Nat), WellCounted h as →
    ∀ i (hi : i < as.length), ∃ o, h (as[i]) = some o ∧
      o.metadata.nextcount = as.length - 1 - i := by
  intro as
  induction as with
  | nil => intro _ i hi; simp at hi
  | cons a as ih =>
      intro hw i hi
      obtain ⟨⟨o, ho, hcnt⟩, hrest⟩ := hw
      cases i with
      | zero => exact ⟨o, ho, by simp [hcnt]⟩
      | succ j =>
          obtain ⟨o1, ho1, hc1⟩ := ih hrest j (by simpa using hi)
          refine ⟨o1, by simpa using ho1, ?_⟩
          rw [hc1]
          simp
          omega

/-! ## Lemmas: `MetaList_VisitEach` -/

theorem MetaList_VisitEach_loop_null {υ σ : Type} (h : Heap) (visitor : Nat → υ → σ → σ)
    (user_data : υ) (n : Nat) (st : σ) :
    MetaList_VisitEach_loop h visitor user_data n none st = .ok st := by
  cases n <;> rfl

/-- Along a chain the loop visits the first `sanity_check` records, in the
order of the chain. -/
theorem MetaList_VisitEach_loop_chain {υ σ : Type} (h : Heap) (visitor : Nat → υ → σ → σ)
    (user_data : υ) : ∀ (as : List Nat) (n : Nat) (p : Option Nat) (st : σ),
      IsChain h p as →
      MetaList_VisitEach_loop h visitor user_data n p st
        = .ok ((as.take n).foldl (fun s a => visitor a user_data s) st) := by
  intro as
  induction as with
  | nil =>
      intro n p st hc
      simp only [IsChain] at hc
      subst hc
      simp [MetaList_VisitEach_loop_null]
  | cons a as ih =>
      intro n p st hc
      obtain ⟨hp, o, ho, hrest⟩ := hc
      subst hp
      cases n with
      | zero => rfl
      | succ n =>
          simp only [MetaList_VisitEach_loop, ho, List.take_succ_cons, List.foldl_cons]
          exact ih n _ _ hrest

theorem foldl_recordVisit {υ : Type} (user_data : υ) : ∀ (as : List Nat) (calls : List (Nat × υ)),
    as.foldl (fun s a => recordVisit a user_data s) calls
      = calls ++ as.map (fun a => (a, user_data)) := by
  intro as
  induction as with
  | nil => intro calls; simp
  | cons a as ih =>
      intro calls
      simp only [List.foldl_cons]
      rw [ih]
      simp [recordVisit]

/-- Whatever the memory, the loop calls the visitor at most `sanity_check`
times. -/
theorem MetaList_VisitEach_loop_bound {υ : Type} (h : Heap) (user_data : υ) :
    ∀ (n : Nat) (p : Option Nat) (calls0 calls : List (Nat × υ)),
      MetaList_VisitEach_loop h recordVisit user_data n p calls0 = .ok calls →
      calls.length ≤ calls0.length + n := by
  intro n
  induction n with
  | zero =>
      intro p calls0 calls hr
      cases p with
      | none => simp [MetaList_VisitEach_loop] at hr; subst hr; simp
      | some c => simp [MetaList_VisitEach_loop] at hr; subst hr; simp
  | succ n ih =>
      intro p calls0 calls hr
      cases p with
      | none => simp [MetaList_VisitEach_loop] at hr; subst hr; omega
      | some c =>
          simp only [MetaList_VisitEach_loop] at hr
          cases hc : h c with
          | none => simp [hc] at hr
          | some o =>
              simp only [hc] at hr
              have := ih _ _ _ hr
              simp [recordVisit] at this
              omega

/-- In a memory whose `next` pointers all point to records the loop
returns, whether the chain ends or not. -/
theorem MetaList_VisitEach_loop_total {υ σ : Type} (h : Heap) (visitor : Nat → υ → σ → σ)
    (user_data : υ) (hcl : h.Closed) :
    ∀ (n : Nat) (p : Option Nat) (st : σ), (∀ a, p = some a → ∃ o, h a = some o) →
      ∃ st1, MetaList_VisitEach_loop h visitor user_data n p st = .ok st1 := by
  intro n
  induction n with
  | zero =>
      intro p st _
      cases p <;> exact ⟨st, rfl⟩
  | succ n ih =>
      intro p st hp
      cases p with
      | none => exact ⟨st, rfl⟩
      | some c =>
          obtain ⟨o, ho⟩ := hp c rfl
          simp only [MetaList_VisitEach_loop, ho]
          exact ih _ _ (fun a ha => hcl c o ho a ha)


/-! ## Lemmas: disposal -/

theorem Heap.freeAll_cons (h : Heap) (a : Nat) (as : List Nat) :
    (h.freeAll as).free a = h.freeAll (a :: as) := by
  funext b
  unfold Heap.freeAll Heap.free
  by_cases hb : b = a
  · simp [hb]
  · simp [hb]

/-- `MetaObject_Dispose` along a chain: the records are disposed from the
last one to the first one, each through its own destructor or `free`; a
destructor that does not fit its record makes the call undefined. -/
theorem MetaObject_Dispose_chain : ∀ (as : List Nat) (fuel : Nat) (h : Heap)
    (log : List Disposal) (p : Option Nat), IsChain h p as → as.length ≤ fuel →
    MetaObject_Dispose fuel h log p =
      some (if chainDtorsFit h as = true then
        .ok (h.freeAll as, log ++ as.reverse.map (disposalOf h)) else .undefined) := by
  intro as
  induction as with
  | nil =>
      intro fuel h log p hc _
      simp only [IsChain] at hc
      subst hc
      have : h.freeAll [] = h := by funext b; simp [Heap.freeAll]
      cases fuel <;> simp [MetaObject_Dispose, chainDtorsFit, this]
  | cons a as ih =>
      intro fuel h log p hc hfuel
      have hnd := IsChain_nodup h _ _ hc
      have han : a ∉ as := (List.nodup_cons.1 hnd).1
      obtain ⟨hp, o, ho, hrest⟩ := hc
      subst hp
      cases fuel with
      | zero => simp at hfuel
      | succ fuel =>
          have hin := ih fuel h log o.metadata.next hrest (by simp at hfuel; omega)
          simp only [MetaObject_Dispose, ho, hin]
          have hfit : chainDtorsFit h (a :: as) = (o.dtorFits && chainDtorsFit h as) := by
            simp [chainDtorsFit, ho]
          rw [hfit]
          by_cases hrestfit : chainDtorsFit h as = true
          · simp only [hrestfit, if_true, Bool.and_true]
            have h1a : h.freeAll as a = some o := by
              simp [Heap.freeAll, han, ho]
            simp only [h1a]
            cases o with
            | bstring s =>
                cases hd : s.metadata.dtor with
                | none =>
                    simp [MetaObject.metadata, hd, MetaObject.dtorFits, Heap.freeAll_cons,
                      disposalOf, ho]
                | some d =>
                    cases d
                    simp [MetaObject.metadata, hd, MetaObject.dtorFits, Destructor.call,
                      BString_Dispose, h1a, Outcome.bind, Heap.freeAll_cons, disposalOf, ho]
            | optionInput oi =>
                cases hd : oi.metadata.dtor with
                | none =>
                    simp [MetaObject.metadata, hd, MetaObject.dtorFits, Heap.freeAll_cons,
                      disposalOf, ho]
                | some d =>
                    cases d
                    simp [MetaObject.metadata, hd, MetaObject.dtorFits, Destructor.call,
                      BString_Dispose, h1a, Outcome.bind]
          · simp [hrestfit]

/-! ## Lemmas: sample memories and sequences of pushes -/

theorem sampleHeap_chains :
    ∀ c ∈ [((10 : Nat), ([] : List Nat)), (40, [50]), (20, [])],
      IsChain sampleHeap (some c.1) (c.1 :: c.2) ∧ WellCounted sampleHeap (c.1 :: c.2) := by
  intro c hc
  simp only [List.mem_cons, List.mem_singleton, List.not_mem_nil, or_false] at hc
  rcases hc with e | e | e <;> subst e
  · exact ⟨⟨rfl, standaloneNode, rfl, rfl⟩, ⟨standaloneNode, rfl, rfl⟩, trivial⟩
  · exact ⟨⟨rfl, headNode, rfl, rfl, standaloneNode, rfl, rfl⟩,
      ⟨headNode, rfl, rfl⟩, ⟨standaloneNode, rfl, rfl⟩, trivial⟩
  · exact ⟨⟨rfl, optionNode, rfl, rfl⟩, ⟨optionNode, rfl, rfl⟩, trivial⟩

theorem flattenChains_standalone : ∀ (xs : List Nat),
    flattenChains (xs.map fun x => (x, ([] : List Nat))) = xs := by
  intro xs
  induction xs with
  | nil => rfl
  | cons x xs ih => simp [flattenChains, ih]

theorem map_fst_standalone (xs : List Nat) :
    (xs.map fun x => (x, ([] : List Nat))).map Prod.fst = xs := by
  induction xs with
  | nil => rfl
  | cons x xs ih => simp [ih]

/-- Standalone records pushed one after the other and then visited: the size
is their number, the visitor is called on the first `n mod 2^32` of them, in
the order of the pushes. -/
theorem pushBackAll_visitEach (fuel list_addr : Nat) (h : Heap) (l0 : MetaList)
    (xs : List Nat)
    (hst : ∀ x ∈ xs, ∃ o, h x = some o ∧ o.metadata.next = none ∧ o.metadata.nextcount = 0)
    (hnd : xs.Nodup) (hsz : xs.length < SIZE_MOD) (hfuel : xs.length ≤ fuel) :
    ∃ h1 l1, pushBackAll fuel list_addr h (MetaList_Construct (some l0)) xs
        = some (.ok (h1, some l1)) ∧ l1.size = xs.length ∧
      ∀ (υ σ : Type) (visitor : Nat → υ → σ → σ) (user_data : υ) (st : σ),
        MetaList_VisitEach h1 (some l1) visitor user_data st
          = .ok ((xs.take (xs.length % UINT_MOD)).foldl (fun s a => visitor a user_data s) st) := by
  obtain ⟨l, hl, _, _, hok⟩ := ListOk_construct h l0
  have hch : ∀ c ∈ xs.map (fun x => (x, ([] : List Nat))),
      IsChain h (some c.1) (c.1 :: c.2) ∧ WellCounted h (c.1 :: c.2) := by
    intro c hc
    obtain ⟨x, hx, rfl⟩ := List.mem_map.1 hc
    obtain ⟨o, ho, hn, hcnt⟩ := hst x hx
    exact ⟨⟨rfl, o, ho, hn⟩, ⟨o, ho, hcnt⟩, trivial⟩
  obtain ⟨h1, l1, hp, ⟨hc1, _, hs1⟩, _⟩ :=
    pushBackAll_spec fuel list_addr _ h l [] hok hch
      (by simpa [flattenChains_standalone] using hnd)
      (by simpa [flattenChains_standalone] using hsz)
      (by simpa [flattenChains_standalone] using hfuel)
  rw [map_fst_standalone] at hp
  simp only [List.nil_append, flattenChains_standalone] at hc1 hs1
  rw [hl]
  refine ⟨h1, l1, hp, hs1, ?_⟩
  intro υ σ visitor user_data st
  unfold MetaList_VisitEach
  by_cases h0 : l1.size = 0
  · have : xs = [] := List.length_eq_zero.1 (by rw [← hs1]; exact h0)
    subst this
    simp [h0]
  · simp only [h0, if_false]
    rw [MetaList_VisitEach_loop_chain h1 visitor user_data xs _ _ st hc1, hs1]

theorem cycleHeap_closed : cycleHeap.Closed := by
  intro a o ho b hb
  unfold cycleHeap at ho
  by_cases h1 : a = 1
  · subst h1
    simp only [if_true, Option.some.injEq] at ho
    subst ho
    simp only [MetaObject.metadata, Option.some.injEq] at hb
    subst hb
    exact ⟨_, rfl⟩
  · by_cases h2 : a = 2
    · subst h2
      simp only [if_neg h1, if_true, Option.some.injEq] at ho
      subst ho
      simp only [MetaObject.metadata, Option.some.injEq] at hb
      subst hb
      exact ⟨_, rfl⟩
    · simp [h1, h2] at ho


/-! ## Lemmas: 32 bit integers, `FindFirstSet` and `Throw` -/

theorem toU32_lt (x : Int) : toU32 x < 4294967296 := by
  unfold toU32; omega

/-- The test `x & (2^k - 1)` reads the low `k` bits of `x`. -/
theorem int_and_mask (x : Int) (k : Nat) (hk : k ≤ 16) :
    int_and x (((2 ^ k - 1 : Nat) : Int)) = x % ((2 ^ k : Nat) : Int) := by
  have hp : 0 < 2 ^ k := Nat.two_pow_pos k
  have hle : 2 ^ k ≤ 2 ^ 16 := Nat.pow_le_pow_right (by decide) hk
  have hm : toU32 (((2 ^ k - 1 : Nat) : Int)) = 2 ^ k - 1 := by
    unfold toU32
    norm_num at hle
    omega
  unfold int_and
  rw [hm]
  have hl : Nat.land (toU32 x) (2 ^ k - 1) = toU32 x % 2 ^ k :=
    Nat.and_pow_two_sub_one_eq_mod (toU32 x) k
  rw [hl]
  have hlt : toU32 x % 2 ^ k < 2 ^ k := Nat.mod_lt _ hp
  have hdvd : (2 ^ k : Nat) ∣ 4294967296 := by
    have : (4294967296 : Nat) = 2 ^ 32 := by norm_num
    rw [this]
    exact pow_dvd_pow 2 (by omega)
  unfold ofU32
  have hsmall : toU32 x % 2 ^ k % 4294967296 = toU32 x % 2 ^ k := by
    apply Nat.mod_eq_of_lt
    norm_num at hle
    omega
  rw [hsmall, if_pos (by norm_num at hle; omega)]
  unfold toU32
  have hx : 0 ≤ x % 4294967296 := Int.emod_nonneg _ (by decide)
  rw [Int.natCast_mod, Int.toNat_of_nonneg hx]
  exact Int.emod_emod_of_dvd x (by exact_mod_cast hdvd)

theorem int_and_0xFFFF (x : Int) : int_and x 0xFFFF = x % 65536 := by
  have h := int_and_mask x 16 (by decide)
  norm_num at h
  exact h

theorem int_and_0xFF (x : Int) : int_and x 0xFF = x % 256 := by
  have h := int_and_mask x 8 (by decide)
  norm_num at h
  exact h

theorem int_and_0x0F (x : Int) : int_and x 0x0F = x % 16 := by
  have h := int_and_mask x 4 (by decide)
  norm_num at h
  exact h

theorem int_and_0x03 (x : Int) : int_and x 0x03 = x % 4 := by
  have h := int_and_mask x 2 (by decide)
  norm_num at h
  exact h

theorem int_and_0x01 (x : Int) : int_and x 0x01 = x % 2 := by
  have h := int_and_mask x 1 (by decide)
  norm_num at h
  exact h

theorem int_shr_eq_div (x : Int) (n : Nat) : int_shr x n = x / ((2 ^ n : Nat) : Int) :=
  Int.shiftRight_eq_div_pow x n

/-- The function `FindFirstSet` as a cascade of divisions. -/
theorem FindFirstSet_eq (x : Int) :
    FindFirstSet x =
      (let i16 : Int := if x % 65536 = 0 then 16 else 0
       let d1 := x / (if x % 65536 = 0 then 65536 else 1)
       let i8 : Int := if d1 % 256 = 0 then 8 else 0
       let d2 := d1 / (if d1 % 256 = 0 then 256 else 1)
       let i4 : Int := if d2 % 16 = 0 then 4 else 0
       let d3 := d2 / (if d2 % 16 = 0 then 16 else 1)
       let i2 : Int := if d3 % 4 = 0 then 2 else 0
       let d4 := d3 / (if d3 % 4 = 0 then 4 else 1)
       let i1 : Int := if d4 % 2 = 0 then 1 else 0
       let i0 : Int := if (d4 / (if d4 % 2 = 0 then 2 else 1)) % 2 ≠ 0 then 0 else -32
       i16 + i8 + i4 + i2 + i1 + i0) := by
  have s4 : ∀ c : Prop, ∀ [Decidable c], int_shl (if c then 1 else 0) 4 = if c then 16 else 0 := by
    intro c _; split <;> decide
  have s3 : ∀ c : Prop, ∀ [Decidable c], int_shl (if c then 1 else 0) 3 = if c then 8 else 0 := by
    intro c _; split <;> decide
  have s2 : ∀ c : Prop, ∀ [Decidable c], int_shl (if c then 1 else 0) 2 = if c then 4 else 0 := by
    intro c _; split <;> decide
  have s1 : ∀ c : Prop, ∀ [Decidable c], int_shl (if c then 1 else 0) 1 = if c then 2 else 0 := by
    intro c _; split <;> decide
  have d16 : ∀ (y : Int) (c : Prop) [Decidable c],
      int_shr y (if c then (16 : Int) else 0).toNat = y / (if c then 65536 else 1) := by
    intro y c _; rw [int_shr_eq_div]; split <;> simp
  have d8 : ∀ (y : Int) (c : Prop) [Decidable c],
      int_shr y (if c then (8 : Int) else 0).toNat = y / (if c then 256 else 1) := by
    intro y c _; rw [int_shr_eq_div]; split <;> simp
  have d4 : ∀ (y : Int) (c : Prop) [Decidable c],
      int_shr y (if c then (4 : Int) else 0).toNat = y / (if c then 16 else 1) := by
    intro y c _; rw [int_shr_eq_div]; split <;> simp
  have d2 : ∀ (y : Int) (c : Prop) [Decidable c],
      int_shr y (if c then (2 : Int) else 0).toNat = y / (if c then 4 else 1) := by
    intro y c _; rw [int_shr_eq_div]; split <;> simp
  have d1 : ∀ (y : Int) (c : Prop) [Decidable c],
      int_shr y (if c then (1 : Int) else 0).toNat = y / (if c then 2 else 1) := by
    intro y c _; rw [int_shr_eq_div]; split <;> simp
  simp only [FindFirstSet, int_and_0xFFFF, int_and_0xFF, int_and_0x0F, int_and_0x03,
    int_and_0x01, s4, s3, s2, s1, d16, d8, d4, d2, d1]

/-- On a non-zero 32 bit argument, `FindFirstSet` is the number of trailing
zero bits. -/
theorem FindFirstSet_core (x : Int) (hlo : -2147483648 ≤ x) (hhi : x ≤ 2147483647)
    (hx : x ≠ 0) :
    0 ≤ FindFirstSet x ∧ FindFirstSet x ≤ 31 ∧
      x % ((2 ^ (FindFirstSet x).toNat : Nat) : Int) = 0 ∧
      x / ((2 ^ (FindFirstSet x).toNat : Nat) : Int) % 2 = 1 := by
  rw [FindFirstSet_eq]
  dsimp only
  split_ifs <;>
    simp only [Int.reduceAdd, Int.reduceNeg, Int.reduceToNat, Nat.reducePow, Nat.cast_ofNat,
      Int.ediv_one] at * <;>
    omega

/-- Bit `r` is the lowest set bit of `u` when `u` is an odd multiple of
`2 ^ r`. -/
theorem lowest_bit_of (u r : Nat) (h0 : u % 2 ^ r = 0) (h1 : u / 2 ^ r % 2 = 1) :
    Nat.testBit u r = true ∧ ∀ j, j < r → Nat.testBit u j = false := by
  constructor
  · rw [Nat.testBit_to_div_mod]
    exact decide_eq_true h1
  · intro j hj
    have h := Nat.testBit_mod_two_pow u r j
    rw [h0, Nat.zero_testBit] at h
    simpa [hj] using h.symm

/-- On a non-zero 32 bit argument, `FindFirstSet` is the position of the
lowest set bit of the bit pattern. -/
theorem FindFirstSet_bits (x : Int) (hlo : -2147483648 ≤ x) (hhi : x ≤ 2147483647)
    (hx : x ≠ 0) :
    ∃ r : Nat, r ≤ 31 ∧ FindFirstSet x = (r : Int) ∧
      toU32 x % 2 ^ r = 0 ∧ toU32 x / 2 ^ r % 2 = 1 := by
  obtain ⟨h0, h31, hm, hd⟩ := FindFirstSet_core x hlo hhi hx
  refine ⟨(FindFirstSet x).toNat, by omega, (Int.toNat_of_nonneg h0).symm, ?_⟩
  have hr : (FindFirstSet x).toNat ≤ 31 := by omega
  generalize (FindFirstSet x).toNat = r at hm hd hr
  unfold toU32
  interval_cases r <;>
    simp only [Nat.reducePow, Nat.cast_ofNat] at hm hd ⊢ <;>
    omega

theorem toU32_ofU32 (n : Nat) (h : n < 4294967296) : toU32 (ofU32 n) = n := by
  unfold toU32 ofU32
  split <;> omega

/-- A mask that holds every bit of a code carrying the FATAL bit holds the
FATAL bit. -/
theorem contains_fatal_of_contains (g c : Int)
    (hc : Nat.land (toU32 c) (toU32 ERR_CODE_FATAL) = toU32 ERR_CODE_FATAL)
    (h : int_and g c = c) : int_and g ERR_CODE_FATAL = ERR_CODE_FATAL := by
  have hle : Nat.land (toU32 g) (toU32 c) ≤ toU32 c := Nat.and_le_right
  have hlt : Nat.land (toU32 g) (toU32 c) < 4294967296 := lt_of_le_of_lt hle (toU32_lt c)
  have hn : Nat.land (toU32 g) (toU32 c) = toU32 c := by
    have := congrArg toU32 h
    unfold int_and at this
    rwa [toU32_ofU32 _ hlt] at this
  have hassoc : Nat.land (Nat.land (toU32 g) (toU32 c)) (toU32 ERR_CODE_FATAL)
      = Nat.land (toU32 g) (Nat.land (toU32 c) (toU32 ERR_CODE_FATAL)) :=
    Nat.and_assoc _ _ _
  rw [hn, hc] at hassoc
  unfold int_and
  rw [← hassoc]
  decide

/-- A call of `Throw` with a code that is not positive, in a state whose
mask lacks the FATAL bit, does nothing. -/
theorem Throw_nonpositive (w : World) (code : Int) (hcode : ¬ code > ERR_CODE_NONE)
    (hw : CurrentErrors_Contains w ERR_CODE_FATAL = false) : Throw w code = .ok w := by
  simp [Throw, Outcome.bind, hcode, hw]

/-- The lookup index computed by `Throw` is inside the table. -/
theorem FindFirstSet_index (x : Int) (hlo : -2147483648 ≤ x) (hhi : x ≤ 2147483647) :
    0 ≤ FindFirstSet x + 1 ∧ FindFirstSet x + 1 ≤ 32 := by
  by_cases hx : x = 0
  · subst hx
    decide
  · obtain ⟨h0, h31, _, _⟩ := FindFirstSet_core x hlo hhi hx
    omega

/-- A non-negative mask stays non-negative under `Throw`, which therefore
returns: the FATAL bit is never stored and `Terminate` is never reached. -/
theorem Throw_mask_nonneg (w : World) (code : Int)
    (hlo : -2147483648 ≤ code) (hhi : code ≤ 2147483647)
    (h0 : 0 ≤ w.g_CurrentErrors) (h1 : w.g_CurrentErrors ≤ 2147483647) :
    ∃ w1, Throw w code = .ok w1 ∧ 0 ≤ w1.g_CurrentErrors ∧ w1.g_CurrentErrors ≤ 2147483647
      ∧ w1.allocs = w.allocs := by
  have hnf : ∀ g : Int, 0 ≤ g → g ≤ 2147483647 →
      CurrentErrors_Contains ⟨g, w.allocs⟩ ERR_CODE_FATAL = false := by
    intro g hg0 hg1
    unfold CurrentErrors_Contains int_and
    have hle : Nat.land (toU32 g) (toU32 ERR_CODE_FATAL) ≤ toU32 g := Nat.and_le_left
    have hg : toU32 g < 2147483648 := by unfold toU32; omega
    have hF : ERR_CODE_FATAL = -2147483648 := by decide
    have : ofU32 (Nat.land (toU32 g) (toU32 ERR_CODE_FATAL)) ≠ ERR_CODE_FATAL := by
      generalize Nat.land (toU32 g) (toU32 ERR_CODE_FATAL) = n at hle
      rw [hF]
      unfold ofU32
      split <;> omega
    simpa using this
  by_cases hpos : code > ERR_CODE_NONE
  · have hN : ERR_CODE_NONE = 0 := by decide
    have hidx := FindFirstSet_index code hlo hhi
    have hor : 0 ≤ int_or w.g_CurrentErrors code ∧ int_or w.g_CurrentErrors code ≤ 2147483647 := by
      unfold int_or
      have ha : toU32 w.g_CurrentErrors < 2 ^ 31 := by unfold toU32; omega
      have hb : toU32 code < 2 ^ 31 := by unfold toU32; omega
      have hlt : Nat.lor (toU32 w.g_CurrentErrors) (toU32 code) < 2 ^ 31 :=
        Nat.or_lt_two_pow ha hb
      generalize Nat.lor (toU32 w.g_CurrentErrors) (toU32 code) = n at hlt
      unfold ofU32
      split <;> omega
    refine ⟨⟨int_or w.g_CurrentErrors code, w.allocs⟩, ?_, hor.1, hor.2, rfl⟩
    have hin : (0 ≤ FindFirstSet code + 1 ∧ FindFirstSet code + 1 < (s_CodeToStringLookup_length : Int)) := by
      refine ⟨hidx.1, ?_⟩
      have : (s_CodeToStringLookup_length : Int) = 34 := rfl
      omega
    simp only [Throw, hpos, if_true, hin, and_self, Outcome.bind]
    rw [hnf _ hor.1 hor.2]
    simp
  · refine ⟨w, Throw_nonpositive w code hpos (hnf _ h0 h1), h0, h1, rfl⟩

/-! ## The claims -/

/-! ### C1 -/

/-- C1 (code defect): for a non-zero `len` every string returned by
`BString_Create` has its stored size equal to its capacity (both are
`len + 1`), so `capacity > length` does not hold for it. -/
theorem C1_create_size_eq_capacity (w w1 : World) (str : List Nat) (len : Nat)
    (s : BString) (hlen : len ≠ 0) (h : BString_Create w str len = .ok (some s, w1)) :
    s.size = s.capacity ∧ ¬ s.capacity > s.size := by
  obtain ⟨p, w0, hc⟩ := BString_Create_ok w w1 s str len h
  obtain ⟨_, _, h3⟩ := BString_Construct_ok w0 w1 p s str len hc
  obtain ⟨hs, hcap, _⟩ := h3 hlen
  rw [hs, hcap]
  exact ⟨rfl, Nat.lt_irrefl _⟩

/-- C1 at `BString_Create("hi", 2)`: the string has size 3 and capacity 3. -/
theorem C1_create_size_eq_capacity_witness :
    BString_Create ⟨0, []⟩ [104, 105, 0] 2
        = .ok (some ⟨bstringHeader, some [104, 105, 0], 3, 3⟩, ⟨0, []⟩) ∧
      ((3 : Nat) = 3 ∧ ¬ (3 : Nat) > 3) :=
  ⟨by decide,
    C1_create_size_eq_capacity ⟨0, []⟩ ⟨0, []⟩ [104, 105, 0] 2
      ⟨bstringHeader, some [104, 105, 0], 3, 3⟩ (by decide) (by decide)⟩

/-! ### C2 -/

/-- C2 (code defect): `BString_Create("hi", 2)` stores the bytes "hi" but the
size 3, not 2; the size is then not `capacity - 1`, so the following
`BString_PushBackChar('!')` does not grow the buffer and writes at index 3 of
the 3 byte buffer, outside of it. -/
theorem C2_create_hi_then_push :
    BString_Create ⟨0, []⟩ [104, 105, 0] 2
        = .ok (some ⟨bstringHeader, some [104, 105, 0], 3, 3⟩, ⟨0, []⟩) ∧
      BString_PushBackChar ⟨0, []⟩ (some ⟨bstringHeader, some [104, 105, 0], 3, 3⟩) 33
        = .undefined := by
  constructor <;> decide

/-! ### C3 -/

/-- C3, as stated, fails: for the byte sequence `61 00 62` of length 3 the
buffer of `BString_Create` starts with `61 00 00`, the copy stops at the first
zero byte. -/
theorem C3_counterexample :
    BString_Create ⟨0, []⟩ ([97, 0, 98] ++ [0]) 3
        = .ok (some ⟨bstringHeader, some [97, 0, 0, 0], 4, 4⟩, ⟨0, []⟩) ∧
      List.take 3 [97, 0, 0, 0] ≠ [97, 0, 98] := by
  constructor <;> decide

/-- C3 (amended): for every byte sequence `b` without a zero byte, stored as a
C string (followed by a zero byte), `BString_Create(b, n)` with `n` the length
of `b` returns a string when the allocations succeed, and the first `n` bytes
of the buffer of every string it returns are `b`. -/
theorem C3_create_roundtrip (w : World) (b rest : List Nat) (hz : ∀ x ∈ b, x ≠ 0)
    (hn : b.length + 1 < SIZE_MOD) :
    (∀ s w1, BString_Create w (b ++ 0 :: rest) b.length = .ok (some s, w1) →
        ∃ buf, s.data = some buf ∧ buf.take b.length = b) ∧
    (w.AllocOk → ∃ s w1, BString_Create w (b ++ 0 :: rest) b.length = .ok (some s, w1)) := by
  have hmod : (b.length + 1) % SIZE_MOD = b.length + 1 := Nat.mod_eq_of_lt hn
  have hcp : strcpy (List.replicate ((b.length + 1) % SIZE_MOD) 0) (b ++ 0 :: rest)
      = some (b ++ [0]) := by
    rw [hmod, strcpy_cstring _ b rest hz (by simp)]
    simp
  constructor
  · intro s w1 h
    obtain ⟨p, w0, hc⟩ := BString_Create_ok w w1 s _ _ h
    obtain ⟨_, h2, h3⟩ := BString_Construct_ok w0 w1 p s _ _ hc
    by_cases hl : b.length = 0
    · obtain ⟨_, _, hd⟩ := h2 hl
      have hb : b = [] := List.length_eq_zero.1 hl
      subst hb
      exact ⟨_, hd, by simp⟩
    · obtain ⟨_, _, buf, hb1, hb2⟩ := h3 hl
      rw [hcp] at hb1
      simp at hb1
      subst hb1
      exact ⟨_, hb2, by simp⟩
  · intro hw
    obtain ⟨s, w1, h, _⟩ := BString_Create_total w (b ++ 0 :: rest) b.length hw
      (Or.inr ⟨_, hcp⟩)
    exact ⟨s, w1, h⟩

/-- C3 (amended) at the bytes "hi". -/
theorem C3_create_roundtrip_witness :
    (∃ s w1, BString_Create ⟨0, []⟩ ([104, 105] ++ 0 :: []) 2 = .ok (some s, w1)) ∧
      (∀ s w1, BString_Create ⟨0, []⟩ ([104, 105] ++ 0 :: []) 2 = .ok (some s, w1) →
        ∃ buf, s.data = some buf ∧ buf.take 2 = [104, 105]) :=
  ⟨(C3_create_roundtrip ⟨0, []⟩ [104, 105] [] (by decide) (by decide)).2 (by decide),
   (C3_create_roundtrip ⟨0, []⟩ [104, 105] [] (by decide) (by decide)).1⟩

/-! ### C4 -/

/-- C4: every string `BString_Create(src, len)` returns has the header of a
string record (type `BSTRING`, `next` null, `nextcount` 0, no owner, destructor
`BString_Dispose`); for `len == 0` it has capacity 8, size 0 and a buffer of 8
zero bytes; for `len > 0` it has capacity `len + 1` and size `len + 1`.  With
the allocations succeeding a string is returned when `len == 0`, and when
`len > 0` and the source is a C string of at most `len` bytes. -/
theorem C4_create_postcondition (w : World) (str : List Nat) (len : Nat)
    (hlen : len < SIZE_MOD) :
    (∀ s w1, BString_Create w str len = .ok (some s, w1) →
        (s.metadata.type = .BSTRING ∧ s.metadata.next = none ∧ s.metadata.nextcount = 0 ∧
          s.metadata.metalist = none ∧ s.metadata.dtor = some .BString_Dispose) ∧
        (len = 0 → s.capacity = 8 ∧ s.size = 0 ∧ s.data = some (List.replicate 8 0)) ∧
        (0 < len → s.capacity = len + 1 ∧ s.size = len + 1)) ∧
    (w.AllocOk → (len = 0 ∨ (len + 1 < SIZE_MOD ∧ ∃ n, strlen str = some n ∧ n ≤ len)) →
        ∃ s w1, BString_Create w str len = .ok (some s, w1)) := by
  constructor
  · intro s w1 h
    obtain ⟨p, w0, hc⟩ := BString_Create_ok w w1 s _ _ h
    obtain ⟨h1, h2, h3⟩ := BString_Construct_ok w0 w1 p s _ _ hc
    refine ⟨by simp [h1, bstringHeader], ?_, ?_⟩
    · intro hl
      obtain ⟨a, b, c⟩ := h2 hl
      exact ⟨b, a, c⟩
    · intro hl
      obtain ⟨a, b, buf, hb, _⟩ := h3 (by omega)
      have hm : (len + 1) % SIZE_MOD = len + 1 := by
        by_contra hne
        have h0 : (len + 1) % SIZE_MOD = 0 := by
          unfold SIZE_MOD at hlen hne ⊢
          omega
        rw [h0] at hb
        unfold strcpy at hb
        cases hsl : strlen str with
        | none => simp [hsl] at hb
        | some n => simp [hsl] at hb
      rw [hm] at a b
      exact ⟨b, a⟩
  · intro hw hs
    rcases hs with hs | ⟨hl1, n, hn, hnl⟩
    · obtain ⟨s, w1, h, _⟩ := BString_Create_total w str len hw (Or.inl hs)
      exact ⟨s, w1, h⟩
    · have hm : (len + 1) % SIZE_MOD = len + 1 := Nat.mod_eq_of_lt hl1
      have : ∃ buf, strcpy (List.replicate ((len + 1) % SIZE_MOD) 0) str = some buf := by
        unfold strcpy
        rw [hn, hm]
        simp [hnl]
      obtain ⟨s, w1, h, _⟩ := BString_Create_total w str len hw (Or.inr this)
      exact ⟨s, w1, h⟩

/-- C4 at `BString_Create("hi", 2)` and at `BString_Create("", 0)`. -/
theorem C4_create_postcondition_witness :
    (∃ s w1, BString_Create ⟨0, []⟩ [104, 105, 0] 2 = .ok (some s, w1) ∧
        s.capacity = 3 ∧ s.size = 3 ∧ s.metadata.dtor = some .BString_Dispose) ∧
    (∃ s w1, BString_Create ⟨0, []⟩ [0] 0 = .ok (some s, w1) ∧
        s.capacity = 8 ∧ s.size = 0 ∧ s.data = some (List.replicate 8 0)) := by
  have h2 := C4_create_postcondition ⟨0, []⟩ [104, 105, 0] 2 (by decide)
  have h0 := C4_create_postcondition ⟨0, []⟩ [0] 0 (by decide)
  constructor
  · obtain ⟨s, w1, h⟩ := h2.2 (by decide) (Or.inr ⟨by decide, 2, by decide, by decide⟩)
    obtain ⟨hh, _, hp⟩ := h2.1 s w1 h
    exact ⟨s, w1, h, (hp (by decide)).1, (hp (by decide)).2, hh.2.2.2.2⟩
  · obtain ⟨s, w1, h⟩ := h0.2 (by decide) (Or.inl rfl)
    obtain ⟨_, hz, _⟩ := h0.1 s w1 h
    exact ⟨s, w1, h, (hz rfl).1, (hz rfl).2.1, (hz rfl).2.2⟩

/-! ### C5 -/

/-- C5: for every string with `capacity > size`, every returning call of
`BString_PushBackChar`, of `BString_PushBackCString` and of
`BString_GrowCapacity` with the factor `2.0f` leaves a string with
`capacity > size`.  On a live string, with the allocations succeeding and the
sizes below `2^62` (and a C string of at most `INT_MAX` bytes, the range of the
loop counter), the three calls do return. -/
theorem C5_capacity_gt_size_preserved (w : World) (s : BString)
    (hlt : s.capacity > s.size) (hcap : s.capacity < SIZE_MOD) :
    (∀ c so w1, BString_PushBackChar w (some s) c = .ok (so, w1) →
        ∃ s1, so = some s1 ∧ s1.capacity > s1.size) ∧
    (∀ t so w1, BString_PushBackCString w (some s) t = .ok (so, w1) →
        ∃ s1, so = some s1 ∧ s1.capacity > s1.size) ∧
    (∀ r so w1, BString_GrowCapacity w (some s) BSTRING_DEFAULT_GROWTHFACTOR = .ok (r, so, w1) →
        ∃ s1, so = some s1 ∧ s1.capacity > s1.size) ∧
    (s.Live → w.AllocOk → s.capacity < 2 ^ 62 →
      (∀ c, ∃ s1 w1, BString_PushBackChar w (some s) c = .ok (some s1, w1)) ∧
      (∀ t n, strlen t = some n → n ≤ INT_MAX → s.size + n < 2 ^ 62 →
        ∃ s1 w1, BString_PushBackCString w (some s) t = .ok (some s1, w1)) ∧
      (∃ s1 w1, BString_GrowCapacity w (some s) BSTRING_DEFAULT_GROWTHFACTOR
        = .ok (true, some s1, w1))) := by
  refine ⟨?_, ?_, ?_, ?_⟩
  · intro c so w1 h
    obtain ⟨s1, h1, h2, _, _⟩ := BString_PushBackChar_inv w w1 s c so hlt hcap h
    exact ⟨s1, h1, h2⟩
  · intro t so w1 h
    unfold BString_PushBackCString at h
    cases hn : strlen t with
    | none => simp [hn] at h
    | some n =>
        simp only [hn] at h
        obtain ⟨s1, h1, h2, _, _⟩ :=
          BString_PushBackCString_loop_inv t n 0 w w1 s so hlt hcap h
        exact ⟨s1, h1, h2⟩
  · intro r so w1 h
    cases r with
    | true =>
        obtain ⟨_, nc, old, new, hnc, _, _, hso⟩ := BString_GrowCapacity_ok w w1 s _ so h
        obtain ⟨hnc1, _⟩ := newCap_two_some _ _ hnc
        obtain ⟨hb1, _⟩ := floatValue_bounds s.capacity (by omega)
        subst hso
        exact ⟨_, rfl, by simp; omega⟩
    | false =>
        have hso := BString_GrowCapacity_false w w1 s _ so gtOne_default h
        subst hso
        exact ⟨_, rfl, hlt⟩
  · intro hl hw hb
    refine ⟨?_, ?_, ?_⟩
    · intro c
      obtain ⟨s1, w1, h, _⟩ := BString_PushBackChar_live w s c hl hw (by omega)
      exact ⟨s1, w1, h⟩
    · intro t n hn hmax hsz
      have hnl := strlen_lt t n hn
      obtain ⟨s1, w1, h, _⟩ :=
        BString_PushBackCString_loop_live t n 0 w s hl hw hsz (by omega) (by omega)
      refine ⟨s1, w1, ?_⟩
      unfold BString_PushBackCString
      rw [hn]
      exact h
    · obtain ⟨s1, w1, h, _⟩ := BString_GrowCapacity_two_live w s hl hw hb
      exact ⟨s1, w1, h⟩

/-- C5 at the empty string of capacity 8: the three calls return, and leave
`capacity > size`. -/
theorem C5_capacity_gt_size_preserved_witness :
    (∃ s1 w1, BString_PushBackChar ⟨0, []⟩ (some emptyBString) 33 = .ok (some s1, w1) ∧
        s1.capacity > s1.size) ∧
    (∃ s1 w1, BString_PushBackCString ⟨0, []⟩ (some emptyBString) [104, 105, 0]
        = .ok (some s1, w1) ∧ s1.capacity > s1.size) ∧
    (∃ s1 w1, BString_GrowCapacity ⟨0, []⟩ (some emptyBString) BSTRING_DEFAULT_GROWTHFACTOR
        = .ok (true, some s1, w1) ∧ s1.capacity > s1.size) := by
  have h := C5_capacity_gt_size_preserved ⟨0, []⟩ emptyBString (by decide) (by decide)
  obtain ⟨hp, hs, hg, ht⟩ := h
  obtain ⟨tp, ts, tg⟩ := ht emptyBString_live (by decide) (by decide)
  refine ⟨?_, ?_, ?_⟩
  · obtain ⟨s1, w1, h1⟩ := tp 33
    obtain ⟨s2, h2, h3⟩ := hp 33 _ _ h1
    cases h2
    exact ⟨s1, w1, h1, h3⟩
  · obtain ⟨s1, w1, h1⟩ := ts [104, 105, 0] 2 (by decide) (by decide) (by decide)
    obtain ⟨s2, h2, h3⟩ := hs _ _ _ h1
    cases h2
    exact ⟨s1, w1, h1, h3⟩
  · obtain ⟨s1, w1, h1⟩ := tg
    obtain ⟨s2, h2, h3⟩ := hg _ _ _ h1
    cases h2
    exact ⟨s1, w1, h1, h3⟩

/-! ### C6 -/

/-- C6, as stated, fails: a string of size 16777216 in a buffer of capacity
16777217 is grown by `BString_PushBackChar` to the capacity 33554432, not to
`2 * 16777217 = 33554434` (the capacity is rounded to single precision before
it is doubled). -/
theorem C6_counterexample :
    bigBString.size < bigBString.capacity ∧ bigBString.size = bigBString.capacity - 1 ∧
    ∃ s1 w1, BString_PushBackChar ⟨0, []⟩ (some bigBString) 33 = .ok (some s1, w1) ∧
      s1.capacity = 33554432 ∧ s1.capacity ≠ 2 * bigBString.capacity := by
  refine ⟨by decide, by decide, ?_⟩
  obtain ⟨s1, w1, h, _⟩ :=
    BString_PushBackChar_live ⟨0, []⟩ bigBString 33 bigBString_live (by decide) (by decide)
  have hfv : floatValue bigBString.capacity = 16777216 := by decide
  have hcap : s1.capacity = 33554432 := by
    rcases BString_PushBackChar_ok _ _ bigBString 33 _ (by decide) (by decide) h with
      ⟨hne, _⟩ | ⟨_, _, old, new, _, _, _, hso⟩
    · exact absurd (by decide) hne
    · simp only [Option.some.injEq] at hso
      rw [hso, hfv]
  exact ⟨s1, w1, h, hcap, by rw [hcap]; decide⟩

/-- C6 (amended): for every string with `size < capacity`, a returning
`BString_PushBackChar(s, c)` leaves the size `old size + 1` and the byte `c` at
index `old size`; the capacity is unchanged when `old size != old capacity - 1`
and otherwise is twice the single precision value of the old capacity, which
is `2 * old capacity` whenever the old capacity is a `float` exactly (as every
capacity up to `2^24` is).  On a live string with capacity below `2^62` and the
allocation succeeding the call returns. -/
theorem C6_pushBackChar_postcondition (w : World) (s : BString) (c : Nat)
    (hlt : s.size < s.capacity) (hcap : s.capacity < SIZE_MOD) :
    (∀ so w1, BString_PushBackChar w (some s) c = .ok (so, w1) →
      ∃ s1 buf1, so = some s1 ∧ s1.size = s.size + 1 ∧ s1.data = some buf1 ∧
        buf1[s.size]? = some c ∧
        (s.size = s.capacity - 1 → s1.capacity = 2 * floatValue s.capacity) ∧
        (s.size = s.capacity - 1 → fitsFloat s.capacity → s1.capacity = 2 * s.capacity) ∧
        (s.size = s.capacity - 1 → s.capacity ≤ 2 ^ 24 → s1.capacity = 2 * s.capacity) ∧
        (s.size ≠ s.capacity - 1 → s1.capacity = s.capacity)) ∧
    (s.Live → w.AllocOk → s.capacity < 2 ^ 62 →
      ∃ s1 w1, BString_PushBackChar w (some s) c = .ok (some s1, w1)) := by
  constructor
  · intro so w1 h
    rcases BString_PushBackChar_ok w w1 s c so hlt hcap h with
      ⟨hne, buf, hd, hb, hso⟩ | ⟨he, hfv, old, new, hd, hcp, hb, hso⟩
    · subst hso
      refine ⟨_, buf.set s.size c, rfl, rfl, rfl, ?_, ?_, ?_, ?_, ?_⟩
      · simp [hb]
      · intro h1; omega
      · intro h1; omega
      · intro h1; omega
      · intro _; rfl
    · subst hso
      have hlen := strcpy_length _ _ _ hcp
      simp only [List.length_replicate] at hlen
      refine ⟨_, new.set s.size c, rfl, rfl, rfl, ?_, ?_, ?_, ?_, ?_⟩
      · simp [hlen, hb]
      · intro _; rfl
      · intro _ hf
        simp only [floatValue_of_fits _ hf]
      · intro _ hle
        simp only [floatValue_of_fits _ (fitsFloat_of_le _ hle)]
      · intro h1; omega
  · intro hl hw hb
    obtain ⟨s1, w1, h, _⟩ := BString_PushBackChar_live w s c hl hw (by omega)
    exact ⟨s1, w1, h⟩

/-- C6 (amended) at the empty string of capacity 8 and at a string filled up
to its terminator slot. -/
theorem C6_pushBackChar_postcondition_witness :
    (∃ s1 w1, BString_PushBackChar ⟨0, []⟩ (some emptyBString) 33 = .ok (some s1, w1) ∧
        s1.size = 1 ∧ s1.capacity = 8) ∧
    (∃ s1 w1, BString_PushBackChar ⟨0, []⟩
        (some ⟨bstringHeader, some [104, 105, 0], 2, 3⟩) 33 = .ok (some s1, w1) ∧
        s1.size = 3 ∧ s1.capacity = 6) := by
  constructor
  · obtain ⟨hp, ht⟩ :=
      C6_pushBackChar_postcondition ⟨0, []⟩ emptyBString 33 (by decide) (by decide)
    obtain ⟨s1, w1, h⟩ := ht emptyBString_live (by decide) (by decide)
    obtain ⟨s2, _, h2, h3, _, _, _, _, _, h4⟩ := hp _ _ h
    cases h2
    exact ⟨s1, w1, h, h3, h4 (by decide)⟩
  · obtain ⟨hp, ht⟩ := C6_pushBackChar_postcondition ⟨0, []⟩
      ⟨bstringHeader, some [104, 105, 0], 2, 3⟩ 33 (by decide) (by decide)
    obtain ⟨s1, w1, h⟩ := ht ⟨[104, 105, 0], rfl, by decide, by decide, by decide, by decide⟩
      (by decide) (by decide)
    obtain ⟨s2, _, h2, h3, _, _, _, _, h4, _⟩ := hp _ _ h
    cases h2
    exact ⟨s1, w1, h, h3, h4 (by decide) (by decide)⟩

/-! ### C7 -/

/-- C7: after `k` successive `BString_PushBackChar` calls (the bytes `cs`,
`k` their number) on a string created through the zero-length path, every run
that returns leaves the size `k` and the capacity `8 * 2^j` with `j` least
such that `k < 8 * 2^j`: capacity 8 for `k <= 7`, 16 for `8 <= k <= 15`, 32
for `16 <= k <= 31`.  With the allocations succeeding the run returns for
every `k` below `2^63`, that is whenever the capacity `8 * 2^j` is a `size_t`. -/
theorem C7_growth_schedule (w w0 : World) (str : List Nat) (s0 : BString) (cs : List Nat)
    (hc : BString_Create w str 0 = .ok (some s0, w0)) :
    (∀ so w1, pushChars w0 (some s0) cs = .ok (so, w1) →
      ∃ s1 j, so = some s1 ∧ s1.size = cs.length ∧ s1.capacity = 8 * 2 ^ j ∧
        cs.length < 8 * 2 ^ j ∧ (j = 0 ∨ 8 * 2 ^ (j - 1) ≤ cs.length) ∧
        (cs.length ≤ 7 → s1.capacity = 8) ∧
        (8 ≤ cs.length → cs.length ≤ 15 → s1.capacity = 16) ∧
        (16 ≤ cs.length → cs.length ≤ 31 → s1.capacity = 32)) ∧
    (w0.AllocOk → cs.length < 2 ^ 63 →
      ∃ s1 w1, pushChars w0 (some s0) cs = .ok (some s1, w1)) := by
  have hs0 := BString_Create_zero w w0 str s0 hc
  subst hs0
  constructor
  · intro so w1 h
    obtain ⟨s1, j, h1, h2, h3, h4, h5⟩ :=
      pushChars_schedule cs w0 w1 emptyBString so 0 rfl (by decide) (Or.inl rfl)
        (by decide) h
    have hsz : s1.size = cs.length := by rw [h2]; simp [emptyBString]
    rw [hsz] at h4 h5
    have hj : ∀ n, cs.length < 8 * 2 ^ n → j ≤ n := by
      intro n hn
      by_contra hcon
      have hle : n ≤ j - 1 := by omega
      have := Nat.pow_le_pow_right (show 0 < 2 by decide) hle
      rcases h5 with h0 | h0
      · omega
      · omega
    have hlow : ∀ n, 8 * 2 ^ n ≤ cs.length → n < j := by
      intro n hn
      by_contra hcon
      have hle : j ≤ n := by omega
      have := Nat.pow_le_pow_right (show 0 < 2 by decide) hle
      omega
    refine ⟨s1, j, h1, hsz, h3, h4, h5, ?_, ?_, ?_⟩
    · intro hk
      have : j = 0 := by have := hj 0 (by omega); omega
      rw [h3, this]; norm_num
    · intro hk1 hk2
      have : j = 1 := by
        have := hj 1 (by omega)
        have := hlow 0 (by omega)
        omega
      rw [h3, this]; norm_num
    · intro hk1 hk2
      have : j = 2 := by
        have := hj 2 (by omega)
        have := hlow 1 (by omega)
        omega
      rw [h3, this]; norm_num
  · intro hw hk
    obtain ⟨s1, w1, h, _⟩ := pushChars_live cs w0 emptyBString 0 emptyBString_live rfl hw
      (by simp [emptyBString]; omega)
    exact ⟨s1, w1, h⟩

/-- C7 at eight appends to `BString_Create("", 0)`: size 8, capacity 16. -/
theorem C7_growth_schedule_witness :
    ∃ s1 w1, pushChars ⟨0, []⟩ (some emptyBString) [97, 98, 99, 100, 101, 102, 103, 104]
        = .ok (some s1, w1) ∧ s1.size = 8 ∧ s1.capacity = 16 := by
  have hc : BString_Create ⟨0, []⟩ [0] 0 = .ok (some emptyBString, ⟨0, []⟩) := by decide
  obtain ⟨hp, ht⟩ := C7_growth_schedule ⟨0, []⟩ ⟨0, []⟩ [0] emptyBString
    [97, 98, 99, 100, 101, 102, 103, 104] hc
  obtain ⟨s1, w1, h⟩ := ht (by decide) (by decide)
  obtain ⟨s2, j, h2, h3, _, _, _, _, h16, _⟩ := hp _ _ h
  cases h2
  exact ⟨s1, w1, h, h3, h16 (by decide) (by decide)⟩

/-! ### C8 -/

/-- C8 (code defect): the loop counter of `BString_PushBackCString` is an
`int` compared with the `size_t` length, so for a C string of more than
`INT_MAX` bytes the counter is incremented at `INT_MAX` (undefined behaviour)
before all bytes are appended: the call does not return with the bytes
appended, whatever the string `s`. -/
theorem C8_pushBackCString_counter_overflow (w : World) (bstring : Option BString)
    (t rest : List Nat) (ht : ∀ x ∈ t, x ≠ 0) (hlen : INT_MAX < t.length) :
    ∀ r, BString_PushBackCString w bstring (t ++ 0 :: rest) ≠ .ok r := by
  intro r h
  unfold BString_PushBackCString at h
  rw [strlen_append_zero t rest ht] at h
  exact BString_PushBackCString_loop_overflow _ t.length 0 w bstring r (by omega)
    (by omega) h

/-- C8 at a C string of `2^31 + 1` bytes `A` appended to the empty string. -/
theorem C8_pushBackCString_counter_overflow_witness :
    (List.replicate 2147483649 65).length = 2147483649 ∧
    ∀ r, BString_PushBackCString ⟨0, []⟩ (some emptyBString)
      (List.replicate 2147483649 65 ++ 0 :: []) ≠ .ok r :=
  ⟨List.length_replicate _ _,
   C8_pushBackCString_counter_overflow ⟨0, []⟩ (some emptyBString)
    (List.replicate 2147483649 65) []
    (fun x hx => by rw [List.eq_of_mem_replicate hx]; decide)
    (by rw [List.length_replicate]; decide)⟩

/-! ### C9 -/

/-- C9: `BString_PushBackCString(s, "")` returns at once and changes nothing,
whatever the string (a null pointer included): buffer, size, capacity and the
process state are the same. -/
theorem C9_push_empty_cstring_noop (w : World) (bstring : Option BString)
    (rest : List Nat) :
    BString_PushBackCString w bstring (0 :: rest) = .ok (bstring, w) := by
  simp [BString_PushBackCString, strlen, BString_PushBackCString_loop]

/-! ### C10 -/

/-- C10, as stated, fails twice.  The capacity 16777217 grows with the factor
`2.0f` to 33554432, not to `2 * 16777217` (the capacity is rounded to single
precision first).  And of the bytes `61 00 62` of a string of size 3 only
`61 00` reach the new buffer (the copy stops at the first zero byte): the byte
at index 2 is `00`, not `62`. -/
theorem C10_counterexample :
    (∃ s1 w1, BString_GrowCapacity ⟨0, []⟩ (some bigBString) BSTRING_DEFAULT_GROWTHFACTOR
        = .ok (true, some s1, w1) ∧ s1.capacity = 33554432 ∧
        s1.capacity ≠ 2 * bigBString.capacity) ∧
    (BString_GrowCapacity ⟨0, []⟩ (some ⟨bstringHeader, some [97, 0, 98, 0, 0, 0, 0, 0], 3, 8⟩)
        BSTRING_DEFAULT_GROWTHFACTOR
      = .ok (true, some ⟨bstringHeader, some (97 :: List.replicate 15 0), 3, 16⟩, ⟨0, []⟩) ∧
      (97 :: List.replicate 15 0)[2]? ≠ [97, 0, 98, 0, 0, 0, 0, 0][2]?) := by
  constructor
  · obtain ⟨s1, w1, h, hcap, _⟩ :=
      BString_GrowCapacity_two_live ⟨0, []⟩ bigBString bigBString_live (by decide) (by decide)
    have hfv : floatValue bigBString.capacity = 16777216 := by decide
    rw [hfv] at hcap
    exact ⟨s1, w1, h, hcap, by rw [hcap]; decide⟩
  · constructor <;> decide

/-- C10 (amended): a successful `BString_GrowCapacity(s, f)` has `f > 1.0f`,
leaves the size unchanged, sets the capacity to the single precision product
`(size_t)((float)capacity * f)`, and its new buffer, of that many bytes, holds
the bytes of the old buffer up to the first zero byte; so every one of the
first `size` bytes is kept when none of them is zero.  The capacity is the
exact `floor(capacity * f)` when `capacity * m` is below `2^24` for the
mantissa `m` of `f`, twice the single precision value of the capacity for the
factor `2.0f`, and `2 * capacity` for that factor when the capacity is a
`float` exactly.  The call succeeds when the allocation does and the old
string up to its first zero byte fits into the new capacity. -/
theorem C10_growCapacity_postcondition (w : World) (s : BString) (f : CFloat) :
    (∀ so w1, BString_GrowCapacity w (some s) f = .ok (true, so, w1) →
      ∃ s1 old new n, so = some s1 ∧ f.gtOne = true ∧
        ((CFloat.ofSizeT s.capacity).mul f).toSizeT = some s1.capacity ∧
        s1.size = s.size ∧ s1.metadata = s.metadata ∧
        s.data = some old ∧ s1.data = some new ∧ new.length = s1.capacity ∧
        strlen old = some n ∧ (∀ i, i ≤ n → new[i]? = old[i]?) ∧
        ((∀ i, i < s.size → old[i]? ≠ some 0) → ∀ i, i < s.size → new[i]? = old[i]?) ∧
        (∀ m e, f = .fin false m e → s.capacity * m < 2 ^ 24 → -149 ≤ e →
          s1.capacity = floorMul s.capacity m e) ∧
        (f = BSTRING_DEFAULT_GROWTHFACTOR → s1.capacity = 2 * floatValue s.capacity) ∧
        (f = BSTRING_DEFAULT_GROWTHFACTOR → fitsFloat s.capacity →
          s1.capacity = 2 * s.capacity)) ∧
    (∀ old n nc, w.AllocOk → f.gtOne = true → s.data = some old → strlen old = some n →
      ((CFloat.ofSizeT s.capacity).mul f).toSizeT = some nc → n < nc →
      ∃ s1 w1, BString_GrowCapacity w (some s) f = .ok (true, some s1, w1)) := by
  constructor
  · intro so w1 h
    obtain ⟨hf, nc, old, new, hnc, hd, hcp, hso⟩ := BString_GrowCapacity_ok w w1 s f so h
    subst hso
    have hsl : ∃ n, strlen old = some n := by
      unfold strcpy at hcp
      cases hs : strlen old with
      | none => simp [hs] at hcp
      | some n => exact ⟨n, rfl⟩
    obtain ⟨n, hn⟩ := hsl
    obtain ⟨hlen, hget⟩ := strcpy_getElem nc old new n hn hcp
    have hz := strlen_zero_at old n hn
    refine ⟨_, old, new, n, rfl, hf, hnc, rfl, rfl, hd, rfl, hlen, hn, hget, ?_, ?_, ?_, ?_⟩
    · intro hnz i hi
      apply hget
      by_contra hcon
      exact hnz n (by omega) hz
    · intro m e hfe hsmall he
      subst hfe
      have hm : 0 < m := by
        by_contra hm0
        have : m = 0 := by omega
        subst this
        simp [CFloat.gtOne] at hf
      rw [newCap_exact s.capacity m e hm hsmall he] at hnc
      split at hnc
      · simp only [Option.some.injEq] at hnc
        exact hnc.symm
      · simp at hnc
    · intro hfe
      subst hfe
      exact (newCap_two_some _ _ hnc).1
    · intro hfe hfit
      subst hfe
      have := (newCap_two_some _ _ hnc).1
      rw [floatValue_of_fits _ hfit] at this
      exact this
  · intro old n nc hw hf hd hn hnc hlt
    have hcp : ∃ new, strcpy (List.replicate nc 0) old = some new := by
      unfold strcpy
      rw [hn]
      have : n + 1 ≤ (List.replicate nc 0).length := by simp; omega
      simp only [this, if_true]
      exact ⟨_, rfl⟩
    obtain ⟨new, hcp⟩ := hcp
    obtain ⟨w1, h, _⟩ := BString_GrowCapacity_total w s f nc old new hf hnc hw hd hcp
    exact ⟨_, w1, h⟩

/-- C10 (amended) at the factor `1.5f` on the string "hi" in a buffer of
capacity 8: the call succeeds, the capacity is 12, the bytes are kept. -/
theorem C10_growCapacity_postcondition_witness :
    ∃ s1 w1 new, BString_GrowCapacity ⟨0, []⟩
        (some ⟨bstringHeader, some [104, 105, 0, 0, 0, 0, 0, 0], 2, 8⟩) (.fin false 3 (-1))
          = .ok (true, some s1, w1) ∧
      s1.capacity = 12 ∧ s1.size = 2 ∧ s1.data = some new ∧ new.length = 12 ∧
      new[0]? = some 104 ∧ new[1]? = some 105 := by
  obtain ⟨hp, ht⟩ := C10_growCapacity_postcondition ⟨0, []⟩
    ⟨bstringHeader, some [104, 105, 0, 0, 0, 0, 0, 0], 2, 8⟩ (.fin false 3 (-1))
  obtain ⟨s1, w1, h⟩ := ht [104, 105, 0, 0, 0, 0, 0, 0] 2 12 (by decide) (by decide) rfl
    (by decide) (by decide) (by decide)
  obtain ⟨s2, old, new, n, h1, _, _, hsz, _, hold, hnew, hlen, _, _, hkeep, hfl, _, _⟩ :=
    hp _ _ h
  cases h1
  simp only [Option.some.injEq] at hold
  subst hold
  have hcap := hfl 3 (-1) rfl (by decide) (by decide)
  have hc12 : s1.capacity = 12 := by rw [hcap]; decide
  have hk := hkeep (by
    intro i hi
    have : i = 0 ∨ i = 1 := by simp only at hi; omega
    rcases this with h0 | h0 <;> subst h0 <;> decide)
  refine ⟨s1, w1, new, h, hc12, hsz, hnew, by rw [hlen, hc12], ?_, ?_⟩
  · rw [hk 0 (by decide)]; rfl
  · rw [hk 1 (by decide)]; rfl

/-! ### C11 -/

/-- C11: for every factor `f <= 1.0f` the test `f > 1.0f` fails and
`BString_GrowCapacity(s, f)` returns `FALSE` at once: the string (buffer,
contents, size, capacity) and the process state, the coming allocations
included, are the same as before. -/
theorem C11_growCapacity_rejects_factor (w : World) (s : BString) (f : CFloat)
    (hf : f.leOne = true) :
    f.gtOne = false ∧ BString_GrowCapacity w (some s) f = .ok (false, some s, w) := by
  have hg : f.gtOne = false := by
    cases f with
    | nan => rfl
    | inf neg => cases neg <;> simp_all [CFloat.leOne, CFloat.gtOne]
    | fin neg m e =>
        cases neg
        · simp only [CFloat.leOne, Bool.false_or] at hf
          simp only [CFloat.gtOne, Bool.not_false, Bool.true_and]
          by_cases he : 0 ≤ e
          · simp only [he, if_true, decide_eq_true_eq] at hf
            simp only [he, if_true, decide_eq_false_iff_not]
            omega
          · simp only [he, if_false, decide_eq_true_eq] at hf
            simp only [he, if_false, decide_eq_false_iff_not]
            omega
        · simp [CFloat.gtOne]
  refine ⟨hg, ?_⟩
  unfold BString_GrowCapacity
  simp [hg]

/-- C11 at the factor `1.0f` and the empty string of capacity 8. -/
theorem C11_growCapacity_rejects_factor_witness :
    BString_GrowCapacity ⟨0, [false]⟩ (some emptyBString) (.fin false 1 0)
      = .ok (false, some emptyBString, ⟨0, [false]⟩) :=
  (C11_growCapacity_rejects_factor ⟨0, [false]⟩ emptyBString (.fin false 1 0) (by decide)).2

/-! ### C12 -/

/-- C12 (code defect): whenever `BString_GrowCapacity(s, f)` with `f > 1.0f`
reports failure, the string is not left as it was: the result of the failed
`calloc` has already been stored in `data`, so `data` is `NULL` and the old
buffer is lost (size and capacity are unchanged). -/
theorem C12_growCapacity_failure_loses_buffer (w w1 : World) (s : BString) (f : CFloat)
    (so : Option BString) (old : List Nat) (hf : f.gtOne = true) (hd : s.data = some old)
    (h : BString_GrowCapacity w (some s) f = .ok (false, so, w1)) :
    so = some { s with data := none } ∧ so ≠ some s := by
  have hso := BString_GrowCapacity_false w w1 s f so hf h
  refine ⟨hso, ?_⟩
  rw [hso]
  intro hc
  simp only [Option.some.injEq] at hc
  have : (none : Option (List Nat)) = s.data := congrArg BString.data hc
  rw [hd] at this
  cases this

/-- C12 at the empty string of capacity 8, the factor `2.0f` and a failing
allocation: `FALSE` is returned and `data` is `NULL`. -/
theorem C12_growCapacity_failure_loses_buffer_witness :
    BString_GrowCapacity ⟨0, [false]⟩ (some emptyBString) BSTRING_DEFAULT_GROWTHFACTOR
        = .ok (false, some { emptyBString with data := none }, ⟨0, []⟩) ∧
      (some { emptyBString with data := none } = some { emptyBString with data := none } ∧
        some { emptyBString with data := none } ≠ some emptyBString) :=
  ⟨by decide,
   C12_growCapacity_failure_loses_buffer ⟨0, [false]⟩ ⟨0, []⟩ emptyBString
     BSTRING_DEFAULT_GROWTHFACTOR _ (List.replicate 8 0) (by decide) rfl (by decide)⟩

/-! ### C13 -/

/-- C13: a list obtained from `MetaList_Construct` by `MetaList_PushBack`
calls, each with the head of a well formed chain (acyclic, the `nextcount`
fields right) disjoint from the list and the other chains, has as its chain
from `head` the pushed chains one after the other, and its `size` is the number
of these records.  One `MetaList_PushBack` with the head of a chain of `m`
records onto a well formed list adds `m` to the size and appends the whole
chain.  The calls return once `fuel` covers the length of the list, for fewer
than `2^64` records. -/
theorem C13_list_size_invariant (fuel list_addr : Nat) (h : Heap) :
    (∀ (l0 : MetaList) (chains : List (Nat × List Nat)),
      (∀ c ∈ chains, IsChain h (some c.1) (c.1 :: c.2) ∧ WellCounted h (c.1 :: c.2)) →
      (flattenChains chains).Nodup → (flattenChains chains).length < SIZE_MOD →
      (flattenChains chains).length ≤ fuel →
      ∃ h1 l1, pushBackAll fuel list_addr h (MetaList_Construct (some l0))
          (chains.map Prod.fst) = some (.ok (h1, some l1)) ∧
        IsChain h1 l1.head (flattenChains chains) ∧
        l1.size = (flattenChains chains).length) ∧
    (∀ (l : MetaList) (as : List Nat) (x : Nat) (bs : List Nat),
      IsChain h l.head as → WellCounted h as → l.size = as.length →
      IsChain h (some x) (x :: bs) → WellCounted h (x :: bs) → (∀ a ∈ as, a ∉ x :: bs) →
      as.length + (x :: bs).length < SIZE_MOD → as.length ≤ fuel →
      ∃ h1 l1, MetaList_PushBack fuel h list_addr (some l) (some x)
          = some (.ok (h1, some l1)) ∧
        IsChain h1 l1.head (as ++ x :: bs) ∧ l1.size = l.size + (x :: bs).length ∧
        l1.size = (as ++ x :: bs).length) := by
  constructor
  · intro l0 chains hch hnd hsz hfuel
    obtain ⟨l, hl, _, _, hok⟩ := ListOk_construct h l0
    obtain ⟨h1, l1, hp, ⟨hc1, _, hs1⟩, _⟩ :=
      pushBackAll_spec fuel list_addr chains h l [] hok hch (by simpa using hnd)
        (by simpa using hsz) (by simpa using hfuel)
    rw [hl]
    exact ⟨h1, l1, hp, by simpa using hc1, by simpa using hs1⟩
  · intro l as x bs hc hw hs hcx hwx hdis hsz hfuel
    obtain ⟨h1, l1, hp, ⟨hc1, _, hs1⟩, _⟩ :=
      MetaList_PushBack_spec fuel h list_addr l as x bs ⟨hc, hw, hs⟩ hcx hwx hdis hsz hfuel
    refine ⟨h1, l1, hp, hc1, ?_, hs1⟩
    rw [hs1, hs, List.length_append]

/-- C13 at a fresh list with a standalone record, the head of a chain of two
records and another standalone record pushed: the chain is 10, 40, 50, 20 and
the size is 4. -/
theorem C13_list_size_invariant_witness :
    ∃ h1 l1, pushBackAll 4 7 sampleHeap (MetaList_Construct (some ⟨some 3, 9⟩)) [10, 40, 20]
        = some (.ok (h1, some l1)) ∧
      IsChain h1 l1.head [10, 40, 50, 20] ∧ l1.size = 4 :=
  (C13_list_size_invariant 4 7 sampleHeap).1 ⟨some 3, 9⟩ [(10, []), (40, [50]), (20, [])]
    sampleHeap_chains (by decide) (by decide) (by decide)

/-! ### C14 -/

/-- C14 (code defect): the counter `sanity_check` of `MetaList_VisitEach` is
an `unsigned` that is given the `size_t` size of the list, so it starts at
the size modulo `2^32`.  For every sequence of `n` distinct standalone
records pushed one after another with `MetaList_PushBack` onto a freshly
constructed list, the size of the list is `n`, and `MetaList_VisitEach`
calls the visitor on the first `n mod 2^32` records only, in the order of
the pushes, with the given `user_data`.  Below `2^32` these are all the
records, visited once each in push order; from `2^32` records on, the calls
are not the `n` calls of the claim. -/
theorem C14_visit_counter_truncated (fuel list_addr : Nat) (h : Heap) (l0 : MetaList)
    (xs : List Nat)
    (hst : ∀ x ∈ xs, ∃ o, h x = some o ∧ o.metadata.next = none ∧ o.metadata.nextcount = 0)
    (hnd : xs.Nodup) (hsz : xs.length < SIZE_MOD) (hfuel : xs.length ≤ fuel) :
    ∃ h1 l1, pushBackAll fuel list_addr h (MetaList_Construct (some l0)) xs
        = some (.ok (h1, some l1)) ∧ l1.size = xs.length ∧
      (∀ (υ σ : Type) (visitor : Nat → υ → σ → σ) (user_data : υ) (st : σ),
        MetaList_VisitEach h1 (some l1) visitor user_data st
          = .ok ((xs.take (xs.length % UINT_MOD)).foldl
              (fun s a => visitor a user_data s) st)) ∧
      (∀ (υ : Type) (user_data : υ),
        MetaList_VisitEach h1 (some l1) recordVisit user_data []
          = .ok ((xs.take (xs.length % UINT_MOD)).map fun a => (a, user_data))) ∧
      (xs.length < UINT_MOD → ∀ (υ : Type) (user_data : υ),
        MetaList_VisitEach h1 (some l1) recordVisit user_data []
          = .ok (xs.map fun a => (a, user_data))) ∧
      (UINT_MOD ≤ xs.length → ∀ (υ : Type) (user_data : υ),
        MetaList_VisitEach h1 (some l1) recordVisit user_data []
          ≠ .ok (xs.map fun a => (a, user_data))) := by
  obtain ⟨h1, l1, hp, hs, hv⟩ :=
    pushBackAll_visitEach fuel list_addr h l0 xs hst hnd hsz hfuel
  have hlog : ∀ (υ : Type) (user_data : υ),
      MetaList_VisitEach h1 (some l1) recordVisit user_data []
        = .ok ((xs.take (xs.length % UINT_MOD)).map fun a => (a, user_data)) := by
    intro υ user_data
    rw [hv, foldl_recordVisit]
    simp
  refine ⟨h1, l1, hp, hs, hv, hlog, ?_, ?_⟩
  · intro hn υ user_data
    rw [hlog, Nat.mod_eq_of_lt hn, List.take_length]
  · intro hn υ user_data hc
    rw [hlog] at hc
    have hlen := congrArg List.length (Outcome.ok.inj hc)
    rw [List.length_map, List.length_map, List.length_take] at hlen
    have hlt : xs.length % UINT_MOD < UINT_MOD := Nat.mod_lt _ (by decide)
    omega

/-- C14 at `2^32` standalone records pushed onto a fresh list: the size is
`2^32`, the counter starts at `2^32 mod 2^32 = 0`, and the visitor is not
called at all. -/
theorem C14_visit_counter_truncated_witness :
    ∃ h1 l1, pushBackAll 4294967296 0 (manyNodes 4294967296)
        (MetaList_Construct (some ⟨none, 0⟩)) (List.range 4294967296)
          = some (.ok (h1, some l1)) ∧
      l1.size = 4294967296 ∧
      MetaList_VisitEach h1 (some l1) recordVisit () [] = .ok [] := by
  obtain ⟨h1, l1, hp, hs, _, hlog, _, _⟩ :=
    C14_visit_counter_truncated 4294967296 0 (manyNodes 4294967296) ⟨none, 0⟩
      (List.range 4294967296)
      (fun x hx => ⟨standaloneNode, by
        have : x < 4294967296 := List.mem_range.1 hx
        simp only [manyNodes, this, if_true], rfl, rfl⟩)
      (List.nodup_range _) (by rw [List.length_range]; decide)
      (by rw [List.length_range])
  refine ⟨h1, l1, hp, by rw [hs, List.length_range], ?_⟩
  rw [hlog, List.length_range]
  have : 4294967296 % UINT_MOD = 0 := by decide
  rw [this, List.take_zero]
  rfl

/-! ### C15 -/

/-- C15: `MetaList_Construct` yields `head == NULL` and `size == 0`;
`MetaList_Clear` leaves the same empty list; and `MetaList_VisitEach` on any
list whose size is 0 returns at once without a call of the visitor: the state
of any visitor is unchanged, a visitor that writes down its calls has written
none.  (The function only reads the list and the records.) -/
theorem C15_empty_list (h : Heap) :
    (∀ l0, MetaList_Construct (some l0) = some ⟨none, 0⟩) ∧
    (∀ fuel h0 log l h1 log1 l1,
      MetaList_Clear fuel h0 log (some l) = some (.ok (h1, log1, l1)) → l1 = some ⟨none, 0⟩) ∧
    (∀ (l : MetaList) (υ σ : Type) (visitor : Nat → υ → σ → σ) (user_data : υ) (st : σ),
      l.size = 0 → MetaList_VisitEach h (some l) visitor user_data st = .ok st) ∧
    (∀ (l : MetaList) (υ : Type) (user_data : υ),
      l.size = 0 → MetaList_VisitEach h (some l) recordVisit user_data [] = .ok []) := by
  refine ⟨fun _ => rfl, ?_, ?_, ?_⟩
  · intro fuel h0 log l h1 log1 l1 hc
    unfold MetaList_Clear at hc
    cases hd : MetaObject_Dispose fuel h0 log l.head with
    | none => simp [hd] at hc
    | some r =>
        simp only [hd, Option.some.injEq, Outcome.bind_eq_ok] at hc
        obtain ⟨a, _, ha⟩ := hc
        simp at ha
        exact ha.2.2.symm
  · intro l υ σ visitor user_data st h0
    simp [MetaList_VisitEach, h0]
  · intro l υ user_data h0
    simp [MetaList_VisitEach, h0]

/-- C15 at a fresh list and at a list of size 0 with a stale head. -/
theorem C15_empty_list_witness :
    MetaList_VisitEach sampleHeap (MetaList_Construct (some ⟨some 10, 3⟩)) recordVisit 5 []
        = .ok [] ∧
      MetaList_VisitEach sampleHeap (some ⟨some 10, 0⟩) recordVisit 5 [] = .ok [] :=
  ⟨by rw [(C15_empty_list sampleHeap).1]
      exact (C15_empty_list sampleHeap).2.2.2 ⟨none, 0⟩ Nat 5 rfl,
   (C15_empty_list sampleHeap).2.2.2 ⟨some 10, 0⟩ Nat 5 rfl⟩

/-! ### C16 -/

/-- C16: `MetaList_VisitEach` is a bounded loop (its model recurses on the
counter `sanity_check` and needs no fuel): on every memory and every list,
whatever the chain (cyclic or of another length than `size`), a returning call
has called the visitor at most `size mod 2^32` times, so at most `size` times.
The call returns whenever the `next` pointers reached point to records. -/
theorem C16_bounded_traversal (h : Heap) (l : MetaList) :
    (∀ (υ : Type) (user_data : υ) (calls : List (Nat × υ)),
      MetaList_VisitEach h (some l) recordVisit user_data [] = .ok calls →
      calls.length ≤ l.size % UINT_MOD ∧ calls.length ≤ l.size) ∧
    (h.Closed → (∀ a, l.head = some a → ∃ o, h a = some o) →
      ∀ (υ σ : Type) (visitor : Nat → υ → σ → σ) (user_data : υ) (st : σ),
        ∃ st1, MetaList_VisitEach h (some l) visitor user_data st = .ok st1) := by
  constructor
  · intro υ user_data calls hr
    unfold MetaList_VisitEach at hr
    by_cases h0 : l.size = 0
    · simp [h0] at hr
      subst hr
      simp
    · simp only [h0, if_false] at hr
      have hb := MetaList_VisitEach_loop_bound h user_data _ _ _ _ hr
      simp only [List.length_nil, Nat.zero_add] at hb
      exact ⟨hb, Nat.le_trans hb (Nat.mod_le _ _)⟩
  · intro hcl hhead υ σ visitor user_data st
    unfold MetaList_VisitEach
    by_cases h0 : l.size = 0
    · exact ⟨st, by simp [h0]⟩
    · simp only [h0, if_false]
      exact MetaList_VisitEach_loop_total h visitor user_data hcl _ _ st hhead

/-- C16 at a cyclic chain of two records and the size 5: the call returns
after five visits. -/
theorem C16_bounded_traversal_witness :
    MetaList_VisitEach cycleHeap (some ⟨some 1, 5⟩) recordVisit 7 []
        = .ok [(1, 7), (2, 7), (1, 7), (2, 7), (1, 7)] ∧
      (∃ st1, MetaList_VisitEach cycleHeap (some ⟨some 1, 5⟩) recordVisit 7 [] = .ok st1) ∧
      [(1, 7), (2, 7), (1, 7), (2, 7), (1, 7)].length ≤ 5 :=
  ⟨by decide,
   (C16_bounded_traversal cycleHeap ⟨some 1, 5⟩).2 cycleHeap_closed
     (fun a ha => by
       simp only [Option.some.injEq] at ha
       subst ha
       exact ⟨_, rfl⟩) Nat (List (Nat × Nat)) recordVisit 7 [],
   ((C16_bounded_traversal cycleHeap ⟨some 1, 5⟩).1 Nat 7 _ (by decide)).2⟩

/-! ### C17 -/

/-- C17: for a list whose chain from `head` ends in null after the `N`
records at the addresses `as` (an acyclic chain), every returning
`MetaList_Clear` has performed exactly `N` disposals, of the records of the
chain from the last one to the first one, each through the destructor the
record carries or through `free` when it carries none; these records and no
others are freed, and the list is left with `head == NULL` and `size == 0`.
The call returns when the destructors fit their records, once `fuel` covers the
length of the chain. -/
theorem C17_clear_disposes_each_once (fuel : Nat) (h : Heap) (l : MetaList) (as : List Nat)
    (hc : IsChain h l.head as) (hfuel : as.length ≤ fuel) :
    as.Nodup ∧
    (∀ h1 log l1, MetaList_Clear fuel h [] (some l) = some (.ok (h1, log, l1)) →
      log = as.reverse.map (disposalOf h) ∧ log.map Disposal.obj = as.reverse ∧
      log.length = as.length ∧ h1 = h.freeAll as ∧ l1 = some ⟨none, 0⟩) ∧
    (chainDtorsFit h as = true →
      ∃ h1 log, MetaList_Clear fuel h [] (some l) = some (.ok (h1, log, some ⟨none, 0⟩))) := by
  have hd := MetaObject_Dispose_chain as fuel h [] l.head hc hfuel
  refine ⟨IsChain_nodup h as _ hc, ?_, ?_⟩
  · intro h1 log l1 hr
    simp only [MetaList_Clear, hd] at hr
    by_cases hfit : chainDtorsFit h as = true
    · simp only [hfit, if_true, Outcome.bind, List.nil_append, Option.some.injEq,
        Outcome.ok.injEq, Prod.mk.injEq] at hr
      obtain ⟨e1, e2, e3⟩ := hr
      subst e1 e2 e3
      refine ⟨rfl, ?_, by simp, rfl, rfl⟩
      rw [List.map_map]
      have : (Disposal.obj ∘ disposalOf h) = id := by
        funext a; rfl
      rw [this, List.map_id]
    · simp [hfit, Outcome.bind] at hr
  · intro hfit
    simp only [MetaList_Clear, hd, hfit, if_true, Outcome.bind]
    exact ⟨_, _, rfl⟩

/-- C17 at the list 10, 20, 40, 50 of strings and an option record: four
disposals, from the last record to the first, then the empty list. -/
theorem C17_clear_disposes_each_once_witness :
    ∃ h1, MetaList_Clear 4
        (fun a => if a = 10 then
            some (.bstring { emptyBString with metadata := { bstringHeader with next := some 20 } })
          else if a = 20 then
            some (.optionInput ⟨⟨some 40, 0, .OPTION_INPUT, none, none⟩, 0, none⟩)
          else sampleHeap a) [] (some ⟨some 10, 4⟩)
      = some (.ok (h1,
          [⟨50, some .BString_Dispose⟩, ⟨40, some .BString_Dispose⟩, ⟨20, none⟩,
            ⟨10, some .BString_Dispose⟩], some ⟨none, 0⟩)) := by
  have hc : IsChain
      (fun a => if a = 10 then
          some (.bstring { emptyBString with metadata := { bstringHeader with next := some 20 } })
        else if a = 20 then
          some (.optionInput ⟨⟨some 40, 0, .OPTION_INPUT, none, none⟩, 0, none⟩)
        else sampleHeap a) (some 10) [10, 20, 40, 50] :=
    ⟨rfl, _, rfl, rfl, _, rfl, rfl, _, rfl, rfl, _, rfl, rfl⟩
  obtain ⟨_, hp, ht⟩ := C17_clear_disposes_each_once 4 _ ⟨some 10, 4⟩ [10, 20, 40, 50] hc
    (by decide)
  obtain ⟨h1, log, hr⟩ := ht (by decide)
  obtain ⟨hlog, _, _, _, _⟩ := hp h1 log _ hr
  refine ⟨h1, ?_⟩
  rw [hr, hlog]
  rfl

/-! ### C18 -/

/-- C18: for both variants, the downcast of a null pointer is null, and the
downcast of a pointer to a record is the pointer itself (the same record, so
the same field values) when the `type` of the record is the discriminator of
the variant, and null otherwise; it is a non-null pointer exactly in the first
case, and the call always returns. -/
theorem C18_checked_downcast (h : Heap) :
    BString_FromMetaData h none = .ok none ∧
    OptionInput_FromMetaData h none = .ok none ∧
    ∀ (a : Nat) (o : MetaObject), h a = some o →
      (o.metadata.type = .BSTRING → BString_FromMetaData h (some a) = .ok (some a)) ∧
      (o.metadata.type ≠ .BSTRING → BString_FromMetaData h (some a) = .ok none) ∧
      (o.metadata.type = .OPTION_INPUT → OptionInput_FromMetaData h (some a) = .ok (some a)) ∧
      (o.metadata.type ≠ .OPTION_INPUT → OptionInput_FromMetaData h (some a) = .ok none) ∧
      (∀ r, BString_FromMetaData h (some a) = .ok (some r) ↔
        (r = a ∧ o.metadata.type = .BSTRING)) ∧
      (∀ r, OptionInput_FromMetaData h (some a) = .ok (some r) ↔
        (r = a ∧ o.metadata.type = .OPTION_INPUT)) := by
  refine ⟨rfl, rfl, ?_⟩
  intro a o ho
  refine ⟨?_, ?_, ?_, ?_, ?_, ?_⟩
  · intro ht; simp [BString_FromMetaData, FromMetaData, ho, ht]
  · intro ht; simp [BString_FromMetaData, FromMetaData, ho, ht]
  · intro ht; simp [OptionInput_FromMetaData, FromMetaData, ho, ht]
  · intro ht; simp [OptionInput_FromMetaData, FromMetaData, ho, ht]
  · intro r
    by_cases ht : o.metadata.type = .BSTRING
    · simp [BString_FromMetaData, FromMetaData, ho, ht, eq_comm]
    · simp [BString_FromMetaData, FromMetaData, ho, ht]
  · intro r
    by_cases ht : o.metadata.type = .OPTION_INPUT
    · simp [OptionInput_FromMetaData, FromMetaData, ho, ht, eq_comm]
    · simp [OptionInput_FromMetaData, FromMetaData, ho, ht]

/-- C18 at a string record and an option record. -/
theorem C18_checked_downcast_witness :
    BString_FromMetaData sampleHeap (some 10) = .ok (some 10) ∧
    OptionInput_FromMetaData sampleHeap (some 10) = .ok none ∧
    BString_FromMetaData sampleHeap (some 20) = .ok none ∧
    OptionInput_FromMetaData sampleHeap (some 20) = .ok (some 20) :=
  ⟨((C18_checked_downcast sampleHeap).2.2 10 standaloneNode rfl).1 rfl,
   ((C18_checked_downcast sampleHeap).2.2 10 standaloneNode rfl).2.2.2.1 (by decide),
   ((C18_checked_downcast sampleHeap).2.2 20 optionNode rfl).2.1 (by decide),
   ((C18_checked_downcast sampleHeap).2.2 20 optionNode rfl).2.2.1 rfl⟩

/-! ### C19 -/

/-- C19: in a list obtained from `MetaList_Construct` by `MetaList_PushBack`
calls with standalone records or heads of well formed chains, disjoint from
the list and from each other, every record has as `nextcount` the number of
the records after it: the record at the 0-based position `i` of the `n`
records has `nextcount == n - 1 - i`. -/
theorem C19_cached_count_invariant (fuel list_addr : Nat) (h : Heap) (l0 : MetaList)
    (chains : List (Nat × List Nat))
    (hch : ∀ c ∈ chains, IsChain h (some c.1) (c.1 :: c.2) ∧ WellCounted h (c.1 :: c.2))
    (hnd : (flattenChains chains).Nodup) (hsz : (flattenChains chains).length < SIZE_MOD)
    (hfuel : (flattenChains chains).length ≤ fuel) :
    ∃ h1 l1, pushBackAll fuel list_addr h (MetaList_Construct (some l0))
        (chains.map Prod.fst) = some (.ok (h1, some l1)) ∧
      IsChain h1 l1.head (flattenChains chains) ∧
      ∀ i (hi : i < (flattenChains chains).length),
        ∃ o, h1 ((flattenChains chains)[i]) = some o ∧
          o.metadata.nextcount = (flattenChains chains).length - 1 - i := by
  obtain ⟨l, hl, _, _, hok⟩ := ListOk_construct h l0
  obtain ⟨h1, l1, hp, ⟨hc1, hw1, _⟩, _⟩ :=
    pushBackAll_spec fuel list_addr chains h l [] hok hch (by simpa using hnd)
      (by simpa using hsz) (by simpa using hfuel)
  rw [hl]
  simp only [List.nil_append] at hc1 hw1
  exact ⟨h1, l1, hp, hc1, WellCounted_get h1 _ hw1⟩

/-- C19 at the list 10, 40, 50, 20: the counts are 3, 2, 1, 0. -/
theorem C19_cached_count_invariant_witness :
    ∃ h1 l1, pushBackAll 4 7 sampleHeap (MetaList_Construct (some ⟨some 3, 9⟩)) [10, 40, 20]
        = some (.ok (h1, some l1)) ∧
      (∃ o, h1 10 = some o ∧ o.metadata.nextcount = 3) ∧
      (∃ o, h1 40 = some o ∧ o.metadata.nextcount = 2) ∧
      (∃ o, h1 50 = some o ∧ o.metadata.nextcount = 1) ∧
      (∃ o, h1 20 = some o ∧ o.metadata.nextcount = 0) := by
  obtain ⟨h1, l1, hp, _, hcnt⟩ :=
    C19_cached_count_invariant 4 7 sampleHeap ⟨some 3, 9⟩ [(10, []), (40, [50]), (20, [])]
      sampleHeap_chains (by decide) (by decide) (by decide)
  exact ⟨h1, l1, hp, hcnt 0 (by decide), hcnt 1 (by decide), hcnt 2 (by decide),
    hcnt 3 (by decide)⟩

/-! ### C20 -/

/-- C20 (code defect): on every string `BString_Create` returns for a
non-zero `len`, the first `BString_PushBackChar` writes outside the buffer: the
size equals the capacity, no growth is triggered, and the write goes to index
`capacity` of the buffer of `capacity` bytes. -/
theorem C20_push_after_nonempty_create_out_of_bounds (w w1 w2 : World) (str : List Nat)
    (len c : Nat) (s : BString) (hlen : len ≠ 0)
    (h : BString_Create w str len = .ok (some s, w1)) :
    (∃ buf, s.data = some buf ∧ buf.length = s.capacity ∧ ¬ s.size < buf.length) ∧
      BString_PushBackChar w2 (some s) c = .undefined := by
  obtain ⟨p, w0, hc⟩ := BString_Create_ok w w1 s str len h
  obtain ⟨_, _, h3⟩ := BString_Construct_ok w0 w1 p s str len hc
  obtain ⟨hs, hcap, buf, hcp, hd⟩ := h3 hlen
  have hbl := strcpy_length _ _ _ hcp
  simp only [List.length_replicate] at hbl
  have hpos : 0 < (len + 1) % SIZE_MOD := by
    unfold strcpy at hcp
    cases hsl : strlen str with
    | none => simp [hsl] at hcp
    | some n =>
        simp only [hsl] at hcp
        by_cases hfit : n + 1 ≤ (List.replicate ((len + 1) % SIZE_MOD) 0).length
        · simp only [List.length_replicate] at hfit
          omega
        · simp at hcp
          omega
  have hlt : (len + 1) % SIZE_MOD < SIZE_MOD := Nat.mod_lt _ (by decide)
  have hnb : ¬ s.size < buf.length := by rw [hs, hbl]; omega
  refine ⟨⟨buf, hd, by rw [hbl, hcap], hnb⟩, ?_⟩
  have hg : s.size ≠ (s.capacity + SIZE_MOD - 1) % SIZE_MOD := by
    rw [pred_mod s.capacity (by rw [hcap]; exact hpos) (by rw [hcap]; exact hlt), hs, hcap]
    omega
  rw [BString_PushBackChar_nogrow w2 s c hg, hd]
  simp only [hnb, if_false]

/-- C20 at `BString_Create("hi", 2)` followed by `BString_PushBackChar('!')`:
the write at index 3 falls outside the buffer of 3 bytes. -/
theorem C20_push_after_nonempty_create_out_of_bounds_witness :
    BString_Create ⟨0, []⟩ [104, 105, 0] 2
        = .ok (some ⟨bstringHeader, some [104, 105, 0], 3, 3⟩, ⟨0, []⟩) ∧
      BString_PushBackChar ⟨0, []⟩ (some ⟨bstringHeader, some [104, 105, 0], 3, 3⟩) 33
        = .undefined :=
  ⟨by decide,
   (C20_push_after_nonempty_create_out_of_bounds ⟨0, []⟩ ⟨0, []⟩ ⟨0, []⟩ [104, 105, 0] 2 33
      ⟨bstringHeader, some [104, 105, 0], 3, 3⟩ (by decide) (by decide)).2⟩

/-! ### C21 -/

/-- C21 (code defect): for each of the four codes that carry the FATAL bit
(`ERR_CODE_FATAL`, `ERR_CODE_BAD_MALLOC`, `ERR_CODE_BAD_CLI`,
`ERR_CODE_BAD_FILE`) the code is negative as an `int`, so the guard
`code > ERR_CODE_NONE` of `Throw` fails: in a state whose mask does not hold
the FATAL bit already, `Throw(code, ...)` returns with the mask unchanged,
`Terminate` is not invoked, and `CurrentErrors_Contains(code)` is false
afterwards. -/
theorem C21_fatal_throw_not_recorded (w : World) (code : Int)
    (hcode : code = ERR_CODE_FATAL ∨ code = ERR_CODE_BAD_MALLOC ∨
      code = ERR_CODE_BAD_CLI ∨ code = ERR_CODE_BAD_FILE)
    (hw : CurrentErrors_Contains w ERR_CODE_FATAL = false) :
    code < ERR_CODE_NONE ∧ Throw w code = .ok w ∧
      CurrentErrors_Contains w code = false := by
  have hneg : code < ERR_CODE_NONE := by
    rcases hcode with h | h | h | h <;> subst h <;> decide
  have hbit : Nat.land (toU32 code) (toU32 ERR_CODE_FATAL) = toU32 ERR_CODE_FATAL := by
    rcases hcode with h | h | h | h <;> subst h <;> decide
  refine ⟨hneg, Throw_nonpositive w code (by omega) hw, ?_⟩
  cases hcc : CurrentErrors_Contains w code
  · rfl
  · exfalso
    have h1 : int_and w.g_CurrentErrors code = code := by
      simpa [CurrentErrors_Contains] using hcc
    have h2 := contains_fatal_of_contains w.g_CurrentErrors code hbit h1
    have h3 : CurrentErrors_Contains w ERR_CODE_FATAL = true := by
      simp [CurrentErrors_Contains, h2]
    rw [hw] at h3
    cases h3

/-- C21 at `Throw(ERR_CODE_BAD_MALLOC, ...)` with the initial mask 0: the
call returns, and the mask is still 0. -/
theorem C21_fatal_throw_not_recorded_witness :
    CurrentErrors_Contains ⟨0, []⟩ ERR_CODE_FATAL = false ∧
      ERR_CODE_BAD_MALLOC < ERR_CODE_NONE ∧
      Throw ⟨0, []⟩ ERR_CODE_BAD_MALLOC = .ok ⟨0, []⟩ ∧
      CurrentErrors_Contains ⟨0, []⟩ ERR_CODE_BAD_MALLOC = false :=
  ⟨by decide,
    C21_fatal_throw_not_recorded ⟨0, []⟩ ERR_CODE_BAD_MALLOC (Or.inr (Or.inl rfl)) (by decide)⟩

/-! ### C22 -/

/-- C22: `FindFirstSet(0)` is -1; for every non-zero 32 bit `int` `x`,
negative ones included, `FindFirstSet(x)` is a number `r` in 0..31 such that
bit `r` of the bit pattern of `x` is set and every lower bit is clear; so
the index `FindFirstSet(x) + 1` lies in 0..32, below the 34 entries of
`s_CodeToStringLookup`, and the table access in `Throw` is never out of
bounds. -/
theorem C22_findFirstSet_lowest_bit (x : Int) (hlo : -2147483648 ≤ x)
    (hhi : x ≤ 2147483647) :
    FindFirstSet 0 = -1 ∧
      (x ≠ 0 → ∃ r : Nat, r ≤ 31 ∧ FindFirstSet x = (r : Int) ∧
        Nat.testBit (toU32 x) r = true ∧ ∀ j, j < r → Nat.testBit (toU32 x) j = false) ∧
      (0 ≤ FindFirstSet x + 1 ∧ FindFirstSet x + 1 ≤ 32 ∧
        FindFirstSet x + 1 < (s_CodeToStringLookup_length : Int)) ∧
      ∀ w : World, Throw w x ≠ .undefined := by
  have hidx := FindFirstSet_index x hlo hhi
  have hlen : (s_CodeToStringLookup_length : Int) = 34 := rfl
  refine ⟨by decide, ?_, ⟨hidx.1, hidx.2, by omega⟩, ?_⟩
  · intro hx
    obtain ⟨r, hr, hf, h0, h1⟩ := FindFirstSet_bits x hlo hhi hx
    obtain ⟨hb, hlow⟩ := lowest_bit_of (toU32 x) r h0 h1
    exact ⟨r, hr, hf, hb, hlow⟩
  · intro w
    have hin : 0 ≤ FindFirstSet x + 1 ∧ FindFirstSet x + 1 < (s_CodeToStringLookup_length : Int) :=
      ⟨hidx.1, by omega⟩
    unfold Throw
    by_cases hpos : x > ERR_CODE_NONE
    · simp only [hpos, if_true, hin, and_self, Outcome.bind]
      split <;> simp [Terminate]
    · simp only [hpos, if_false, Outcome.bind]
      split <;> simp [Terminate]

/-- C22 at `ERR_CODE_FATAL`, the most negative `int`: the result is 31 and
the index is 32. -/
theorem C22_findFirstSet_lowest_bit_witness :
    (-2147483648 ≤ ERR_CODE_FATAL ∧ ERR_CODE_FATAL ≤ 2147483647) ∧
      FindFirstSet ERR_CODE_FATAL = 31 ∧
      (∃ r : Nat, r ≤ 31 ∧ FindFirstSet ERR_CODE_FATAL = (r : Int) ∧
        Nat.testBit (toU32 ERR_CODE_FATAL) r = true ∧
        ∀ j, j < r → Nat.testBit (toU32 ERR_CODE_FATAL) j = false) ∧
      FindFirstSet ERR_CODE_FATAL + 1 < (s_CodeToStringLookup_length : Int) :=
  ⟨by decide, by decide,
    (C22_findFirstSet_lowest_bit ERR_CODE_FATAL (by decide) (by decide)).2.1 (by decide),
    (C22_findFirstSet_lowest_bit ERR_CODE_FATAL (by decide) (by decide)).2.2.1.2.2⟩

end GetBepis
